import Mathlib

/-!
# Physical page allocator and page-table mapper of `kern/pmap.c`

A shallow embedding of the page-frame allocator (`page_alloc`, `page_free`,
`page_decref`) and of the two-level page-table code (`pgdir_walk`,
`page_lookup`, `page_remove`, `page_insert`) of `kern/pmap.c`, followed by
theorems about them.

Conventions of the embedding.

* A `struct Page *` is the index of the descriptor in the array `pages`;
  the null pointer `NIL` is `none`.
* Kernel memory is word addressed by *physical* byte address: the kernel
  virtual address `KADDR(pa)` and the physical address `pa` differ by the
  constant `KERNBASE`, so a `pte_t *` or `pde_t *` is represented by the
  physical address of the 32-bit word it points at.  The page directory and
  the second-level tables live in this one memory, so a directory that maps
  itself as a table (as `mem_init` does at `UVPT`) aliases the way it does in
  the kernel.
* A function that may end in `panic` returns an `Outcome`.
* `cprintf` output is not part of the state.
-/

namespace Pmap

/-! ## Constants and address arithmetic (`inc/mmu.h`, `inc/error.h`, `kern/pmap.h`) -/

/-- Modelled from the spec: `inc/mmu.h` is not among the sources; a frame is
the fixed-size unit of physical memory, 4096 bytes on x86. -/
def PGSIZE : Nat := 4096

/-- Modelled from the spec: log2 of `PGSIZE` (`inc/mmu.h`). -/
def PGSHIFT : Nat := 12

/-- Modelled from the spec: number of leaf entries of one second-level table
(`inc/mmu.h`). -/
def NPTENTRIES : Nat := 1024

/-- Modelled from the spec: number of entries of a page directory
(`inc/mmu.h`). -/
def NPDENTRIES : Nat := 1024

/-- Modelled from the spec: the "present" permission bit (`inc/mmu.h`). -/
def PTE_P : Nat := 0x001

/-- Modelled from the spec: the "writable" permission bit (`inc/mmu.h`). -/
def PTE_W : Nat := 0x002

/-- Modelled from the spec: the "user-accessible" permission bit
(`inc/mmu.h`). -/
def PTE_U : Nat := 0x004

/-- Modelled from the spec: the `zero_fill` flag of `allocate`
(`ALLOC_ZERO` of `kern/pmap.h`). -/
def ALLOC_ZERO : Nat := 1

/-- Modelled from the spec: `create` is false (`check_page` passes `0`). -/
def NO_CREATE : Nat := 0

/-- Modelled from the spec: `create` is true (`check_page` passes `1`). -/
def CREATE : Nat := 1

/-- Modelled from the spec: the "out of memory" error code (`inc/error.h`). -/
def E_NO_MEM : Int := 4

/-- Modelled from the spec: the unspecified error code (`inc/error.h`). -/
def E_UNSPECIFIED : Int := 1

/-- Truncation to a 32-bit machine word (`uint32_t`, `pte_t`, `pde_t`,
`physaddr_t`). -/
def u32 (x : Nat) : Nat := x % 2 ^ 32

/-- Modelled from the spec: the reference count is a non-negative machine
integer; `struct Page` (`inc/memlayout.h`) is not among the sources, the
field `pp_ref` is a 16-bit unsigned integer there. -/
def PP_REF_MOD : Nat := 2 ^ 16

/-- Modelled from the spec: page number field of an address,
`PGNUM(la) = la >> PGSHIFT` (`inc/mmu.h`). -/
def PGNUM (la : Nat) : Nat := la >>> PGSHIFT

/-- Modelled from the spec: page directory index, the high-order ten bits of
a virtual address, `PDX(la) = (la >> 22) & 0x3FF` (`inc/mmu.h`). -/
def PDX (la : Nat) : Nat := (la >>> 22) &&& 0x3FF

/-- Modelled from the spec: page table index, `PTX(la) = (la >> 12) & 0x3FF`
(`inc/mmu.h`). -/
def PTX (la : Nat) : Nat := (la >>> 12) &&& 0x3FF

/-- Modelled from the spec: address part of a directory or leaf entry,
`PTE_ADDR(pte) = pte & ~0xFFF` on 32 bits (`inc/mmu.h`). -/
def PTE_ADDR (pte : Nat) : Nat := pte &&& 0xFFFFF000

/-! ## Data model -/

/-- Frame descriptor `struct Page`: free-list successor, reference count and
the physical address recorded by `page_init`. -/
structure Page where
  pp_link : Option Nat
  pp_ref : Nat
  paddr : Nat
deriving DecidableEq

/-- The globals of `kern/pmap.c` together with physical memory:
`npages`, the array `pages`, the head `page_free_list`, the memory words
(page directories and tables among them) and the log of `invlpg`
invalidations issued by `tlb_invalidate`. -/
structure State where
  npages : Nat
  pages : Nat → Page
  page_free_list : Option Nat
  mem : Nat → Nat
  tlb : List Nat

/-- Outcome of a kernel function: it returns a value, or the kernel halts in
`panic`. -/
inductive Outcome (α : Type) where
  | ret : α → Outcome α
  | halt : Outcome α

/-- Read of the 32-bit word at physical address `a`. -/
def rd (s : State) (a : Nat) : Nat := u32 (s.mem a)

/-- Store of a 32-bit word at physical address `a`. -/
def wr (s : State) (a v : Nat) : State :=
  { s with mem := Function.update s.mem a (u32 v) }

/-- Assignment to the field `pp_link` of descriptor `i`. -/
def set_link (s : State) (i : Nat) (l : Option Nat) : State :=
  { s with pages := Function.update s.pages i { s.pages i with pp_link := l } }

/-- Assignment to the field `pp_ref` of descriptor `i`. -/
def set_ref (s : State) (i : Nat) (r : Nat) : State :=
  { s with pages := Function.update s.pages i { s.pages i with pp_ref := r } }

/-- The call `memset (dst, c, n)` on word-aligned memory: every word of
`[dst, dst + n)` is filled with the byte `c`. -/
def memset (s : State) (dst c n : Nat) : State :=
  { s with mem := fun a =>
      if dst ≤ a ∧ a < dst + n then (c % 256) * 0x01010101 else s.mem a }

/-- Physical address of frame `i`: `page2pa(pp) = (pp - pages) << PGSHIFT`
(`kern/pmap.h`). -/
def page2pa (i : Nat) : Nat := u32 (i <<< PGSHIFT)

/-- Modelled from the spec: `pa2page` of `kern/pmap.h` is not among the
sources; a frame index out of the known range is an invariant violation that
halts the kernel, otherwise the descriptor `&pages[PGNUM(pa)]` is returned. -/
def pa2page (s : State) (pa : Nat) : Outcome Nat :=
  if s.npages ≤ PGNUM pa then Outcome.halt else Outcome.ret (PGNUM pa)

/-- Modelled from the spec: `KADDR` of `kern/pmap.h` is not among the
sources; it halts the kernel for a physical address beyond the known frames
and otherwise yields the kernel pointer to that physical address. -/
def KADDR (s : State) (pa : Nat) : Outcome Nat :=
  if s.npages ≤ PGNUM pa then Outcome.halt else Outcome.ret pa

/-- Address of the directory entry covering `va`: `&pgdir[PDX (va)]`. -/
def pde_slot (pgdir va : Nat) : Nat := pgdir + 4 * PDX va

/-- The statement `pp->pp_ref++` on the 16-bit count of descriptor `i`. -/
def inc_ref (s : State) (i : Nat) : State :=
  set_ref s i (((s.pages i).pp_ref + 1) % PP_REF_MOD)

/-! ## The allocator -/

/-- Embedding of `page_alloc`: pop the free-list head, clear its link,
zero the frame when `ALLOC_ZERO` is requested, force the count to 0. -/
def page_alloc (s : State) (alloc_flags : Nat) :
    Outcome (Option Nat × State) :=
  match s.page_free_list with
  | none => Outcome.ret (none, s)
  | some ret_page =>
    let s1 : State := { s with page_free_list := (s.pages ret_page).pp_link }
    let s2 := set_link s1 ret_page none
    if ALLOC_ZERO &&& alloc_flags ≠ 0 then
      match KADDR s2 (s2.pages ret_page).paddr with
      | Outcome.halt => Outcome.halt
      | Outcome.ret kva =>
        Outcome.ret (some ret_page, set_ref (memset s2 kva 0 PGSIZE) ret_page 0)
    else
      Outcome.ret (some ret_page, set_ref s2 ret_page 0)

/-- Embedding of `page_free`: nothing for `NIL` or a frame number out of
range, otherwise push on the free-list head. -/
def page_free (s : State) (pp : Option Nat) : State :=
  match pp with
  | none => s
  | some p =>
    if s.npages ≤ PGNUM (s.pages p).paddr then s
    else
      let s1 := set_link s p s.page_free_list
      { s1 with page_free_list := some p }

/-- Embedding of `page_decref`: pre-decrement of the unsigned count, then
`page_free` when the new value is 0. -/
def page_decref (s : State) (pp : Nat) : State :=
  let s1 := set_ref s pp (((s.pages pp).pp_ref + (PP_REF_MOD - 1)) % PP_REF_MOD)
  if (s1.pages pp).pp_ref = 0 then page_free s1 (some pp) else s1

/-- Embedding of `tlb_invalidate`: `invlpg (va)`, recorded in the log. -/
def tlb_invalidate (s : State) (_pgdir va : Nat) : State :=
  { s with tlb := va :: s.tlb }

/-! ## The mapper -/

/-- Embedding of `pgdir_walk`: the pointer to the leaf slot of `va`, or
`NULL`; with `create` set a missing second-level table is allocated. -/
def pgdir_walk (s : State) (pgdir va create : Nat) :
    Outcome (Option Nat × State) :=
  if PTE_P &&& rd s (pde_slot pgdir va) ≠ 0 then
    match pa2page s (rd s (pde_slot pgdir va)) with
    | Outcome.halt => Outcome.halt
    | Outcome.ret pde_pg =>
      match KADDR s (s.pages pde_pg).paddr with
      | Outcome.halt => Outcome.halt
      | Outcome.ret kva => Outcome.ret (some (kva + 4 * PTX va), s)
  else if NO_CREATE = create then Outcome.ret (none, s)
  else
    match page_alloc s ALLOC_ZERO with
    | Outcome.halt => Outcome.halt
    | Outcome.ret (none, s1) => Outcome.ret (none, s1)
    | Outcome.ret (some pde_pg, s1) =>
      let s2 := inc_ref s1 pde_pg
      let s3 := wr s2 (pde_slot pgdir va)
        ((s2.pages pde_pg).paddr ||| PTE_P ||| PTE_W)
      match KADDR s3 (s3.pages pde_pg).paddr with
      | Outcome.halt => Outcome.halt
      | Outcome.ret kva => Outcome.ret (some (kva + 4 * PTX va), s3)

/-- Embedding of `page_lookup`: returns the mapped frame (or `NIL`), the
value left in `*pte_store`, and the state. -/
def page_lookup (s : State) (pgdir va : Nat) :
    Outcome (Option Nat × Option Nat × State) :=
  match pgdir_walk s pgdir va NO_CREATE with
  | Outcome.halt => Outcome.halt
  | Outcome.ret (none, s1) => Outcome.ret (none, none, s1)
  | Outcome.ret (some pte, s1) =>
    if rd s1 pte &&& PTE_P = 0 then Outcome.ret (none, some pte, s1)
    else
      match pa2page s1 (PTE_ADDR (rd s1 pte)) with
      | Outcome.halt => Outcome.halt
      | Outcome.ret pg => Outcome.ret (some pg, some pte, s1)

/-- Embedding of `page_remove` (built without `__PT_REF__` and
`__PD_REF__`, as the file is: `__ALL_COUNT__` is commented out). The third
branch is a store through a null `rm_pte`; `page_lookup` never returns a
frame without its slot. -/
def page_remove (s : State) (pgdir va : Nat) : Outcome State :=
  match page_lookup s pgdir va with
  | Outcome.halt => Outcome.halt
  | Outcome.ret (none, _, s1) => Outcome.ret s1
  | Outcome.ret (some _, none, _) => Outcome.halt
  | Outcome.ret (some rm_page, some rm_pte, s1) =>
    let s2 := page_decref s1 rm_page
    let s3 := if (s2.pages rm_page).pp_ref = 0 then tlb_invalidate s2 pgdir va
              else s2
    Outcome.ret (wr s3 rm_pte 0)

/-- Embedding of `page_insert`; the result is the returned `int` and the
state. -/
def page_insert (s : State) (pgdir : Nat) (pp : Option Nat) (va perm : Nat) :
    Outcome (Int × State) :=
  match pgdir_walk s pgdir va CREATE with
  | Outcome.halt => Outcome.halt
  | Outcome.ret (none, s1) => Outcome.ret (-E_NO_MEM, s1)
  | Outcome.ret (some ptep, s1) =>
    match pp with
    | none => Outcome.ret (-E_UNSPECIFIED, s1)
    | some p =>
      let s2 := wr s1 (pde_slot pgdir va) (rd s1 (pde_slot pgdir va) ||| perm)
      if (s2.pages p).paddr ≠ PTE_ADDR (rd s2 ptep) then
        let s3 := inc_ref s2 p
        if rd s3 ptep &&& PTE_P ≠ 0 then
          match page_remove s3 pgdir va with
          | Outcome.halt => Outcome.halt
          | Outcome.ret s4 =>
            Outcome.ret (0, wr s4 ptep (page2pa p ||| perm ||| PTE_P))
        else
          Outcome.ret (0, wr s3 ptep (page2pa p ||| perm ||| PTE_P))
      else
        Outcome.ret (0, wr s2 ptep (page2pa p ||| perm ||| PTE_P))

/-! ## Bootstrap allocation and the initial free list -/

/-- Modelled from the spec: the known offset between kernel virtual addresses
and physical addresses (`KERNBASE` of `inc/memlayout.h`, not among the
sources). -/
def KERNBASE : Nat := 0xF0000000

/-- Modelled from the spec: `ROUNDDOWN (a, n)` of `inc/types.h` on 32-bit
values, `a - a % n`. -/
def ROUNDDOWN (a n : Nat) : Nat := u32 a - u32 a % n

/-- Modelled from the spec: rounding up to the frame size, `ROUNDUP (a, n)`
of `inc/types.h`: `ROUNDDOWN (a + n - 1, n)` on 32-bit values. -/
def ROUNDUP (a n : Nat) : Nat := ROUNDDOWN (u32 a + n - 1) n

/-- Modelled from the spec: `PADDR` of `kern/pmap.h` is not among the
sources; it halts the kernel for an address below `KERNBASE` and otherwise
subtracts `KERNBASE`. -/
def PADDR (kva : Nat) : Outcome Nat :=
  if kva < KERNBASE then Outcome.halt else Outcome.ret (kva - KERNBASE)

/-- The variables only the bootstrap code touches: the static `nextfree` of
`boot_alloc` (0 while not initialised), `nAvailPages` and
`tail_free_page`. -/
structure Boot where
  nextfree : Nat
  nAvailPages : Nat
  tail_free_page : Option Nat

/-- Embedding of `boot_alloc`; `kern_end` is the linker symbol `end`. The
result is the returned kernel virtual address. -/
def boot_alloc (kern_end npages : Nat) (b : Boot) (n : Nat) :
    Outcome (Nat × Boot) :=
  let b1 : Boot :=
    if b.nextfree = 0 then
      { b with nAvailPages := npages, nextfree := ROUNDUP kern_end PGSIZE }
    else b
  let amount_pages := if n % PGSIZE ≠ 0 then n / PGSIZE + 1 else n / PGSIZE
  if b1.nAvailPages < amount_pages then Outcome.halt
  else if 0 ≠ n then
    Outcome.ret (b1.nextfree,
      { b1 with
        nAvailPages := b1.nAvailPages - amount_pages
        nextfree := ROUNDUP (u32 (b1.nextfree + amount_pages * PGSIZE)) PGSIZE })
  else Outcome.ret (b1.nextfree, b1)

/-- Assignment to the field `paddr` of descriptor `i`. -/
def set_paddr (s : State) (i : Nat) (pa : Nat) : State :=
  { s with pages := Function.update s.pages i { s.pages i with paddr := pa } }

/-- The three assignments `page_init` makes to a descriptor: count 0, the
given link, and `page2pa` of the descriptor as recorded address. -/
def init_page (s : State) (i : Nat) (l : Option Nat) : State :=
  set_paddr (set_link (set_ref s i 0) i l) i (page2pa i)

/-- Embedding of `page_init`. `IOPHYSMEM` and `EXTPHYSMEM` are the constants
of `inc/memlayout.h`, not among the sources, taken as parameters. The two
`for` loops are folds over their index ranges. The indices `npages - 1`,
`PGNUM (IOPHYSMEM) - 1` and `PGNUM (next_boot_free) - 1` are natural-number
subtractions: where C would index before the array (a value of 0) the model
stores into descriptor 0, so the statements below take `1 < PGNUM (IOPHYSMEM)`
and `npages` above the bootstrap mark. -/
def page_init (kern_end IOPHYSMEM EXTPHYSMEM : Nat) (b : Boot) (s : State) :
    Outcome (Boot × State) :=
  let s1 : State := { s with page_free_list := some 0 }
  let s2 := (List.range' 1 (s1.npages - 1)).foldl
    (fun t i => init_page t (i - 1) (some i)) s1
  let s3 := init_page s2 (s2.npages - 1) none
  let b1 : Boot := { b with tail_free_page := some (s3.npages - 1) }
  let s4 := set_link (set_ref s3 0 1) 0 none
  let s5 : State := { s4 with page_free_list := some 1 }
  match boot_alloc kern_end s5.npages b1 0 with
  | Outcome.halt => Outcome.halt
  | Outcome.ret (kva, b2) =>
    match PADDR kva with
    | Outcome.halt => Outcome.halt
    | Outcome.ret next_boot_free =>
      let s6 := (List.range' (PGNUM EXTPHYSMEM)
          (PGNUM next_boot_free - PGNUM EXTPHYSMEM)).foldl
        (fun t i => set_ref t i 1) s5
      let s7 := set_link s6 (PGNUM IOPHYSMEM - 1) (some (PGNUM next_boot_free))
      let s8 := set_link s7 (PGNUM next_boot_free - 1) none
      let s9 := set_link s8 0 (some (PGNUM IOPHYSMEM))
      let avail := u32 (b2.nAvailPages + 2 ^ 32
        - u32 (1 + u32 (PGNUM EXTPHYSMEM + 2 ^ 32 - u32 (PGNUM IOPHYSMEM))))
      Outcome.ret ({ b2 with nAvailPages := avail }, s9)

/-! ## Notions used by the statements -/

/-- An entry carries the present bit. -/
def present (e : Nat) : Prop := PTE_P &&& e ≠ 0

instance (e : Nat) : Decidable (present e) := by
  unfold present
  exact inferInstance

/-- The second-level table of `va` exists: the directory entry is present and
refers to a frame of the machine whose recorded address is one too. -/
def table_ok (s : State) (pgdir va : Nat) : Prop :=
  present (rd s (pde_slot pgdir va)) ∧
  PGNUM (rd s (pde_slot pgdir va)) < s.npages ∧
  PGNUM (s.pages (PGNUM (rd s (pde_slot pgdir va)))).paddr < s.npages

instance (s : State) (pgdir va : Nat) : Decidable (table_ok s pgdir va) := by
  unfold table_ok
  exact inferInstance

/-- Address of the leaf entry of `va` in the table the directory entry
refers to: `KADDR (pde_pg->paddr) + PTX (va)`. -/
def leaf_slot (s : State) (pgdir va : Nat) : Nat :=
  (s.pages (PGNUM (rd s (pde_slot pgdir va)))).paddr + 4 * PTX va

/-- Frame `f` is mapped at `va`: the table exists and the leaf entry is
present with page number `f`, a frame of the machine. -/
def mapped (s : State) (pgdir va f : Nat) : Prop :=
  table_ok s pgdir va ∧ present (rd s (leaf_slot s pgdir va)) ∧
  PGNUM (rd s (leaf_slot s pgdir va)) = f ∧ f < s.npages

instance (s : State) (pgdir va f : Nat) : Decidable (mapped s pgdir va f) := by
  unfold mapped
  exact inferInstance

/-- The chain of `pp_link` successors from `head` is exactly the list `l`
and ends in `NIL`. -/
def free_chain (s : State) : Option Nat → List Nat → Prop
  | h, [] => h = none
  | h, x :: xs => h = some x ∧ free_chain s (s.pages x).pp_link xs

/-- The pointer reached from `head` after `k` steps along `pp_link`. -/
def follow (s : State) : Nat → Option Nat → Option Nat
  | 0, h => h
  | k + 1, h =>
    match h with
    | none => none
    | some x => follow s k (s.pages x).pp_link

/-- Frame `p` is reachable from the free-list head. -/
def on_free_list (s : State) (p : Nat) : Prop :=
  ∃ k, follow s k s.page_free_list = some p

/-- Well-formedness of the descriptor array, kept by every operation below
(the `WF_` lemmas): at most `2 ^ 20` frames (32-bit physical addresses), the
recorded address of a frame is `page2pa` of it (the value `page_init` stores
in `paddr`), counts are 16-bit values, and every descriptor pointer held in
the state points into `pages`. -/
structure WF (s : State) : Prop where
  npages_le : s.npages ≤ 2 ^ 20
  paddr_eq : ∀ i, i < s.npages → (s.pages i).paddr = page2pa i
  ref_lt : ∀ i, (s.pages i).pp_ref < PP_REF_MOD
  head_lt : ∀ h, s.page_free_list = some h → h < s.npages
  link_lt : ∀ i j, (s.pages i).pp_link = some j → j < s.npages

/-- The state after the statement `pgdir[PDX (va)] |= perm`. -/
def dir_perm (s : State) (pgdir va perm : Nat) : State :=
  wr s (pde_slot pgdir va) (rd s (pde_slot pgdir va) ||| perm)

/-- The leaf entry `page_insert` writes: `page2pa (pp) | perm | PTE_P`. -/
def new_pte (p perm : Nat) : Nat := page2pa p ||| perm ||| PTE_P

/-- The byte at physical address `a`, read from the 32-bit word that holds it
(little endian, as on x86). -/
def rd_byte (s : State) (a : Nat) : Nat :=
  (rd s (a - a % 4) >>> (8 * (a % 4))) % 256

/-- The value `boot_alloc (0)` returns: the current high-water mark. -/
def boot_mark (kern_end : Nat) (b : Boot) : Nat :=
  if b.nextfree = 0 then ROUNDUP kern_end PGSIZE else b.nextfree

/-- Successive `page_alloc` calls, one for each element of `flags`; the
returned pointers are collected in call order. -/
def page_alloc_seq (s : State) : List Nat → Outcome (List (Option Nat) × State)
  | [] => Outcome.ret ([], s)
  | f :: fs =>
    match page_alloc s f with
    | Outcome.halt => Outcome.halt
    | Outcome.ret (r, s1) =>
      match page_alloc_seq s1 fs with
      | Outcome.halt => Outcome.halt
      | Outcome.ret (rs, s2) => Outcome.ret (r :: rs, s2)

/-- Successive `page_free` calls on the frames of `ps`, in list order. -/
def page_free_seq (s : State) (ps : List Nat) : State :=
  ps.foldl (fun t p => page_free t (some p)) s

/-! ## The bootstrap counters and `boot_map_region` -/

/-- The number of frames `boot_alloc (n)` takes: `n / PGSIZE`, plus one when
`n % PGSIZE` is not 0. -/
def amount_pages (n : Nat) : Nat :=
  if n % PGSIZE ≠ 0 then n / PGSIZE + 1 else n / PGSIZE

/-- The remaining-page counter as `boot_alloc` sees it: `npages` while
`nextfree` is not initialised, `nAvailPages` afterwards. -/
def boot_avail (npages : Nat) (b : Boot) : Nat :=
  if b.nextfree = 0 then npages else b.nAvailPages

/-- The body of the `for` loop of `boot_map_region`, `n` iterations from
offset `i`: the walk with `create`, the `assert (NIL != ptep)` and the store
`*ptep = PTE_ADDR (pa + i) | perm | PTE_P`. Both sums are 32-bit. -/
def boot_map_loop (pgdir va pa perm : Nat) : Nat → Nat → State → Outcome State
  | 0, _, s => Outcome.ret s
  | n + 1, i, s =>
    match pgdir_walk s pgdir (u32 (va + i)) CREATE with
    | Outcome.halt => Outcome.halt
    | Outcome.ret (none, _) => Outcome.halt
    | Outcome.ret (some ptep, s1) =>
      boot_map_loop pgdir va pa perm n (i + PGSIZE)
        (wr s1 ptep (PTE_ADDR (u32 (pa + i)) ||| perm ||| PTE_P))

/-- Embedding of `boot_map_region`. After `size = ROUNDUP (size, PGSIZE)` the
loop `for (i = 0; i < size; i += PGSIZE)` makes `size / PGSIZE` iterations
and `i` never leaves the 32-bit range, `size` being a multiple of `PGSIZE`
below `2 ^ 32`. -/
def boot_map_region (s : State) (pgdir va size pa perm : Nat) : Outcome State :=
  boot_map_loop pgdir va pa perm (ROUNDUP size PGSIZE / PGSIZE) 0 s

/-- Embedding of `check_va2pa`: the physical address the tables give for
`va`, or `~0` when the directory entry or the leaf entry is not present. -/
def check_va2pa (s : State) (pgdir va : Nat) : Outcome Nat :=
  if rd s (pde_slot pgdir va) &&& PTE_P = 0 then Outcome.ret 0xFFFFFFFF
  else
    match KADDR s (PTE_ADDR (rd s (pde_slot pgdir va))) with
    | Outcome.halt => Outcome.halt
    | Outcome.ret p =>
      if rd s (p + 4 * PTX va) &&& PTE_P = 0 then Outcome.ret 0xFFFFFFFF
      else Outcome.ret (PTE_ADDR (rd s (p + 4 * PTX va)))

/-! ## The page-fault decision (`kern/trap.c`) -/

/-- Modelled from the spec: the privilege level at fault time, the low two
bits of the saved code-segment selector (`SEL_PL` of `inc/mmu.h`, not among
the sources). -/
def SEL_PL (sel : Nat) : Nat := sel &&& 3

/-- The ways `page_fault_handler` ends, each with the memory-management state
at that point and the number of `env_destroy (curenv)` requests made:
it runs to its end, or the kernel halts in `panic`, or the handler reads
through the null pointer a walk returned. -/
inductive Handled where
  | returned (s : State) (destroyed : Nat) : Handled
  | panicked (s : State) (destroyed : Nat) : Handled
  | null_read (s : State) (destroyed : Nat) : Handled

/-- Embedding of `page_fault_handler`. `tf_cs` is the saved code segment,
`fault_va` the value of `rcr2 ()`, `env_pgdir` is `curenv->env_pgdir`.
Modelled from the spec: `env_destroy` (`kern/env.c`) is not among the sources;
the request to terminate the current environment is counted. The inspection
of the permission bits of `*ptep` only reads. -/
def page_fault_handler (s : State) (tf_cs fault_va env_pgdir : Nat) : Handled :=
  if SEL_PL tf_cs = 0 then Handled.panicked s 0
  else
    match pgdir_walk s env_pgdir fault_va NO_CREATE with
    | Outcome.halt => Handled.panicked s 0
    | Outcome.ret (none, s1) => Handled.null_read s1 0
    | Outcome.ret (some ptep, s1) =>
      let s2 :=
        if PTE_P &&& rd s1 ptep ≠ 0 then
          (if PTE_U &&& rd s1 ptep = 0 then s1
           else if PTE_W &&& rd s1 ptep = 0 then s1 else s1)
        else s1
      Handled.returned s2 1

/-! ## Free-list well-formedness -/

/-- The free list is well formed: from the head the links run through a list
of frames ending in `NIL`, no frame twice, every frame below `npages` and
with count 0. -/
def free_list_ok (s : State) : Prop :=
  ∃ l, free_chain s s.page_free_list l ∧ l.Nodup ∧
    ∀ x, x ∈ l → x < s.npages ∧ (s.pages x).pp_ref = 0

/-! ## Runs of calls -/

/-- Successive `page_insert` calls on the directory `pgdir`, one for each
triple (frame, address, permissions) of `calls`; the returned codes are
collected in call order. -/
def page_insert_seq (s : State) (pgdir : Nat) :
    List (Nat × Nat × Nat) → Outcome (List Int × State)
  | [] => Outcome.ret ([], s)
  | (p, va, perm) :: cs =>
    match page_insert s pgdir (some p) va perm with
    | Outcome.halt => Outcome.halt
    | Outcome.ret (rv, s1) =>
      match page_insert_seq s1 pgdir cs with
      | Outcome.halt => Outcome.halt
      | Outcome.ret (rs, s2) => Outcome.ret (rv :: rs, s2)

/-- The directory `pgdir` is out of the way of the mapper: well-formed
descriptors, the frame holding the directory is not free, no present
directory entry points at it, and no present word of a frame a present
directory entry points at has its page number. -/
structure DirSafe (s : State) (pgdir : Nat) : Prop where
  wf : WF s
  dir_not_free : ¬ on_free_list s (PGNUM pgdir)
  tables : ∀ i, i < NPDENTRIES → present (rd s (pgdir + 4 * i)) →
    PGNUM (rd s (pgdir + 4 * i)) ≠ PGNUM pgdir
  leaves : ∀ i, i < NPDENTRIES → present (rd s (pgdir + 4 * i)) →
    ∀ x, PGNUM x = PGNUM (rd s (pgdir + 4 * i)) → present (rd s x) →
      PGNUM (rd s x) ≠ PGNUM pgdir

/-! ## The tables of one directory -/

/-- The leaf entry the walk of the hardware finds for `va`: the word at index
`PTX (va)` of the table whose address the directory entry holds, and 0 when
the directory entry is not present. -/
def pte (s : State) (pgdir va : Nat) : Nat :=
  if present (rd s (pde_slot pgdir va)) then
    rd s (PTE_ADDR (rd s (pde_slot pgdir va)) + 4 * PTX va)
  else 0

/-- Two addresses have the same directory index and the same table index:
they share their leaf entry. -/
def same_page (a b : Nat) : Prop := PDX a = PDX b ∧ PTX a = PTX b

instance (a b : Nat) : Decidable (same_page a b) := by
  unfold same_page
  exact inferInstance

/-- The directory is its own second-level table at `va`: the directory entry
covering `va` is present and points at the frame of the directory, as
`mem_init` arranges at `UVPT`. -/
def own_table (s : State) (pgdir va : Nat) : Prop :=
  present (rd s (pde_slot pgdir va)) ∧
  PGNUM (rd s (pde_slot pgdir va)) = PGNUM pgdir

instance (s : State) (pgdir va : Nat) : Decidable (own_table s pgdir va) := by
  unfold own_table
  exact inferInstance

/-- The tables of the directory `pgdir` are apart: the free list is the
duplicate-free chain `l`, the frame of the directory is not free, a present
directory entry points at a frame of the machine that is not free, and two
present entries point at the same frame only when that frame is the
directory itself. -/
structure TablesApart (s : State) (pgdir : Nat) (l : List Nat) : Prop where
  wf : WF s
  chain : free_chain s s.page_free_list l
  nodup : l.Nodup
  dir_not_free : PGNUM pgdir ∉ l
  table_lt : ∀ i, i < NPDENTRIES → present (rd s (pgdir + 4 * i)) →
    PGNUM (rd s (pgdir + 4 * i)) < s.npages
  table_not_free : ∀ i, i < NPDENTRIES → present (rd s (pgdir + 4 * i)) →
    PGNUM (rd s (pgdir + 4 * i)) ∉ l
  apart : ∀ i j, i < NPDENTRIES → j < NPDENTRIES → i ≠ j →
    present (rd s (pgdir + 4 * i)) → present (rd s (pgdir + 4 * j)) →
    PGNUM (rd s (pgdir + 4 * i)) = PGNUM (rd s (pgdir + 4 * j)) →
    PGNUM (rd s (pgdir + 4 * i)) = PGNUM pgdir

/-! ## Counting the entries that refer to a frame -/

/-- Entry `i` of the directory `pgdir`. -/
def entry (s : State) (pgdir i : Nat) : Nat := rd s (pgdir + 4 * i)

/-- Entry `k` of the table directory entry `i` points at. -/
def leaf (s : State) (pgdir i k : Nat) : Nat :=
  rd s (page2pa (PGNUM (entry s pgdir i)) + 4 * k)

/-- Leaf entry `p.2` of table `p.1` is present, under a present directory
entry, and maps frame `f`. -/
def maps (s : State) (pgdir f : Nat) (p : Nat × Nat) : Prop :=
  present (entry s pgdir p.1) ∧ present (leaf s pgdir p.1 p.2) ∧
  PGNUM (leaf s pgdir p.1 p.2) = f

instance (s : State) (pgdir f : Nat) (p : Nat × Nat) : Decidable (maps s pgdir f p) := by
  unfold maps
  exact inferInstance

/-- Directory entry `i` is present and points at frame `f` as its table. -/
def points (s : State) (pgdir f i : Nat) : Prop :=
  present (entry s pgdir i) ∧ PGNUM (entry s pgdir i) = f

instance (s : State) (pgdir f i : Nat) : Decidable (points s pgdir f i) := by
  unfold points
  exact inferInstance

/-- The number of present leaf entries of the address space `pgdir` that map
frame `f`: the count runs over the `NPDENTRIES * NPTENTRIES` leaf slots, slot
`n` being entry `n % NPTENTRIES` of table `n / NPTENTRIES`. -/
def leaf_refs (s : State) (pgdir f : Nat) : Nat :=
  ((Finset.range (NPDENTRIES * NPTENTRIES)).filter
    (fun n => maps s pgdir f (n / NPTENTRIES, n % NPTENTRIES))).card

/-- The number of present directory entries of `pgdir` that point at frame
`f` as a second-level table. -/
def dir_refs (s : State) (pgdir f : Nat) : Nat :=
  ((Finset.range NPDENTRIES).filter (points s pgdir f)).card

/-- The entries of the address space `pgdir` refer to managed frames only
(the frames of `M`): a present directory entry points at a managed frame, no
two at the same one, a present leaf entry maps a managed frame, and a leaf
entry that is not present is 0. -/
structure Layout (s : State) (pgdir : Nat) (M : List Nat) : Prop where
  tables : ∀ i, i < NPDENTRIES → present (entry s pgdir i) → PGNUM (entry s pgdir i) ∈ M
  apart : ∀ i j, i < NPDENTRIES → j < NPDENTRIES → present (entry s pgdir i) →
    present (entry s pgdir j) → PGNUM (entry s pgdir i) = PGNUM (entry s pgdir j) → i = j
  leaves : ∀ i k, i < NPDENTRIES → k < NPTENTRIES → present (entry s pgdir i) →
    (present (leaf s pgdir i k) → PGNUM (leaf s pgdir i k) ∈ M) ∧
    (¬ present (leaf s pgdir i k) → leaf s pgdir i k = 0)

/-- The counting invariant of the address space `pgdir` over the managed
frames `M`: well-formed descriptors, a duplicate-free free list of managed
frames with count 0, the frame of the directory and frame 0 not managed, the
entries in `Layout`, and for every managed frame the count equal to the
number of entries that refer to it. -/
structure Counted (s : State) (pgdir : Nat) (M : List Nat) : Prop where
  wf : WF s
  free : ∃ l, free_chain s s.page_free_list l ∧ l.Nodup ∧
    ∀ x, x ∈ l → x ∈ M ∧ (s.pages x).pp_ref = 0
  dir_out : PGNUM pgdir ∉ M
  zero_out : 0 ∉ M
  managed_lt : ∀ x, x ∈ M → x < s.npages
  layout : Layout s pgdir M
  counts : ∀ f, f ∈ M → (s.pages f).pp_ref = leaf_refs s pgdir f + dir_refs s pgdir f

/-- The initialiser `int pdx_limit = only_low_memory ? 1 : NPDENTRIES`. -/
def pdx_limit (only_low_memory : Bool) : Nat :=
  if only_low_memory then 1 else NPDENTRIES

/-- What an entry of the array `tp` (a `struct Page **`) points at: the local
`pp1`, the local `pp2`, or the field `pp_link` of descriptor `i`. -/
inductive Cell where
  | pp1 : Cell
  | pp2 : Cell
  | link (i : Nat) : Cell
deriving DecidableEq

/-- The variables of the reordering block: the machine state, the locals
`pp1` and `pp2`, and the two entries of `tp`. -/
structure Reorder where
  st : State
  pp1 : Option Nat
  pp2 : Option Nat
  tp0 : Cell
  tp1 : Cell

/-- The read `*c` of a `struct Page *` through a pointer `c`. -/
def cell_load (r : Reorder) : Cell → Option Nat
  | Cell.pp1 => r.pp1
  | Cell.pp2 => r.pp2
  | Cell.link i => (r.st.pages i).pp_link

/-- The assignment `*c = v` through a pointer `c`. -/
def cell_store (r : Reorder) : Cell → Option Nat → Reorder
  | Cell.pp1, v => { r with pp1 := v }
  | Cell.pp2, v => { r with pp2 := v }
  | Cell.link i, v => { r with st := set_link r.st i v }

/-- The loop `for (pp = page_free_list; pp; pp = pp->pp_link)` of the
reordering block, from the current `pp`: `pagetype` is
`PDX (page2pa (pp)) >= pdx_limit`, the body stores `pp` through `tp[pagetype]`
and lets `tp[pagetype]` point at `pp->pp_link`. The first argument bounds the
number of iterations; `none` is a loop that has not ended within the bound. -/
def reorder_loop (limit : Nat) : Nat → Option Nat → Reorder → Option Reorder
  | _, none, r => some r
  | 0, some _, _ => none
  | fuel + 1, some pp, r =>
    let r1 : Reorder :=
      if limit ≤ PDX (page2pa pp) then
        { cell_store r r.tp1 (some pp) with tp1 := Cell.link pp }
      else
        { cell_store r r.tp0 (some pp) with tp0 := Cell.link pp }
    reorder_loop limit fuel (r1.st.pages pp).pp_link r1

/-- Embedding of the block `if (only_low_memory) { ... }` of
`check_page_free_list`, entered with `only_low_memory` true: the loop, then
`*tp[1] = 0; *tp[0] = pp2; page_free_list = pp1;`. The locals `pp1` and `pp2`
are not initialised in the source; `u1` and `u2` are the values they happen to
hold. -/
def check_page_free_list_reorder (fuel : Nat) (s : State) (u1 u2 : Option Nat) :
    Option State :=
  match reorder_loop (pdx_limit true) fuel s.page_free_list
      { st := s, pp1 := u1, pp2 := u2, tp0 := Cell.pp1, tp1 := Cell.pp2 } with
  | none => none
  | some r =>
    let r1 := cell_store r r.tp1 none
    let r2 := cell_store r1 r1.tp0 r1.pp2
    some { r2.st with page_free_list := r2.pp1 }

/-- Frame `x` is of page type 0 in the reordering block: its address has
page-directory index below `pdx_limit`, that is, it lies below 4 MB. -/
def low_frame (x : Nat) : Bool := decide (PDX (page2pa x) < pdx_limit true)

/-- Following the pointers from the pointer `c`, the frames of the list `l`
come one after the other, and the `pp_link` of the last of them is the
pointer `c'` (which is `c` when `l` is empty); what `c'` points at is not
looked at. -/
def cell_path (r : Reorder) : Cell → List Nat → Cell → Prop
  | c, [], c' => c = c'
  | c, a :: l, c' => cell_load r c = some a ∧ cell_path r (Cell.link a) l c'

/-- The state `s'` differs from `s` at most in the free-list head and in the
`pp_link` of frames of the list `l`. -/
def links_only (s s' : State) (l : List Nat) : Prop :=
  s'.npages = s.npages ∧ s'.mem = s.mem ∧ s'.tlb = s.tlb ∧
  (∀ i, (s'.pages i).pp_ref = (s.pages i).pp_ref ∧ (s'.pages i).paddr = (s.pages i).paddr) ∧
  ∀ i, i ∉ l → (s'.pages i).pp_link = (s.pages i).pp_link

/-! ## Small machines used as concrete inputs -/

/-- A machine of 8 frames with the given memory, free-list head, links and
counts; the recorded address of every frame is `page2pa` of it. -/
def machine (mem : Nat → Nat) (head : Option Nat) (link : Nat → Option Nat)
    (ref : Nat → Nat) : State :=
  { npages := 8
    pages := fun i => { pp_link := link i, pp_ref := ref i, paddr := page2pa i }
    page_free_list := head
    mem := mem
    tlb := [] }

/-- Directory in frame 1; its entry 0 points at the table in frame 2, which is
empty. No free frame. -/
def stA : State :=
  machine (fun a => if a = 0x1000 then 0x2003 else 0) none (fun _ => none) (fun _ => 1)

/-- Directory in frame 1; its entry 0 points at the table in frame 3, whose
entry 0 maps frame 2. No free frame. -/
def stB : State :=
  machine (fun a => if a = 0x1000 then 0x3003 else if a = 0x3000 then 0x2003 else 0)
    none (fun _ => none) (fun _ => 1)

/-- Directory in frame 1; entry 0 points at the table in frame 2 and entry 1
at the directory itself, the way `mem_init` maps `kern_pgdir` at `UVPT`. -/
def stC : State :=
  machine (fun a => if a = 0x1000 then 0x2003 else if a = 0x1004 then 0x1003 else 0)
    none (fun _ => none) (fun _ => 1)

/-- The machine `stB` with the count of frame 4 at the top of its 16-bit
range. -/
def stO : State :=
  machine (fun a => if a = 0x1000 then 0x3003 else if a = 0x3000 then 0x2003 else 0)
    none (fun _ => none) (fun i => if i = 4 then 65535 else 1)

/-- Free list 3, 4; empty directory in frame 1. -/
def stF : State :=
  machine (fun _ => 0) (some 3) (fun i => if i = 3 then some 4 else none) (fun _ => 0)

/-- A machine of `n` frames with blank descriptors and memory, as before
`page_init`. -/
def blank (n : Nat) : State :=
  { npages := n
    pages := fun _ => { pp_link := none, pp_ref := 0, paddr := 0 }
    page_free_list := none
    mem := fun _ => 0
    tlb := [] }

/-- The bootstrap variables once `boot_alloc` has advanced `nextfree` to the
kernel virtual address of frame `n`, with `avail` frames left to hand out. -/
def boot_at (n avail : Nat) : Boot :=
  { nextfree := KERNBASE + page2pa n, nAvailPages := avail, tail_free_page := none }

/-- The machine `stB` with frame 2, the frame mapped at address 0, also on
the free list, with count 0. -/
def stR : State :=
  machine (fun a => if a = 0x1000 then 0x3003 else if a = 0x3000 then 0x2003 else 0)
    (some 2) (fun _ => none) (fun i => if i = 2 then 0 else 1)

/-- Directory in frame 1; entry 0 points at the table in frame 2, whose entry
0 maps frame 3. Frame 6 holds a word that reads as a present entry for frame
4, and frame 4 is the free list, with count 0. -/
def stP : State :=
  machine
    (fun a => if a = 0x1000 then 0x2003 else if a = 0x2000 then 0x3003
      else if a = 0x6000 then 0x4003 else 0)
    (some 4) (fun _ => none) (fun i => if i = 4 then 0 else 1)

/-- Directory in frame 1 with entry 1 pointing at the directory itself, the
way `mem_init` maps `kern_pgdir` at `UVPT`; free list 3, 4. -/
def stU : State :=
  machine (fun a => if a = 0x1004 then 0x1005 else 0) (some 3)
    (fun i => if i = 3 then some 4 else none) (fun i => if i = 1 then 1 else 0)

/-- The machine `stB` with count 2 for frame 2, the frame mapped at address
0. -/
def stT : State :=
  machine (fun a => if a = 0x1000 then 0x3003 else if a = 0x3000 then 0x2003 else 0)
    none (fun _ => none) (fun i => if i = 2 then 2 else 1)

/-- A machine of 2048 frames (8 MB) with the free list 1024, 3, 1025, 4:
frames above and below 4 MB in turn. -/
def stH : State :=
  { npages := 2048
    pages := fun i =>
      { pp_link := if i = 1024 then some 3 else if i = 3 then some 1025
          else if i = 1025 then some 4 else none
        pp_ref := 0
        paddr := page2pa i }
    page_free_list := some 1024
    mem := fun _ => 0
    tlb := [] }

/-- Directory in frame 1; its entry 0 points at the table in frame 3, whose
entry 0 is present and names frame 9, beyond the 8 frames of the machine, as
the leaf entries `mem_init` writes for `[KERNBASE, 2^32)` do when physical
memory is smaller. -/
def stN : State :=
  machine (fun a => if a = 0x1000 then 0x3003 else if a = 0x3000 then 0x9003 else 0)
    none (fun _ => none) (fun _ => 1)

/-- Free list 3, 4; every word of the frames 3 and 4 holds `0xAAAAAAAA` and
every word of frame 5 holds `0x12345678`. -/
def stM : State :=
  machine
    (fun a => if 0x3000 ≤ a ∧ a < 0x5000 then 0xAAAAAAAA
      else if 0x5000 ≤ a ∧ a < 0x6000 then 0x12345678 else 0)
    (some 3) (fun i => if i = 3 then some 4 else none) (fun _ => 0)

/-- The machine `stU` with the word `0x7003` at `0x5004`, entry 1 of frame
5. -/
def stV : State :=
  machine (fun a => if a = 0x1004 then 0x1005 else if a = 0x5004 then 0x7003 else 0)
    (some 3) (fun i => if i = 3 then some 4 else none) (fun i => if i = 1 then 1 else 0)

/-! ## Machine words -/

theorem u32_lt (x : Nat) : u32 x < 2 ^ 32 := Nat.mod_lt _ (by norm_num)

theorem u32_of_lt {x : Nat} (h : x < 2 ^ 32) : u32 x = x := Nat.mod_eq_of_lt h

theorem u32_u32 (x : Nat) : u32 (u32 x) = u32 x := u32_of_lt (u32_lt x)

theorem u32_mod_two (x : Nat) : u32 x % 2 = x % 2 := by
  unfold u32; omega

theorem PGNUM_eq_div (x : Nat) : PGNUM x = x / 4096 := by
  simp [PGNUM, PGSHIFT, Nat.shiftRight_eq_div_pow]

theorem two_pow_12_le (i : Nat) (h : 12 ≤ i) : 4096 ≤ 2 ^ i :=
  calc 4096 = 2 ^ 12 := by norm_num
    _ ≤ 2 ^ i := Nat.pow_le_pow_right (by norm_num) h

theorem PTE_ADDR_testBit (x i : Nat) :
    (PTE_ADDR x).testBit i
      = (x.testBit i && decide (12 ≤ i) && decide (i < 32)) := by
  have h : (0xFFFFF000 : Nat) = (2 ^ 20 - 1) <<< 12 := by decide
  unfold PTE_ADDR
  rw [h, Nat.testBit_and, Nat.testBit_shiftLeft, Nat.testBit_two_pow_sub_one]
  by_cases h1 : 12 ≤ i <;> by_cases h2 : i < 32 <;> simp [h1, h2] <;> omega

theorem PTE_ADDR_lt (x : Nat) : PTE_ADDR x < 2 ^ 32 := by
  unfold PTE_ADDR
  exact Nat.and_lt_two_pow x (by norm_num)

theorem PGNUM_or (x p : Nat) (hp : p < 4096) : PGNUM (x ||| p) = PGNUM x := by
  apply Nat.eq_of_testBit_eq
  intro i
  have : p.testBit (12 + i) = false :=
    Nat.testBit_lt_two_pow (lt_of_lt_of_le hp (two_pow_12_le _ (by omega)))
  simp [PGNUM, PGSHIFT, this]

theorem PTE_ADDR_or (x p : Nat) (hp : p < 4096) :
    PTE_ADDR (x ||| p) = PTE_ADDR x := by
  apply Nat.eq_of_testBit_eq
  intro i
  rw [PTE_ADDR_testBit, PTE_ADDR_testBit, Nat.testBit_or]
  by_cases h1 : 12 ≤ i
  · have : p.testBit i = false :=
      Nat.testBit_lt_two_pow (lt_of_lt_of_le hp (two_pow_12_le _ h1))
    simp [this]
  · simp [h1]

theorem PGNUM_PTE_ADDR (x : Nat) : PGNUM (PTE_ADDR x) = PGNUM (u32 x) := by
  apply Nat.eq_of_testBit_eq
  intro i
  simp only [PGNUM, PGSHIFT, Nat.testBit_shiftRight, PTE_ADDR_testBit, u32,
    Nat.testBit_mod_two_pow]
  by_cases h2 : 12 + i < 32 <;> simp [h2]

theorem PTE_ADDR_u32 (x : Nat) : PTE_ADDR (u32 x) = PTE_ADDR x := by
  apply Nat.eq_of_testBit_eq
  intro i
  simp only [PTE_ADDR_testBit, u32, Nat.testBit_mod_two_pow]
  by_cases h2 : i < 32 <;> simp [h2]

theorem PTE_ADDR_eq (x : Nat) : PTE_ADDR x = u32 x / 4096 * 4096 := by
  apply Nat.eq_of_testBit_eq
  intro i
  rw [PTE_ADDR_testBit]
  have h : u32 x / 4096 * 4096 = (u32 x >>> 12) <<< 12 := by
    rw [Nat.shiftLeft_eq, Nat.shiftRight_eq_div_pow]
  rw [h, Nat.testBit_shiftLeft, Nat.testBit_shiftRight]
  by_cases h1 : 12 ≤ i
  · have h2 : 12 + (i - 12) = i := by omega
    rw [h2, u32, Nat.testBit_mod_two_pow]
    by_cases h3 : i < 32 <;> simp [h1, h3]
  · simp [h1]

theorem present_iff (x : Nat) : present x ↔ x % 2 = 1 := by
  simp [present, PTE_P]

theorem and_P_ne_zero_iff (x : Nat) : x &&& PTE_P ≠ 0 ↔ present x := by
  simp [present, PTE_P]

theorem and_P_eq_zero_iff (x : Nat) : x &&& PTE_P = 0 ↔ ¬ present x := by
  simp [present, PTE_P]

theorem page2pa_eq {i : Nat} (h : i < 2 ^ 20) : page2pa i = i * 4096 := by
  unfold page2pa u32 PGSHIFT
  rw [Nat.shiftLeft_eq]
  norm_num at h ⊢
  omega

theorem page2pa_lt (i : Nat) : page2pa i < 2 ^ 32 := u32_lt _

theorem PGNUM_page2pa {i : Nat} (h : i < 2 ^ 20) : PGNUM (page2pa i) = i := by
  rw [page2pa_eq h, PGNUM_eq_div]; omega

/-! ## State updates -/

@[simp] theorem rd_wr (s : State) (a v b : Nat) :
    rd (wr s a v) b = if b = a then u32 v else rd s b := by
  unfold rd wr
  by_cases h : b = a
  · subst h; simp [u32_u32]
  · simp [h, Function.update_noteq h]

@[simp] theorem wr_pages (s : State) (a v : Nat) : (wr s a v).pages = s.pages := rfl
@[simp] theorem wr_npages (s : State) (a v : Nat) : (wr s a v).npages = s.npages := rfl
@[simp] theorem wr_free (s : State) (a v : Nat) :
    (wr s a v).page_free_list = s.page_free_list := rfl
@[simp] theorem wr_tlb (s : State) (a v : Nat) : (wr s a v).tlb = s.tlb := rfl

@[simp] theorem rd_set_ref (s : State) (i r a : Nat) : rd (set_ref s i r) a = rd s a := rfl
@[simp] theorem set_ref_npages (s : State) (i r : Nat) :
    (set_ref s i r).npages = s.npages := rfl
@[simp] theorem set_ref_free (s : State) (i r : Nat) :
    (set_ref s i r).page_free_list = s.page_free_list := rfl
@[simp] theorem set_ref_tlb (s : State) (i r : Nat) : (set_ref s i r).tlb = s.tlb := rfl
@[simp] theorem set_ref_pages_same (s : State) (i r : Nat) :
    (set_ref s i r).pages i = { s.pages i with pp_ref := r } := by
  simp [set_ref]
theorem set_ref_pages_ne (s : State) (i r j : Nat) (h : j ≠ i) :
    (set_ref s i r).pages j = s.pages j := by
  simp [set_ref, Function.update_noteq h]
@[simp] theorem set_ref_paddr (s : State) (i r j : Nat) :
    ((set_ref s i r).pages j).paddr = (s.pages j).paddr := by
  by_cases h : j = i
  · subst h; simp
  · rw [set_ref_pages_ne s i r j h]
@[simp] theorem set_ref_link (s : State) (i r j : Nat) :
    ((set_ref s i r).pages j).pp_link = (s.pages j).pp_link := by
  by_cases h : j = i
  · subst h; simp
  · rw [set_ref_pages_ne s i r j h]
theorem set_ref_ref (s : State) (i r j : Nat) :
    ((set_ref s i r).pages j).pp_ref = if j = i then r else (s.pages j).pp_ref := by
  by_cases h : j = i
  · subst h; simp
  · rw [set_ref_pages_ne s i r j h]; simp [h]

@[simp] theorem rd_set_link (s : State) (i : Nat) (l : Option Nat) (a : Nat) :
    rd (set_link s i l) a = rd s a := rfl
@[simp] theorem set_link_npages (s : State) (i : Nat) (l : Option Nat) :
    (set_link s i l).npages = s.npages := rfl
@[simp] theorem set_link_free (s : State) (i : Nat) (l : Option Nat) :
    (set_link s i l).page_free_list = s.page_free_list := rfl
@[simp] theorem set_link_tlb (s : State) (i : Nat) (l : Option Nat) :
    (set_link s i l).tlb = s.tlb := rfl
@[simp] theorem set_link_pages_same (s : State) (i : Nat) (l : Option Nat) :
    (set_link s i l).pages i = { s.pages i with pp_link := l } := by
  simp [set_link]
theorem set_link_pages_ne (s : State) (i : Nat) (l : Option Nat) (j : Nat) (h : j ≠ i) :
    (set_link s i l).pages j = s.pages j := by
  simp [set_link, Function.update_noteq h]
@[simp] theorem set_link_paddr (s : State) (i : Nat) (l : Option Nat) (j : Nat) :
    ((set_link s i l).pages j).paddr = (s.pages j).paddr := by
  by_cases h : j = i
  · subst h; simp
  · rw [set_link_pages_ne s i l j h]
@[simp] theorem set_link_ref (s : State) (i : Nat) (l : Option Nat) (j : Nat) :
    ((set_link s i l).pages j).pp_ref = (s.pages j).pp_ref := by
  by_cases h : j = i
  · subst h; simp
  · rw [set_link_pages_ne s i l j h]
theorem set_link_link (s : State) (i : Nat) (l : Option Nat) (j : Nat) :
    ((set_link s i l).pages j).pp_link = if j = i then l else (s.pages j).pp_link := by
  by_cases h : j = i
  · subst h; simp
  · rw [set_link_pages_ne s i l j h]; simp [h]

@[simp] theorem memset_pages (s : State) (d c n : Nat) : (memset s d c n).pages = s.pages := rfl
@[simp] theorem memset_npages (s : State) (d c n : Nat) :
    (memset s d c n).npages = s.npages := rfl
@[simp] theorem memset_free (s : State) (d c n : Nat) :
    (memset s d c n).page_free_list = s.page_free_list := rfl
@[simp] theorem memset_tlb (s : State) (d c n : Nat) : (memset s d c n).tlb = s.tlb := rfl
theorem rd_memset_zero (s : State) (d n a : Nat) :
    rd (memset s d 0 n) a = if d ≤ a ∧ a < d + n then 0 else rd s a := by
  unfold rd memset
  by_cases h : d ≤ a ∧ a < d + n
  · simp [h, u32]
  · simp [h]

@[simp] theorem rd_tlb_invalidate (s : State) (pgdir va a : Nat) :
    rd (tlb_invalidate s pgdir va) a = rd s a := rfl
@[simp] theorem tlb_invalidate_pages (s : State) (pgdir va : Nat) :
    (tlb_invalidate s pgdir va).pages = s.pages := rfl
@[simp] theorem tlb_invalidate_npages (s : State) (pgdir va : Nat) :
    (tlb_invalidate s pgdir va).npages = s.npages := rfl
@[simp] theorem tlb_invalidate_free (s : State) (pgdir va : Nat) :
    (tlb_invalidate s pgdir va).page_free_list = s.page_free_list := rfl

/-! ## The allocator -/

theorem page_alloc_empty (s : State) (alloc_flags : Nat) (h : s.page_free_list = none) :
    page_alloc s alloc_flags = Outcome.ret (none, s) := by
  simp [page_alloc, h]

theorem page_alloc_nonempty_ne (s : State) (alloc_flags p : Nat)
    (h : s.page_free_list = some p) (s' : State) :
    page_alloc s alloc_flags ≠ Outcome.ret (none, s') := by
  unfold page_alloc
  simp only [h]
  split
  · split <;> simp
  · simp

/-- C10. `page_alloc` returns `NULL` if and only if the free list is empty,
and then it returns normally with the whole state unchanged, for every value
of `alloc_flags`. -/
theorem page_alloc_null_iff_empty (s : State) (alloc_flags : Nat) :
    ((∃ s', page_alloc s alloc_flags = Outcome.ret (none, s'))
        ↔ s.page_free_list = none) ∧
    (s.page_free_list = none →
        page_alloc s alloc_flags = Outcome.ret (none, s)) := by
  refine ⟨⟨?_, fun h => ⟨s, page_alloc_empty s alloc_flags h⟩⟩,
    page_alloc_empty s alloc_flags⟩
  rintro ⟨s', hs'⟩
  cases hf : s.page_free_list with
  | none => rfl
  | some p => exact absurd hs' (page_alloc_nonempty_ne s alloc_flags p hf s')

theorem free_chain_congr (s s' : State) (l : List Nat) :
    ∀ hd, (∀ x, x ∈ l → (s'.pages x).pp_link = (s.pages x).pp_link) →
      free_chain s hd l → free_chain s' hd l := by
  induction l with
  | nil => intro hd _ h; exact h
  | cons x xs ih =>
    intro hd hl h
    refine ⟨h.1, ?_⟩
    rw [hl x (List.mem_cons_self x xs)]
    exact ih _ (fun y hy => hl y (List.mem_cons_of_mem x hy)) h.2

theorem follow_none (s : State) (k : Nat) : follow s k none = none := by
  cases k <;> rfl

theorem free_chain_follow (s : State) (p : Nat) (l : List Nat) :
    ∀ hd, free_chain s hd l → ((∃ k, follow s k hd = some p) ↔ p ∈ l) := by
  induction l with
  | nil =>
    intro hd h
    have h0 : hd = none := h
    subst h0
    simp [follow_none]
  | cons x xs ih =>
    intro hd h
    obtain ⟨h1, h2⟩ := h
    subst h1
    constructor
    · rintro ⟨k, hk⟩
      cases k with
      | zero =>
        have : x = p := by simpa [follow] using hk
        simp [this]
      | succ k =>
        exact List.mem_cons_of_mem x ((ih _ h2).1 ⟨k, hk⟩)
    · intro hp
      rcases List.mem_cons.1 hp with rfl | hp
      · exact ⟨0, rfl⟩
      · obtain ⟨k, hk⟩ := (ih _ h2).2 hp
        exact ⟨k + 1, hk⟩

theorem page_alloc_some (s : State) (alloc_flags h : Nat)
    (hf : s.page_free_list = some h)
    (hr : ALLOC_ZERO &&& alloc_flags ≠ 0 → PGNUM (s.pages h).paddr < s.npages) :
    ∃ s', page_alloc s alloc_flags = Outcome.ret (some h, s') ∧
      s'.npages = s.npages ∧
      s'.page_free_list = (s.pages h).pp_link ∧
      s'.tlb = s.tlb ∧
      s'.pages h = { pp_link := none, pp_ref := 0, paddr := (s.pages h).paddr } ∧
      (∀ i, i ≠ h → s'.pages i = s.pages i) ∧
      (∀ a, rd s' a =
        if ALLOC_ZERO &&& alloc_flags ≠ 0 ∧
            (s.pages h).paddr ≤ a ∧ a < (s.pages h).paddr + PGSIZE
        then 0 else rd s a) := by
  unfold page_alloc
  simp only [hf]
  by_cases hz : ALLOC_ZERO &&& alloc_flags ≠ 0
  · have hr' := hr hz
    simp only [hz, if_true, KADDR, set_link_npages, set_link_paddr,
      Nat.not_le.2 hr', if_false, ne_eq, not_false_eq_true, true_and]
    refine ⟨_, rfl, rfl, rfl, rfl, ?_, ?_, ?_⟩
    · simp
    · intro i hi
      rw [set_ref_pages_ne _ _ _ _ hi]
      simp only [memset_pages]
      rw [set_link_pages_ne _ _ _ _ hi]
    · intro a
      simp only [rd_set_ref, rd_memset_zero, rd_set_link]
      rfl
  · simp only [hz, if_false, false_and]
    refine ⟨_, rfl, rfl, rfl, rfl, ?_, ?_, ?_⟩
    · simp
    · intro i hi
      rw [set_ref_pages_ne _ _ _ _ hi, set_link_pages_ne _ _ _ _ hi]
    · intro a
      rfl

/-- C9. On a non-empty, duplicate-free free list `page_alloc` returns the
head; afterwards the head is the former successor, the returned frame has
count 0, no successor and is not reachable from the head, and every other
descriptor (link and count) is unchanged. When zero fill is requested the
recorded address of the head is that of a frame of the machine, which
`page_free` checks before it links a frame. -/
theorem page_alloc_pops_head (s : State) (alloc_flags h : Nat) (l : List Nat)
    (hchain : free_chain s s.page_free_list (h :: l)) (hnd : (h :: l).Nodup)
    (hr : ALLOC_ZERO &&& alloc_flags ≠ 0 → PGNUM (s.pages h).paddr < s.npages) :
    ∃ s', page_alloc s alloc_flags = Outcome.ret (some h, s') ∧
      s'.page_free_list = (s.pages h).pp_link ∧
      (s'.pages h).pp_ref = 0 ∧
      (s'.pages h).pp_link = none ∧
      ¬ on_free_list s' h ∧
      (∀ i, i ≠ h → (s'.pages i).pp_link = (s.pages i).pp_link ∧
        (s'.pages i).pp_ref = (s.pages i).pp_ref) := by
  obtain ⟨hhead, htail⟩ := hchain
  obtain ⟨s', hs', -, hfl, -, hpg, hoth, -⟩ := page_alloc_some s alloc_flags h hhead hr
  have hnotin : h ∉ l := (List.nodup_cons.1 hnd).1
  refine ⟨s', hs', hfl, by rw [hpg], by rw [hpg], ?_, fun i hi => by rw [hoth i hi]; simp⟩
  have hc : free_chain s' s'.page_free_list l := by
    rw [hfl]
    refine free_chain_congr s s' l _ (fun x hx => ?_) htail
    rw [hoth x (fun hxh => hnotin (hxh ▸ hx))]
  intro hon
  exact hnotin ((free_chain_follow s' h l _ hc).1 hon)

/-! ## Walking the tables -/

theorem pgdir_walk_present (s : State) (pgdir va create : Nat)
    (h : table_ok s pgdir va) :
    pgdir_walk s pgdir va create
      = Outcome.ret (some (leaf_slot s pgdir va), s) := by
  obtain ⟨h1, h2, h3⟩ := h
  unfold present at h1
  simp [pgdir_walk, h1, pa2page, KADDR, Nat.not_le.2 h2, Nat.not_le.2 h3,
    leaf_slot]

theorem pgdir_walk_absent_no_create (s : State) (pgdir va : Nat)
    (h : ¬ present (rd s (pde_slot pgdir va))) :
    pgdir_walk s pgdir va NO_CREATE = Outcome.ret (none, s) := by
  unfold present at h
  simp [pgdir_walk, h]

theorem pgdir_walk_absent_empty (s : State) (pgdir va create : Nat)
    (h : ¬ present (rd s (pde_slot pgdir va)))
    (hf : s.page_free_list = none) :
    pgdir_walk s pgdir va create = Outcome.ret (none, s) := by
  unfold present at h
  by_cases hc : NO_CREATE = create
  · simp [pgdir_walk, h, hc]
  · simp [pgdir_walk, h, hc, page_alloc_empty s ALLOC_ZERO hf]

/-- A walk that yields a pointer either found the table (`table_ok`) and
left the state alone, or it created the table. -/
theorem pgdir_walk_no_create_ret (s : State) (pgdir va : Nat) (r : Option Nat)
    (s' : State) (h : pgdir_walk s pgdir va NO_CREATE = Outcome.ret (r, s')) :
    s' = s ∧
    ((r = none ∧ ¬ present (rd s (pde_slot pgdir va))) ∨
     (r = some (leaf_slot s pgdir va) ∧ table_ok s pgdir va)) := by
  by_cases hp : present (rd s (pde_slot pgdir va))
  · by_cases h2 : PGNUM (rd s (pde_slot pgdir va)) < s.npages
    · by_cases h3 : PGNUM (s.pages (PGNUM (rd s (pde_slot pgdir va)))).paddr < s.npages
      · rw [pgdir_walk_present s pgdir va _ ⟨hp, h2, h3⟩] at h
        simp only [Outcome.ret.injEq, Prod.mk.injEq] at h
        exact ⟨h.2.symm, Or.inr ⟨h.1.symm, hp, h2, h3⟩⟩
      · exfalso
        unfold present at hp
        simp [pgdir_walk, hp, pa2page, KADDR, Nat.not_le.2 h2, Nat.le_of_not_lt h3] at h
    · exfalso
      unfold present at hp
      simp [pgdir_walk, hp, pa2page, Nat.le_of_not_lt h2] at h
  · rw [pgdir_walk_absent_no_create s pgdir va hp] at h
    simp only [Outcome.ret.injEq, Prod.mk.injEq] at h
    exact ⟨h.2.symm, Or.inl ⟨h.1.symm, hp⟩⟩

theorem page_lookup_absent (s : State) (pgdir va : Nat)
    (h : ¬ present (rd s (pde_slot pgdir va))) :
    page_lookup s pgdir va = Outcome.ret (none, none, s) := by
  simp [page_lookup, pgdir_walk_absent_no_create s pgdir va h]

theorem page_lookup_not_present (s : State) (pgdir va : Nat)
    (h : table_ok s pgdir va) (hl : ¬ present (rd s (leaf_slot s pgdir va))) :
    page_lookup s pgdir va
      = Outcome.ret (none, some (leaf_slot s pgdir va), s) := by
  have hl' := (and_P_eq_zero_iff _).2 hl
  simp [page_lookup, pgdir_walk_present s pgdir va _ h, hl']

theorem PGNUM_PTE_ADDR_rd (s : State) (a : Nat) :
    PGNUM (PTE_ADDR (rd s a)) = PGNUM (rd s a) := by
  rw [PGNUM_PTE_ADDR, rd, u32_u32]

theorem page_lookup_mapped (s : State) (pgdir va f : Nat)
    (h : mapped s pgdir va f) :
    page_lookup s pgdir va
      = Outcome.ret (some f, some (leaf_slot s pgdir va), s) := by
  obtain ⟨ht, hl, hf, hlt⟩ := h
  have hl' : ¬ (rd s (leaf_slot s pgdir va) &&& PTE_P = 0) :=
    fun x => (and_P_eq_zero_iff _).1 x hl
  have hr : ¬ s.npages ≤ f := by omega
  simp [page_lookup, pgdir_walk_present s pgdir va _ ht, hl', pa2page, hr,
    PGNUM_PTE_ADDR_rd, hf]

/-- What a returning `page_lookup` tells about the tables. -/
theorem page_lookup_ret (s : State) (pgdir va : Nat) (r ps : Option Nat)
    (s' : State) (h : page_lookup s pgdir va = Outcome.ret (r, ps, s')) :
    s' = s ∧
    ((r = none ∧ ps = none ∧ ¬ present (rd s (pde_slot pgdir va))) ∨
     (r = none ∧ ps = some (leaf_slot s pgdir va) ∧ table_ok s pgdir va ∧
        ¬ present (rd s (leaf_slot s pgdir va))) ∨
     (∃ f, r = some f ∧ ps = some (leaf_slot s pgdir va) ∧ mapped s pgdir va f)) := by
  unfold page_lookup at h
  cases hw : pgdir_walk s pgdir va NO_CREATE with
  | halt => simp [hw] at h
  | ret x =>
    obtain ⟨q, s1⟩ := x
    obtain ⟨hs1, hcase⟩ := pgdir_walk_no_create_ret s pgdir va q s1 hw
    subst hs1
    rcases hcase with ⟨hq, hp⟩ | ⟨hq, ht⟩
    · subst hq
      simp only [hw, Outcome.ret.injEq, Prod.mk.injEq] at h
      exact ⟨h.2.2.symm, Or.inl ⟨h.1.symm, h.2.1.symm, hp⟩⟩
    · subst hq
      simp only [hw] at h
      by_cases hl : present (rd s1 (leaf_slot s1 pgdir va))
      · have hl' : ¬ (rd s1 (leaf_slot s1 pgdir va) &&& PTE_P = 0) :=
          fun x => (and_P_eq_zero_iff _).1 x hl
        simp only [hl', if_false, pa2page] at h
        by_cases hr : s1.npages ≤ PGNUM (PTE_ADDR (rd s1 (leaf_slot s1 pgdir va)))
        · simp [hr] at h
        · simp only [hr, if_false, Outcome.ret.injEq, Prod.mk.injEq] at h
          refine ⟨h.2.2.symm, Or.inr (Or.inr ⟨_, h.1.symm, h.2.1.symm, ht, hl, ?_, ?_⟩)⟩
          · rw [PGNUM_PTE_ADDR_rd]
          · omega
      · have hl' := (and_P_eq_zero_iff _).2 hl
        simp only [hl', if_true, Outcome.ret.injEq, Prod.mk.injEq] at h
        exact ⟨h.2.2.symm, Or.inr (Or.inl ⟨h.1.symm, h.2.1.symm, ht, hl⟩)⟩

/-- C8 (amended). `page_lookup` creates nothing and leaves the state as it
is; it returns `NULL` exactly when the directory entry is absent or the leaf
entry lacks the present bit, and otherwise, when the page number of the leaf
entry is below `npages`, the frame with that number, with the leaf slot
stored in `*pte_store`. -/
theorem page_lookup_spec (s : State) (pgdir va : Nat) :
    (∀ r ps s', page_lookup s pgdir va = Outcome.ret (r, ps, s') → s' = s) ∧
    (∀ ps s', page_lookup s pgdir va = Outcome.ret (none, ps, s') →
        ¬ present (rd s (pde_slot pgdir va)) ∨
        ¬ present (rd s (leaf_slot s pgdir va))) ∧
    (¬ present (rd s (pde_slot pgdir va)) →
        page_lookup s pgdir va = Outcome.ret (none, none, s)) ∧
    (table_ok s pgdir va → ¬ present (rd s (leaf_slot s pgdir va)) →
        page_lookup s pgdir va
          = Outcome.ret (none, some (leaf_slot s pgdir va), s)) ∧
    (table_ok s pgdir va → present (rd s (leaf_slot s pgdir va)) →
        PGNUM (rd s (leaf_slot s pgdir va)) < s.npages →
        page_lookup s pgdir va
          = Outcome.ret (some (PGNUM (rd s (leaf_slot s pgdir va))),
              some (leaf_slot s pgdir va), s)) := by
  refine ⟨fun r ps s' h => (page_lookup_ret s pgdir va r ps s' h).1, ?_,
    page_lookup_absent s pgdir va, page_lookup_not_present s pgdir va,
    fun ht hl hr => page_lookup_mapped s pgdir va _ ⟨ht, hl, rfl, hr⟩⟩
  intro ps s' h
  rcases (page_lookup_ret s pgdir va none ps s' h).2 with ⟨-, -, hp⟩ | ⟨-, -, -, hl⟩ | ⟨f, hf, -⟩
  · exact Or.inl hp
  · exact Or.inr hl
  · simp at hf

/-- C5. `page_remove` at an address with no mapping (directory entry absent,
or the leaf entry of the existing table not present) returns normally and
leaves the whole state unchanged. -/
theorem page_remove_unmapped (s : State) (pgdir va : Nat)
    (h : ¬ present (rd s (pde_slot pgdir va)) ∨
      (table_ok s pgdir va ∧ ¬ present (rd s (leaf_slot s pgdir va)))) :
    page_remove s pgdir va = Outcome.ret s := by
  rcases h with h | ⟨ht, hl⟩
  · simp [page_remove, page_lookup_absent s pgdir va h]
  · simp [page_remove, page_lookup_not_present s pgdir va ht hl]

/-! ## Dropping a reference -/

theorem not_present_zero : ¬ present 0 := by
  simp [present]

theorem u32_zero : u32 0 = 0 := rfl

theorem page_free_some (s : State) (p : Nat)
    (h : PGNUM (s.pages p).paddr < s.npages) :
    page_free s (some p)
      = { set_link s p s.page_free_list with page_free_list := some p } := by
  simp [page_free, Nat.not_le.2 h]

theorem page_decref_spec (s : State) (g : Nat)
    (h1 : 1 ≤ (s.pages g).pp_ref) (h2 : (s.pages g).pp_ref < PP_REF_MOD)
    (hr : PGNUM (s.pages g).paddr < s.npages) :
    (page_decref s g).npages = s.npages ∧
    (page_decref s g).mem = s.mem ∧
    (page_decref s g).tlb = s.tlb ∧
    ((page_decref s g).pages g).pp_ref = (s.pages g).pp_ref - 1 ∧
    (∀ i, ((page_decref s g).pages i).paddr = (s.pages i).paddr) ∧
    ((s.pages g).pp_ref = 1 →
      (page_decref s g).page_free_list = some g ∧
      ((page_decref s g).pages g).pp_link = s.page_free_list) ∧
    ((s.pages g).pp_ref ≠ 1 →
      (page_decref s g).page_free_list = s.page_free_list ∧
      ((page_decref s g).pages g).pp_link = (s.pages g).pp_link) ∧
    (∀ i, i ≠ g → (page_decref s g).pages i = s.pages i) := by
  have hdec : ((s.pages g).pp_ref + (PP_REF_MOD - 1)) % PP_REF_MOD
      = (s.pages g).pp_ref - 1 := by
    unfold PP_REF_MOD at h2 ⊢
    omega
  unfold page_decref
  simp only [set_ref_pages_same, hdec]
  by_cases hone : (s.pages g).pp_ref = 1
  · have hz : (s.pages g).pp_ref - 1 = 0 := by omega
    have hr' : PGNUM ((set_ref s g 0).pages g).paddr < (set_ref s g 0).npages := by
      simpa using hr
    simp only [hz, if_true]
    rw [page_free_some _ _ hr']
    refine ⟨rfl, rfl, rfl, ?_, ?_, ?_, ?_, ?_⟩
    · simp
    · intro i; simp
    · intro _; simp
    · intro hne; exact absurd hone hne
    · intro i hi
      simp only [set_ref_free]
      rw [set_link_pages_ne _ _ _ _ hi, set_ref_pages_ne _ _ _ _ hi]
  · have hz : ¬ ((s.pages g).pp_ref - 1 = 0) := by omega
    simp only [hz, if_false]
    refine ⟨rfl, rfl, rfl, ?_, ?_, ?_, ?_, ?_⟩
    · simp
    · intro i; simp
    · intro h; exact absurd h hone
    · intro _; simp
    · intro i hi
      rw [set_ref_pages_ne _ _ _ _ hi]

theorem rd_congr_mem (s s' : State) (h : s'.mem = s.mem) (a : Nat) : rd s' a = rd s a := by
  unfold rd; rw [h]

/-! ## Removing a mapping -/

theorem page_remove_mapped (s : State) (pgdir va g : Nat)
    (h : mapped s pgdir va g) :
    page_remove s pgdir va
      = Outcome.ret (wr
          (if ((page_decref s g).pages g).pp_ref = 0
            then tlb_invalidate (page_decref s g) pgdir va
            else page_decref s g)
          (leaf_slot s pgdir va) 0) := by
  simp [page_remove, page_lookup_mapped s pgdir va g h]

theorem mapped_paddr_range (s : State) (hwf : WF s) (f : Nat) (hf : f < s.npages) :
    PGNUM (s.pages f).paddr < s.npages := by
  rw [hwf.paddr_eq f hf, PGNUM_page2pa (lt_of_lt_of_le hf hwf.npages_le)]
  exact hf

/-- If the directory entry of `va`, the frame count and the recorded frame
addresses agree in two states, the table of `va` is the same in both. -/
theorem table_congr (s s' : State) (pgdir va : Nat)
    (hn : s'.npages = s.npages)
    (hp : ∀ i, (s'.pages i).paddr = (s.pages i).paddr)
    (hd : rd s' (pde_slot pgdir va) = rd s (pde_slot pgdir va)) :
    (table_ok s' pgdir va ↔ table_ok s pgdir va) ∧
    leaf_slot s' pgdir va = leaf_slot s pgdir va := by
  unfold table_ok leaf_slot
  rw [hd, hn, hp]
  exact ⟨Iff.rfl, rfl⟩

/-- C4 (amended). `page_remove` of a present leaf entry that maps frame `g`
with count `r >= 1` leaves `g` at `r - 1`, pushes `g` on the free list if and
only if `r = 1`, clears the leaf entry so that `page_lookup` reports no
mapping, and changes no other memory word and no other descriptor; the
directory entries are among the unchanged words unless the directory serves
as its own second-level table for `va`. -/
theorem page_remove_mapped_spec (s : State) (hwf : WF s) (pgdir va g : Nat)
    (h : mapped s pgdir va g) (hr : 1 ≤ (s.pages g).pp_ref) :
    ∃ s', page_remove s pgdir va = Outcome.ret s' ∧
      (s'.pages g).pp_ref = (s.pages g).pp_ref - 1 ∧
      ((s.pages g).pp_ref = 1 →
        s'.page_free_list = some g ∧ (s'.pages g).pp_link = s.page_free_list) ∧
      ((s.pages g).pp_ref ≠ 1 →
        s'.page_free_list = s.page_free_list ∧
        (s'.pages g).pp_link = (s.pages g).pp_link) ∧
      rd s' (leaf_slot s pgdir va) = 0 ∧
      (∃ ps, page_lookup s' pgdir va = Outcome.ret (none, ps, s')) ∧
      (∀ a, a ≠ leaf_slot s pgdir va → rd s' a = rd s a) ∧
      ((∀ k, k < NPDENTRIES → leaf_slot s pgdir va ≠ pgdir + 4 * k) →
        ∀ k, k < NPDENTRIES → rd s' (pgdir + 4 * k) = rd s (pgdir + 4 * k)) ∧
      (∀ i, i ≠ g → s'.pages i = s.pages i) := by
  have hg : g < s.npages := h.2.2.2
  obtain ⟨dn, dm, -, dref, dpa, done, dne, doth⟩ :=
    page_decref_spec s g hr (hwf.ref_lt g) (mapped_paddr_range s hwf g hg)
  refine ⟨_, page_remove_mapped s pgdir va g h, ?_⟩
  generalize hs2 : page_decref s g = s2 at dn dm dref dpa done dne doth
  -- the state before the final store
  have hs3 : ∀ s3 : State,
      s3 = (if (s2.pages g).pp_ref = 0 then tlb_invalidate s2 pgdir va else s2) →
      s3.pages = s2.pages ∧ s3.npages = s2.npages ∧
      s3.page_free_list = s2.page_free_list ∧ (∀ a, rd s3 a = rd s a) := by
    intro s3 h3
    subst h3
    by_cases hz : (s2.pages g).pp_ref = 0
    · rw [if_pos hz]
      exact ⟨rfl, rfl, rfl, fun a => rd_congr_mem s _ dm a⟩
    · rw [if_neg hz]
      exact ⟨rfl, rfl, rfl, fun a => rd_congr_mem s _ dm a⟩
  obtain ⟨e1, e2, e3, e4⟩ := hs3 _ rfl
  generalize (if (s2.pages g).pp_ref = 0 then tlb_invalidate s2 pgdir va else s2)
    = s3 at e1 e2 e3 e4
  have hrd : ∀ a, rd (wr s3 (leaf_slot s pgdir va) 0) a
      = if a = leaf_slot s pgdir va then 0 else rd s a := by
    intro a; rw [rd_wr, e4, u32_zero]
  refine ⟨by rw [wr_pages, e1, dref], ?_, ?_, ?_, ?_, ?_, ?_, ?_⟩
  · intro h1
    rw [wr_pages, wr_free, e1, e3]
    exact done h1
  · intro h1
    rw [wr_pages, wr_free, e1, e3]
    exact dne h1
  · rw [hrd]; simp
  · -- lookup after the removal
    by_cases hal : pde_slot pgdir va = leaf_slot s pgdir va
    · refine ⟨none, page_lookup_absent _ pgdir va ?_⟩
      rw [hrd, if_pos hal]
      exact not_present_zero
    · have hd : rd (wr s3 (leaf_slot s pgdir va) 0) (pde_slot pgdir va)
          = rd s (pde_slot pgdir va) := by
        rw [hrd, if_neg hal]
      obtain ⟨ht, hls⟩ := table_congr s (wr s3 (leaf_slot s pgdir va) 0) pgdir va
        (by rw [wr_npages, e2, dn]) (fun i => by rw [wr_pages, e1, dpa]) hd
      refine ⟨some (leaf_slot (wr s3 (leaf_slot s pgdir va) 0) pgdir va),
        page_lookup_not_present _ pgdir va (ht.2 h.1) ?_⟩
      rw [hls, hrd, if_pos rfl]
      exact not_present_zero
  · intro a ha
    rw [hrd, if_neg ha]
  · intro hna k hk
    rw [hrd, if_neg (fun e => hna k hk e.symm)]
  · intro i hi
    rw [wr_pages, e1]
    exact doth i hi

/-! ## Entries -/

theorem present_or_left (x p : Nat) (h : present x) : present (x ||| p) := by
  rw [present_iff] at h ⊢
  exact Nat.or_mod_two_eq_one.2 (Or.inl h)

theorem present_or_P (x : Nat) : present (x ||| PTE_P) := by
  rw [present_iff]
  exact Nat.or_mod_two_eq_one.2 (Or.inr (by decide))

theorem present_u32 (x : Nat) : present (u32 x) ↔ present x := by
  rw [present_iff, present_iff, u32_mod_two]

theorem lt_two_pow_32_of_lt_4096 {p : Nat} (hp : p < 4096) : p < 2 ^ 32 :=
  lt_trans hp (by norm_num)

theorem or_perm_u32 (x perm : Nat) (hx : x < 2 ^ 32) (hp : perm < 4096) :
    u32 (x ||| perm) = x ||| perm :=
  u32_of_lt (Nat.or_lt_two_pow hx (lt_two_pow_32_of_lt_4096 hp))

theorem entry_u32 (f perm : Nat) (hp : perm < 4096) :
    u32 (page2pa f ||| perm ||| PTE_P) = page2pa f ||| perm ||| PTE_P :=
  u32_of_lt (Nat.or_lt_two_pow
    (Nat.or_lt_two_pow (page2pa_lt f) (lt_two_pow_32_of_lt_4096 hp))
    (by decide))

theorem entry_PGNUM (f perm : Nat) (hf : f < 2 ^ 20) (hp : perm < 4096) :
    PGNUM (page2pa f ||| perm ||| PTE_P) = f := by
  rw [PGNUM_or _ _ (by decide : PTE_P < 4096), PGNUM_or _ _ hp, PGNUM_page2pa hf]

theorem PTE_ADDR_page2pa (f : Nat) (hf : f < 2 ^ 20) :
    PTE_ADDR (page2pa f) = page2pa f := by
  rw [PTE_ADDR_eq, u32_of_lt (page2pa_lt f), page2pa_eq hf]
  omega

theorem entry_PTE_ADDR (f perm : Nat) (hf : f < 2 ^ 20) (hp : perm < 4096) :
    PTE_ADDR (page2pa f ||| perm ||| PTE_P) = page2pa f := by
  rw [PTE_ADDR_or _ _ (by decide : PTE_P < 4096), PTE_ADDR_or _ _ hp,
    PTE_ADDR_page2pa f hf]

theorem page2pa_PGNUM (x : Nat) (hx : x < 2 ^ 32) :
    page2pa (PGNUM x) = PTE_ADDR x := by
  have h : PGNUM x < 2 ^ 20 := by
    rw [PGNUM_eq_div]
    norm_num at hx ⊢
    omega
  rw [page2pa_eq h, PTE_ADDR_eq, u32_of_lt hx, PGNUM_eq_div]

theorem or_and_self (x p : Nat) : (x ||| p) &&& p = p := by
  apply Nat.eq_of_testBit_eq
  intro i
  rw [Nat.testBit_and, Nat.testBit_or]
  cases x.testBit i <;> cases p.testBit i <;> rfl

theorem page2pa_injective {i j : Nat} (hi : i < 2 ^ 20) (hj : j < 2 ^ 20)
    (h : page2pa i = page2pa j) : i = j := by
  rw [page2pa_eq hi, page2pa_eq hj] at h
  omega

theorem entry_low_bits (f perm : Nat) (hf : f < 2 ^ 20) (hp : perm < 4096) :
    (page2pa f ||| perm ||| PTE_P) % 4096 = perm ||| PTE_P := by
  have hb : perm ||| PTE_P < 2 ^ 12 :=
    Nat.or_lt_two_pow (by simpa using hp) (by decide)
  rw [Nat.or_assoc, page2pa_eq hf, Nat.mul_comm,
    show (4096 : Nat) = 2 ^ 12 from rfl, ← Nat.mul_add_lt_is_or hb f,
    Nat.mul_add_mod]
  exact Nat.mod_eq_of_lt hb

/-! ## Frame conditions -/

theorem rd_lt (s : State) (a : Nat) : rd s a < 2 ^ 32 := u32_lt _

@[simp] theorem rd_inc_ref (s : State) (i a : Nat) : rd (inc_ref s i) a = rd s a := rfl
@[simp] theorem inc_ref_npages (s : State) (i : Nat) : (inc_ref s i).npages = s.npages := rfl
@[simp] theorem inc_ref_free (s : State) (i : Nat) :
    (inc_ref s i).page_free_list = s.page_free_list := rfl
@[simp] theorem inc_ref_paddr (s : State) (i j : Nat) :
    ((inc_ref s i).pages j).paddr = (s.pages j).paddr := by
  simp [inc_ref]
@[simp] theorem inc_ref_link (s : State) (i j : Nat) :
    ((inc_ref s i).pages j).pp_link = (s.pages j).pp_link := by
  simp [inc_ref]
theorem inc_ref_pages_ne (s : State) (i j : Nat) (h : j ≠ i) :
    (inc_ref s i).pages j = s.pages j := set_ref_pages_ne s i _ j h
theorem inc_ref_ref_same (s : State) (i : Nat) :
    ((inc_ref s i).pages i).pp_ref = ((s.pages i).pp_ref + 1) % PP_REF_MOD := by
  simp [inc_ref]

theorem page_free_frame (s : State) (pp : Option Nat) :
    (page_free s pp).npages = s.npages ∧ (page_free s pp).mem = s.mem ∧
    ∀ i, ((page_free s pp).pages i).paddr = (s.pages i).paddr := by
  cases pp with
  | none => exact ⟨rfl, rfl, fun _ => rfl⟩
  | some p =>
    by_cases h : s.npages ≤ PGNUM (s.pages p).paddr
    · have e : page_free s (some p) = s := by simp [page_free, h]
      rw [e]
      exact ⟨rfl, rfl, fun _ => rfl⟩
    · rw [page_free_some s p (Nat.lt_of_not_le h)]
      exact ⟨rfl, rfl, fun i => by simp⟩

theorem page_decref_frame (s : State) (g : Nat) :
    (page_decref s g).npages = s.npages ∧ (page_decref s g).mem = s.mem ∧
    ∀ i, ((page_decref s g).pages i).paddr = (s.pages i).paddr := by
  unfold page_decref
  by_cases h : ((set_ref s g (((s.pages g).pp_ref + (PP_REF_MOD - 1)) % PP_REF_MOD)).pages
      g).pp_ref = 0
  · rw [if_pos h]
    obtain ⟨a, b, c⟩ := page_free_frame
      (set_ref s g (((s.pages g).pp_ref + (PP_REF_MOD - 1)) % PP_REF_MOD)) (some g)
    exact ⟨a, b, fun i => by rw [c i]; simp⟩
  · rw [if_neg h]
    exact ⟨rfl, rfl, fun i => by simp⟩

theorem page_remove_ret (s : State) (pgdir va : Nat) (s' : State)
    (h : page_remove s pgdir va = Outcome.ret s') :
    s'.npages = s.npages ∧
    (∀ i, (s'.pages i).paddr = (s.pages i).paddr) ∧
    (∀ a, a ≠ leaf_slot s pgdir va → rd s' a = rd s a) := by
  unfold page_remove at h
  cases hl : page_lookup s pgdir va with
  | halt => simp [hl] at h
  | ret x =>
    obtain ⟨r, ps, s1⟩ := x
    obtain ⟨hs1, hcase⟩ := page_lookup_ret s pgdir va r ps s1 hl
    subst hs1
    rcases hcase with ⟨hr, -, -⟩ | ⟨hr, -, -, -⟩ | ⟨f, hr, hps, -⟩
    · subst hr
      simp only [hl, Outcome.ret.injEq] at h
      subst h
      exact ⟨rfl, fun _ => rfl, fun _ _ => rfl⟩
    · subst hr
      simp only [hl, Outcome.ret.injEq] at h
      subst h
      exact ⟨rfl, fun _ => rfl, fun _ _ => rfl⟩
    · subst hr hps
      simp only [hl, Outcome.ret.injEq] at h
      subst h
      obtain ⟨dn, dm, dp⟩ := page_decref_frame s1 f
      by_cases hz : ((page_decref s1 f).pages f).pp_ref = 0
      · simp only [if_pos hz, wr_npages, wr_pages, tlb_invalidate_npages,
          tlb_invalidate_pages, rd_wr, rd_tlb_invalidate]
        exact ⟨dn, dp, fun a ha => by rw [if_neg ha]; exact rd_congr_mem _ _ dm a⟩
      · simp only [if_neg hz, wr_npages, wr_pages, rd_wr]
        exact ⟨dn, dp, fun a ha => by rw [if_neg ha]; exact rd_congr_mem _ _ dm a⟩

/-! ## Creating a table -/

theorem pgdir_walk_create (s : State) (hwf : WF s) (pgdir va create h : Nat)
    (hp : ¬ present (rd s (pde_slot pgdir va))) (hc : NO_CREATE ≠ create)
    (hf : s.page_free_list = some h) :
    ∃ s1, pgdir_walk s pgdir va create
        = Outcome.ret (some ((s.pages h).paddr + 4 * PTX va), s1) ∧
      table_ok s1 pgdir va ∧
      leaf_slot s1 pgdir va = (s.pages h).paddr + 4 * PTX va ∧
      s1.npages = s.npages ∧
      s1.page_free_list = (s.pages h).pp_link ∧
      s1.pages h = { pp_link := none, pp_ref := 1, paddr := (s.pages h).paddr } ∧
      (∀ i, i ≠ h → s1.pages i = s.pages i) ∧
      rd s1 (pde_slot pgdir va) = page2pa h ||| PTE_P ||| PTE_W ∧
      (∀ a, a ≠ pde_slot pgdir va → rd s1 a =
        if (s.pages h).paddr ≤ a ∧ a < (s.pages h).paddr + PGSIZE then 0 else rd s a) := by
  have hh : h < s.npages := hwf.head_lt h hf
  have hh20 : h < 2 ^ 20 := lt_of_lt_of_le hh hwf.npages_le
  have hpa : (s.pages h).paddr = page2pa h := hwf.paddr_eq h hh
  have hrange : PGNUM (s.pages h).paddr < s.npages := mapped_paddr_range s hwf h hh
  obtain ⟨sA, hA, an, afl, -, apg, aoth, ard⟩ :=
    page_alloc_some s ALLOC_ZERO h hf (fun _ => hrange)
  have hp' : ¬ (PTE_P &&& rd s (pde_slot pgdir va) ≠ 0) := fun x => hp x
  have hk : ¬ (sA.npages ≤ PGNUM (sA.pages h).paddr) := by
    rw [an, apg]; exact Nat.not_le.2 hrange
  have hval : u32 ((s.pages h).paddr ||| PTE_P ||| PTE_W) = page2pa h ||| PTE_P ||| PTE_W := by
    rw [hpa]
    exact u32_of_lt (Nat.or_lt_two_pow (Nat.or_lt_two_pow (page2pa_lt h) (by decide))
      (by decide))
  have hpn : PGNUM (page2pa h ||| PTE_P ||| PTE_W) = h := by
    rw [PGNUM_or _ _ (by decide : PTE_W < 4096), PGNUM_or _ _ (by decide : PTE_P < 4096),
      PGNUM_page2pa hh20]
  refine ⟨wr (inc_ref sA h) (pde_slot pgdir va) ((sA.pages h).paddr ||| PTE_P ||| PTE_W),
    ?_, ?_, ?_, ?_, ?_, ?_, ?_, ?_, ?_⟩
  · unfold pgdir_walk
    rw [if_neg hp', if_neg hc, hA]
    simp only [inc_ref_paddr, wr_pages, wr_npages, inc_ref_npages, KADDR, if_neg hk]
    rw [apg]
  · unfold table_ok
    rw [rd_wr, if_pos rfl, apg, hval, hpn]
    refine ⟨?_, ?_, ?_⟩
    · rw [present_iff]
      exact Nat.or_mod_two_eq_one.2 (Or.inl (Nat.or_mod_two_eq_one.2 (Or.inr (by decide))))
    · simpa [an] using hh
    · simpa [an, apg] using hrange
  · unfold leaf_slot
    rw [rd_wr, if_pos rfl, apg, hval, hpn]
    simp [apg]
  · simp [an]
  · simp [afl]
  · simp [inc_ref, apg, PP_REF_MOD]
  · intro i hi
    rw [wr_pages, inc_ref_pages_ne _ _ _ hi, aoth i hi]
  · rw [rd_wr, if_pos rfl, apg, hval]
  · intro a ha
    rw [rd_wr, if_neg ha, rd_inc_ref, ard]
    simp [ALLOC_ZERO]

theorem pgdir_walk_ret_some (s : State) (hwf : WF s) (pgdir va create q : Nat)
    (s1 : State) (h : pgdir_walk s pgdir va create = Outcome.ret (some q, s1)) :
    table_ok s1 pgdir va ∧ leaf_slot s1 pgdir va = q ∧ s1.npages = s.npages := by
  by_cases hp : present (rd s (pde_slot pgdir va))
  · by_cases h2 : PGNUM (rd s (pde_slot pgdir va)) < s.npages
    · by_cases h3 : PGNUM (s.pages (PGNUM (rd s (pde_slot pgdir va)))).paddr < s.npages
      · rw [pgdir_walk_present s pgdir va _ ⟨hp, h2, h3⟩] at h
        simp only [Outcome.ret.injEq, Prod.mk.injEq, Option.some.injEq] at h
        obtain ⟨hq, hs⟩ := h
        subst hs
        exact ⟨⟨hp, h2, h3⟩, hq, rfl⟩
      · exfalso
        unfold present at hp
        simp [pgdir_walk, hp, pa2page, KADDR, Nat.not_le.2 h2, Nat.le_of_not_lt h3] at h
    · exfalso
      unfold present at hp
      simp [pgdir_walk, hp, pa2page, Nat.le_of_not_lt h2] at h
  · by_cases hc : NO_CREATE = create
    · exfalso
      subst hc
      rw [pgdir_walk_absent_no_create s pgdir va hp] at h
      simp at h
    · cases hf : s.page_free_list with
      | none =>
        exfalso
        rw [pgdir_walk_absent_empty s pgdir va create hp hf] at h
        simp at h
      | some hd =>
        obtain ⟨s1', hw, ht, hl, hn, -⟩ := pgdir_walk_create s hwf pgdir va create hd hp hc hf
        rw [hw] at h
        simp only [Outcome.ret.injEq, Prod.mk.injEq, Option.some.injEq] at h
        obtain ⟨hq, hs⟩ := h
        subst hs
        exact ⟨ht, hl.trans hq, hn⟩

/-! ## Installing a mapping -/

theorem table_congr_pgnum (s s' : State) (pgdir va : Nat)
    (hn : s'.npages = s.npages)
    (hp : ∀ i, (s'.pages i).paddr = (s.pages i).paddr)
    (hpr : present (rd s' (pde_slot pgdir va)) ↔ present (rd s (pde_slot pgdir va)))
    (hpg : PGNUM (rd s' (pde_slot pgdir va)) = PGNUM (rd s (pde_slot pgdir va))) :
    (table_ok s' pgdir va ↔ table_ok s pgdir va) ∧
    leaf_slot s' pgdir va = leaf_slot s pgdir va := by
  unfold table_ok leaf_slot
  rw [hpg, hn, hp, hpr]
  exact ⟨Iff.rfl, rfl⟩

theorem rd_dir_perm_pde (s : State) (pgdir va perm : Nat) (hp : perm < 4096) :
    rd (dir_perm s pgdir va perm) (pde_slot pgdir va)
      = rd s (pde_slot pgdir va) ||| perm := by
  unfold dir_perm
  rw [rd_wr, if_pos rfl, or_perm_u32 _ _ (rd_lt s _) hp]

theorem rd_dir_perm_ne (s : State) (pgdir va perm a : Nat)
    (h : a ≠ pde_slot pgdir va) :
    rd (dir_perm s pgdir va perm) a = rd s a := by
  unfold dir_perm
  rw [rd_wr, if_neg h]

theorem dir_perm_table (s : State) (pgdir va perm : Nat) (hp : perm < 4096)
    (ht : table_ok s pgdir va) :
    table_ok (dir_perm s pgdir va perm) pgdir va ∧
    leaf_slot (dir_perm s pgdir va perm) pgdir va = leaf_slot s pgdir va := by
  have hd := rd_dir_perm_pde s pgdir va perm hp
  obtain ⟨h1, h2⟩ := table_congr_pgnum s (dir_perm s pgdir va perm) pgdir va rfl
    (fun _ => rfl)
    (by rw [hd]; exact ⟨fun _ => ht.1, fun h => present_or_left _ _ h⟩)
    (by rw [hd, PGNUM_or _ _ hp])
  exact ⟨h1.2 ht, h2⟩

theorem page_insert_same (s s1 : State) (pgdir p va perm q : Nat)
    (hw : pgdir_walk s pgdir va CREATE = Outcome.ret (some q, s1))
    (he : (s1.pages p).paddr = PTE_ADDR (rd (dir_perm s1 pgdir va perm) q)) :
    page_insert s pgdir (some p) va perm
      = Outcome.ret (0, wr (dir_perm s1 pgdir va perm) q (new_pte p perm)) := by
  unfold dir_perm at he
  unfold page_insert
  rw [hw]
  simp only [wr_pages, ne_eq, he, not_true_eq_false, if_false]
  rfl

theorem page_insert_fresh (s s1 : State) (pgdir p va perm q : Nat)
    (hw : pgdir_walk s pgdir va CREATE = Outcome.ret (some q, s1))
    (he : (s1.pages p).paddr ≠ PTE_ADDR (rd (dir_perm s1 pgdir va perm) q))
    (hn : ¬ present (rd (dir_perm s1 pgdir va perm) q)) :
    page_insert s pgdir (some p) va perm
      = Outcome.ret (0,
          wr (inc_ref (dir_perm s1 pgdir va perm) p) q (new_pte p perm)) := by
  unfold dir_perm at he hn
  have hn' : ¬ (rd (wr s1 (pde_slot pgdir va) (rd s1 (pde_slot pgdir va) ||| perm)) q
      &&& PTE_P ≠ 0) := fun x => hn ((and_P_ne_zero_iff _).1 x)
  unfold page_insert
  rw [hw]
  simp only [wr_pages, ne_eq, he, not_false_eq_true, if_true, rd_inc_ref]
  rw [if_neg hn']
  rfl

theorem page_insert_replace (s s1 : State) (pgdir p va perm q : Nat)
    (hw : pgdir_walk s pgdir va CREATE = Outcome.ret (some q, s1))
    (he : (s1.pages p).paddr ≠ PTE_ADDR (rd (dir_perm s1 pgdir va perm) q))
    (hn : present (rd (dir_perm s1 pgdir va perm) q)) :
    page_insert s pgdir (some p) va perm
      = match page_remove (inc_ref (dir_perm s1 pgdir va perm) p) pgdir va with
        | Outcome.halt => Outcome.halt
        | Outcome.ret s4 => Outcome.ret (0, wr s4 q (new_pte p perm)) := by
  unfold dir_perm at he hn
  have hn' : rd (wr s1 (pde_slot pgdir va) (rd s1 (pde_slot pgdir va) ||| perm)) q
      &&& PTE_P ≠ 0 := (and_P_ne_zero_iff _).2 hn
  unfold page_insert
  rw [hw]
  simp only [wr_pages, ne_eq, he, not_false_eq_true, if_true, rd_inc_ref]
  rw [if_pos hn']
  rfl

theorem new_pte_facts (f perm : Nat) (hf : f < 2 ^ 20) (hp : perm < 4096) :
    u32 (new_pte f perm) = new_pte f perm ∧ present (new_pte f perm) ∧
    PGNUM (new_pte f perm) = f ∧ PTE_ADDR (new_pte f perm) = page2pa f ∧
    new_pte f perm % 4096 = perm ||| PTE_P :=
  ⟨entry_u32 f perm hp, present_or_P _, entry_PGNUM f perm hf hp,
    entry_PTE_ADDR f perm hf hp, entry_low_bits f perm hf hp⟩

/-- Storing a leaf entry in a state whose directory entry, frame count and
recorded addresses are those of `s2` leaves the table of `va` in place. -/
theorem store_leaf (s2 sX : State) (pgdir va q v : Nat)
    (ht : table_ok s2 pgdir va) (hl : leaf_slot s2 pgdir va = q)
    (hqd : q ≠ pde_slot pgdir va)
    (hn : sX.npages = s2.npages)
    (hpa : ∀ i, (sX.pages i).paddr = (s2.pages i).paddr)
    (hd : rd sX (pde_slot pgdir va) = rd s2 (pde_slot pgdir va)) :
    table_ok (wr sX q v) pgdir va ∧ leaf_slot (wr sX q v) pgdir va = q ∧
    rd (wr sX q v) q = u32 v ∧
    rd (wr sX q v) (pde_slot pgdir va) = rd s2 (pde_slot pgdir va) := by
  have hd' : rd (wr sX q v) (pde_slot pgdir va) = rd s2 (pde_slot pgdir va) := by
    rw [rd_wr, if_neg (Ne.symm hqd), hd]
  obtain ⟨h1, h2⟩ := table_congr s2 (wr sX q v) pgdir va (by rw [wr_npages, hn])
    (fun i => by rw [wr_pages, hpa]) hd'
  exact ⟨h1.2 ht, h2.trans hl, by rw [rd_wr, if_pos rfl], hd'⟩

/-- Shape of the state after a successful `page_insert` whose leaf slot is not
the directory entry itself. -/
theorem page_insert_ret_table (s : State) (hwf : WF s) (pgdir f va perm : Nat)
    (rv : Int) (s' : State) (hperm : perm < 4096)
    (hna : ∀ q s1, pgdir_walk s pgdir va CREATE = Outcome.ret (some q, s1) →
      q ≠ pde_slot pgdir va)
    (hins : page_insert s pgdir (some f) va perm = Outcome.ret (rv, s'))
    (hrv : rv ≠ -E_NO_MEM) :
    ∃ q s1, pgdir_walk s pgdir va CREATE = Outcome.ret (some q, s1) ∧
      rv = 0 ∧ table_ok s' pgdir va ∧ leaf_slot s' pgdir va = q ∧
      rd s' q = u32 (new_pte f perm) ∧
      rd s' (pde_slot pgdir va) = rd s1 (pde_slot pgdir va) ||| perm := by
  cases hw : pgdir_walk s pgdir va CREATE with
  | halt => simp [page_insert, hw] at hins
  | ret x =>
    obtain ⟨r, s1⟩ := x
    cases r with
    | none =>
      exfalso
      simp only [page_insert, hw, Outcome.ret.injEq, Prod.mk.injEq] at hins
      exact hrv hins.1.symm
    | some q =>
      obtain ⟨ht1, hl1, -⟩ := pgdir_walk_ret_some s hwf pgdir va CREATE q s1 hw
      have hqd := hna q s1 hw
      obtain ⟨ht2, hl2⟩ := dir_perm_table s1 pgdir va perm hperm ht1
      have hl2' : leaf_slot (dir_perm s1 pgdir va perm) pgdir va = q := hl2.trans hl1
      have hd2 := rd_dir_perm_pde s1 pgdir va perm hperm
      refine ⟨q, s1, rfl, ?_⟩
      have key : ∀ sX : State, sX.npages = (dir_perm s1 pgdir va perm).npages →
          (∀ i, (sX.pages i).paddr = ((dir_perm s1 pgdir va perm).pages i).paddr) →
          rd sX (pde_slot pgdir va) = rd (dir_perm s1 pgdir va perm) (pde_slot pgdir va) →
          Outcome.ret ((0 : Int), wr sX q (new_pte f perm)) = Outcome.ret (rv, s') →
          rv = 0 ∧ table_ok s' pgdir va ∧ leaf_slot s' pgdir va = q ∧
          rd s' q = u32 (new_pte f perm) ∧
          rd s' (pde_slot pgdir va) = rd s1 (pde_slot pgdir va) ||| perm := by
        intro sX hn hpa hd heq
        simp only [Outcome.ret.injEq, Prod.mk.injEq] at heq
        obtain ⟨hrv0, hs'⟩ := heq
        subst hs'
        obtain ⟨a, b, c, d⟩ := store_leaf (dir_perm s1 pgdir va perm) sX pgdir va q
          (new_pte f perm) ht2 hl2' hqd hn hpa hd
        exact ⟨hrv0.symm, a, b, c, d.trans hd2⟩
      by_cases he : (s1.pages f).paddr = PTE_ADDR (rd (dir_perm s1 pgdir va perm) q)
      · rw [page_insert_same s s1 pgdir f va perm q hw he] at hins
        exact key _ rfl (fun _ => rfl) rfl hins
      · by_cases hpres : present (rd (dir_perm s1 pgdir va perm) q)
        · rw [page_insert_replace s s1 pgdir f va perm q hw he hpres] at hins
          cases hrm : page_remove (inc_ref (dir_perm s1 pgdir va perm) f) pgdir va with
          | halt => simp [hrm] at hins
          | ret s4 =>
            simp only [hrm] at hins
            obtain ⟨rn, rp, rm⟩ := page_remove_ret _ pgdir va s4 hrm
            have hl3 : leaf_slot (inc_ref (dir_perm s1 pgdir va perm) f) pgdir va = q := by
              rw [← hl2']
              exact (table_congr (dir_perm s1 pgdir va perm)
                (inc_ref (dir_perm s1 pgdir va perm) f) pgdir va rfl
                (fun i => by simp) rfl).2
            refine key s4 (by rw [rn]; rfl) (fun i => by rw [rp]; simp) ?_ hins
            rw [rm _ (by rw [hl3]; exact Ne.symm hqd)]
            rfl
        · rw [page_insert_fresh s s1 pgdir f va perm q hw he hpres] at hins
          exact key (inc_ref (dir_perm s1 pgdir va perm) f) rfl (fun i => by simp) rfl hins

/-- C7 (amended). After a successful `page_insert` with `perm` within the low
12 bits, at an address whose leaf slot is not the directory entry itself, the
leaf entry of `va` is exactly `page2pa (F) | perm | PTE_P`, the directory
entry has every bit of `perm` set, and `pgdir_walk` without create returns a
slot that decodes to frame `F` and permissions `perm`. -/
theorem page_insert_installs (s : State) (hwf : WF s) (pgdir f va perm : Nat)
    (s' : State) (hperm : perm < 4096) (hf : f < s.npages)
    (hna : ∀ q s1, pgdir_walk s pgdir va CREATE = Outcome.ret (some q, s1) →
      q ≠ pde_slot pgdir va)
    (hins : page_insert s pgdir (some f) va perm = Outcome.ret (0, s')) :
    ∃ q, pgdir_walk s' pgdir va NO_CREATE = Outcome.ret (some q, s') ∧
      rd s' q = page2pa f ||| perm ||| PTE_P ∧
      rd s' (pde_slot pgdir va) &&& perm = perm ∧
      PGNUM (PTE_ADDR (rd s' q)) = f ∧
      rd s' q % 4096 = perm ||| PTE_P := by
  obtain ⟨q, s1, -, -, ht, hl, hq, hd⟩ :=
    page_insert_ret_table s hwf pgdir f va perm 0 s' hperm hna hins (by decide)
  obtain ⟨e1, -, e3, -, e5⟩ :=
    new_pte_facts f perm (lt_of_lt_of_le hf hwf.npages_le) hperm
  rw [e1] at hq
  refine ⟨q, ?_, hq, ?_, ?_, ?_⟩
  · rw [pgdir_walk_present s' pgdir va _ ht, hl]
  · rw [hd, or_and_self]
  · rw [PGNUM_PTE_ADDR_rd, hq, e3]
  · rw [hq, e5]

theorem follow_congr (s s' : State) (h : s'.pages = s.pages) (k : Nat) :
    ∀ hd, follow s' k hd = follow s k hd := by
  induction k with
  | zero => intro hd; rfl
  | succ k ih =>
    intro hd
    cases hd with
    | none => rfl
    | some x =>
      show follow s' k (s'.pages x).pp_link = follow s k (s.pages x).pp_link
      rw [h, ih]

theorem on_free_list_congr (s s' : State) (h : s'.pages = s.pages)
    (hf : s'.page_free_list = s.page_free_list) (p : Nat) :
    on_free_list s' p ↔ on_free_list s p := by
  unfold on_free_list
  rw [hf]
  constructor
  · rintro ⟨k, hk⟩; exact ⟨k, by rw [← follow_congr s s' h]; exact hk⟩
  · rintro ⟨k, hk⟩; exact ⟨k, by rw [follow_congr s s' h]; exact hk⟩

/-- The recorded address of a mapped frame is the address part of the leaf
entry. -/
theorem mapped_paddr (s : State) (hwf : WF s) (pgdir va g : Nat)
    (hm : mapped s pgdir va g) :
    (s.pages g).paddr = PTE_ADDR (rd s (leaf_slot s pgdir va)) := by
  rw [hwf.paddr_eq g hm.2.2.2, ← hm.2.2.1, page2pa_PGNUM _ (rd_lt s _)]

/-- C2 (amended). Re-inserting the frame already mapped at `va`, with `perm`
within the low 12 bits, returns 0, changes no descriptor (so the count of the
frame is unchanged and it is not put on the free list) and leaves the frame
mapped at `va`. -/
theorem page_insert_same_frame (s : State) (hwf : WF s) (pgdir f va perm : Nat)
    (hperm : perm < 4096) (hm : mapped s pgdir va f) :
    ∃ s', page_insert s pgdir (some f) va perm = Outcome.ret (0, s') ∧
      (s'.pages f).pp_ref = (s.pages f).pp_ref ∧
      s'.pages = s.pages ∧ s'.page_free_list = s.page_free_list ∧
      (on_free_list s' f ↔ on_free_list s f) ∧
      mapped s' pgdir va f := by
  have hw := pgdir_walk_present s pgdir va CREATE hm.1
  have hf20 : f < 2 ^ 20 := lt_of_lt_of_le hm.2.2.2 hwf.npages_le
  obtain ⟨e1, e2, e3, -, -⟩ := new_pte_facts f perm hf20 hperm
  have hd2 := rd_dir_perm_pde s pgdir va perm hperm
  -- the leaf entry read after the directory update has the same address part
  have hq2 : PTE_ADDR (rd (dir_perm s pgdir va perm) (leaf_slot s pgdir va))
      = PTE_ADDR (rd s (leaf_slot s pgdir va)) := by
    by_cases hal : leaf_slot s pgdir va = pde_slot pgdir va
    · rw [hal, hd2, PTE_ADDR_or _ _ hperm]
    · rw [rd_dir_perm_ne _ _ _ _ _ hal]
  have he : (s.pages f).paddr
      = PTE_ADDR (rd (dir_perm s pgdir va perm) (leaf_slot s pgdir va)) := by
    rw [hq2]; exact mapped_paddr s hwf pgdir va f hm
  refine ⟨_, page_insert_same s s pgdir f va perm _ hw he, rfl, rfl, rfl,
    on_free_list_congr s
      (wr (dir_perm s pgdir va perm) (leaf_slot s pgdir va) (new_pte f perm)) rfl rfl f, ?_⟩
  -- the directory entry after the two stores
  have hpde : present (rd (wr (dir_perm s pgdir va perm) (leaf_slot s pgdir va)
        (new_pte f perm)) (pde_slot pgdir va)) ∧
      PGNUM (rd (wr (dir_perm s pgdir va perm) (leaf_slot s pgdir va)
        (new_pte f perm)) (pde_slot pgdir va)) = PGNUM (rd s (pde_slot pgdir va)) := by
    rw [rd_wr]
    by_cases hal : pde_slot pgdir va = leaf_slot s pgdir va
    · rw [if_pos hal, e1, e3, hal, hm.2.2.1]
      exact ⟨e2, rfl⟩
    · rw [if_neg hal, hd2, PGNUM_or _ _ hperm]
      exact ⟨present_or_left _ _ hm.1.1, rfl⟩
  obtain ⟨c1, c2⟩ := table_congr_pgnum s
    (wr (dir_perm s pgdir va perm) (leaf_slot s pgdir va) (new_pte f perm)) pgdir va rfl
    (fun _ => rfl) ⟨fun _ => hm.1.1, fun _ => hpde.1⟩ hpde.2
  refine ⟨c1.2 hm.1, ?_, ?_, hm.2.2.2⟩
  · rw [c2, rd_wr, if_pos rfl, e1]; exact e2
  · rw [c2, rd_wr, if_pos rfl, e1]; exact e3

/-- C3 (amended). Inserting `f` at an address where a different frame `g` is
mapped, with `perm` within the low 12 bits, the count of `f` below its
maximum and the leaf slot not being the directory entry itself: returns 0,
the count of `g` drops by one, that of `f` grows by one, `page_lookup`
returns `f`, and when the count of `g` reached 0 the next `page_alloc`
returns `g`. -/
theorem page_insert_replaces (s : State) (hwf : WF s) (pgdir f g va perm : Nat)
    (hperm : perm < 4096) (hfg : f ≠ g) (hf : f < s.npages)
    (hm : mapped s pgdir va g) (hrg : 1 ≤ (s.pages g).pp_ref)
    (hrf : (s.pages f).pp_ref + 1 < PP_REF_MOD)
    (hna : leaf_slot s pgdir va ≠ pde_slot pgdir va) :
    ∃ s', page_insert s pgdir (some f) va perm = Outcome.ret (0, s') ∧
      (s'.pages g).pp_ref = (s.pages g).pp_ref - 1 ∧
      (s'.pages f).pp_ref = (s.pages f).pp_ref + 1 ∧
      page_lookup s' pgdir va
        = Outcome.ret (some f, some (leaf_slot s pgdir va), s') ∧
      ((s'.pages g).pp_ref = 0 →
        ∀ alloc_flags, ∃ t, page_alloc s' alloc_flags = Outcome.ret (some g, t)) := by
  have hw := pgdir_walk_present s pgdir va CREATE hm.1
  have hg : g < s.npages := hm.2.2.2
  have hf20 : f < 2 ^ 20 := lt_of_lt_of_le hf hwf.npages_le
  have hg20 : g < 2 ^ 20 := lt_of_lt_of_le hg hwf.npages_le
  obtain ⟨e1, e2, e3, -, -⟩ := new_pte_facts f perm hf20 hperm
  have hq2 : rd (dir_perm s pgdir va perm) (leaf_slot s pgdir va)
      = rd s (leaf_slot s pgdir va) := rd_dir_perm_ne _ _ _ _ _ hna
  have he : (s.pages f).paddr
      ≠ PTE_ADDR (rd (dir_perm s pgdir va perm) (leaf_slot s pgdir va)) := by
    rw [hq2, ← mapped_paddr s hwf pgdir va g hm, hwf.paddr_eq f hf, hwf.paddr_eq g hg]
    exact fun h => hfg (page2pa_injective hf20 hg20 h)
  have hpres : present (rd (dir_perm s pgdir va perm) (leaf_slot s pgdir va)) := by
    rw [hq2]; exact hm.2.1
  obtain ⟨ht2, hl2⟩ := dir_perm_table s pgdir va perm hperm hm.1
  -- the state in which `page_remove` runs
  obtain ⟨ht3, hl3⟩ := table_congr (dir_perm s pgdir va perm)
    (inc_ref (dir_perm s pgdir va perm) f) pgdir va rfl (fun i => by simp) rfl
  have hl3' : leaf_slot (inc_ref (dir_perm s pgdir va perm) f) pgdir va
      = leaf_slot s pgdir va := hl3.trans hl2
  have hm3 : mapped (inc_ref (dir_perm s pgdir va perm) f) pgdir va g := by
    refine ⟨ht3.2 ht2, ?_, ?_, hg⟩
    · rw [hl3', rd_inc_ref, hq2]; exact hm.2.1
    · rw [hl3', rd_inc_ref, hq2]; exact hm.2.2.1
  have hpg3 : (inc_ref (dir_perm s pgdir va perm) f).pages g = s.pages g :=
    inc_ref_pages_ne _ _ _ (Ne.symm hfg)
  obtain ⟨dn, dm, -, dref, dpa, done, -, doth⟩ :=
    page_decref_spec (inc_ref (dir_perm s pgdir va perm) f) g
      (by rw [hpg3]; exact hrg) (by rw [hpg3]; exact hwf.ref_lt g)
      (by rw [hpg3]; exact mapped_paddr_range s hwf g hg)
  have hrm := page_remove_mapped _ pgdir va g hm3
  rw [hl3'] at hrm
  have hins := page_insert_replace s s pgdir f va perm _ hw he hpres
  rw [hrm] at hins
  refine ⟨_, hins, ?_⟩
  generalize hsD : page_decref (inc_ref (dir_perm s pgdir va perm) f) g = sD
    at dn dm dref dpa done doth
  have hs3 : ∀ s3 : State,
      s3 = (if (sD.pages g).pp_ref = 0 then tlb_invalidate sD pgdir va else sD) →
      s3.pages = sD.pages ∧ s3.npages = sD.npages ∧
      s3.page_free_list = sD.page_free_list ∧ s3.mem = sD.mem := by
    intro s3 h3
    subst h3
    by_cases hz : (sD.pages g).pp_ref = 0
    · rw [if_pos hz]; exact ⟨rfl, rfl, rfl, rfl⟩
    · rw [if_neg hz]; exact ⟨rfl, rfl, rfl, rfl⟩
  obtain ⟨x1, x2, x3, x4⟩ := hs3 _ rfl
  generalize (if (sD.pages g).pp_ref = 0 then tlb_invalidate sD pgdir va else sD)
    = s3 at x1 x2 x3 x4
  have hrefg : ((wr (wr s3 (leaf_slot s pgdir va) 0) (leaf_slot s pgdir va)
      (new_pte f perm)).pages g).pp_ref = (s.pages g).pp_ref - 1 := by
    rw [wr_pages, wr_pages, x1, dref, hpg3]
  refine ⟨hrefg, ?_, ?_, ?_⟩
  · rw [wr_pages, wr_pages, x1, doth f hfg, inc_ref_ref_same]
    show ((s.pages f).pp_ref + 1) % PP_REF_MOD = (s.pages f).pp_ref + 1
    exact Nat.mod_eq_of_lt hrf
  · have hd4 : rd (wr s3 (leaf_slot s pgdir va) 0) (pde_slot pgdir va)
        = rd (dir_perm s pgdir va perm) (pde_slot pgdir va) := by
      rw [rd_wr, if_neg (Ne.symm hna), rd_congr_mem sD s3 x4, rd_congr_mem _ sD dm]
      rfl
    obtain ⟨a, b, c, -⟩ := store_leaf (dir_perm s pgdir va perm)
      (wr s3 (leaf_slot s pgdir va) 0) pgdir va (leaf_slot s pgdir va) (new_pte f perm)
      ht2 hl2 hna (by rw [wr_npages, x2, dn]; rfl)
      (fun i => by rw [wr_pages, x1, dpa]; simp) hd4
    have hm' : mapped (wr (wr s3 (leaf_slot s pgdir va) 0) (leaf_slot s pgdir va)
        (new_pte f perm)) pgdir va f := by
      refine ⟨a, ?_, ?_, ?_⟩
      · rw [b, c, e1]; exact e2
      · rw [b, c, e1]; exact e3
      · rw [wr_npages, wr_npages, x2, dn]; exact hf
    have := page_lookup_mapped _ pgdir va f hm'
    rw [b] at this
    exact this
  · intro hz alloc_flags
    have hone : (s.pages g).pp_ref = 1 := by
      rw [hrefg] at hz; omega
    have hfl : (wr (wr s3 (leaf_slot s pgdir va) 0) (leaf_slot s pgdir va)
        (new_pte f perm)).page_free_list = some g := by
      rw [wr_free, wr_free, x3]
      exact (done (by rw [hpg3]; exact hone)).1
    obtain ⟨t, ht', -⟩ := page_alloc_some _ alloc_flags g hfl (fun _ => by
      rw [wr_pages, wr_pages, wr_npages, wr_npages, x1, x2, dpa, dn]
      simpa using mapped_paddr_range s hwf g hg)
    exact ⟨t, ht'⟩

/-! ## Out of memory -/

theorem pgdir_walk_ret_none (s : State) (pgdir va create : Nat) (s1 : State)
    (h : pgdir_walk s pgdir va create = Outcome.ret (none, s1)) :
    ¬ present (rd s (pde_slot pgdir va)) ∧
    (NO_CREATE = create ∨ s.page_free_list = none) := by
  by_cases hp : present (rd s (pde_slot pgdir va))
  · exfalso
    have hp' : PTE_P &&& rd s (pde_slot pgdir va) ≠ 0 := hp
    unfold pgdir_walk at h
    rw [if_pos hp'] at h
    revert h
    split
    · simp
    · split <;> simp
  · refine ⟨hp, ?_⟩
    by_cases hc : NO_CREATE = create
    · exact Or.inl hc
    · right
      cases hf : s.page_free_list with
      | none => rfl
      | some hd =>
        exfalso
        have hp' : ¬ (PTE_P &&& rd s (pde_slot pgdir va) ≠ 0) := fun x => hp x
        unfold pgdir_walk at h
        rw [if_neg hp', if_neg hc] at h
        cases hA : page_alloc s ALLOC_ZERO with
        | halt => simp [hA] at h
        | ret x =>
          obtain ⟨r, sA⟩ := x
          cases r with
          | none => exact page_alloc_nonempty_ne s ALLOC_ZERO hd hf sA hA
          | some y =>
            simp only [hA] at h
            revert h
            split <;> simp

/-- C1 (failing case). Frame 0 inserted at an address whose table exists and
whose leaf entry is clear: `page_insert` returns 0 and installs a present
leaf entry, but no descriptor changes, so the count of frame 0 is not
incremented. -/
theorem page_insert_frame_zero_not_counted (s : State) (pgdir va perm : Nat)
    (ht : table_ok s pgdir va) (hl : rd s (leaf_slot s pgdir va) = 0)
    (h0 : (s.pages 0).paddr = 0) :
    ∃ s', page_insert s pgdir (some 0) va perm = Outcome.ret (0, s') ∧
      s'.pages = s.pages ∧
      (s'.pages 0).pp_ref = (s.pages 0).pp_ref ∧
      present (rd s' (leaf_slot s pgdir va)) := by
  have hw := pgdir_walk_present s pgdir va CREATE ht
  have hal : leaf_slot s pgdir va ≠ pde_slot pgdir va := by
    intro h
    have := ht.1
    rw [← h, hl] at this
    exact not_present_zero this
  have hq2 : rd (dir_perm s pgdir va perm) (leaf_slot s pgdir va) = 0 := by
    rw [rd_dir_perm_ne _ _ _ _ _ hal, hl]
  have he : (s.pages 0).paddr
      = PTE_ADDR (rd (dir_perm s pgdir va perm) (leaf_slot s pgdir va)) := by
    rw [hq2, h0]; rfl
  refine ⟨_, page_insert_same s s pgdir 0 va perm _ hw he, rfl, rfl, ?_⟩
  rw [rd_wr, if_pos rfl, present_u32]
  exact present_or_P _

/-! ## Well-formedness is kept by the operations -/

theorem WF_of_same (s s' : State) (h : WF s) (hn : s'.npages = s.npages)
    (hp : s'.pages = s.pages) (hf : s'.page_free_list = s.page_free_list) : WF s' :=
  { npages_le := by rw [hn]; exact h.npages_le
    paddr_eq := fun i hi => by rw [hp]; exact h.paddr_eq i (by rw [← hn]; exact hi)
    ref_lt := fun i => by rw [hp]; exact h.ref_lt i
    head_lt := fun x hx => by rw [hn]; exact h.head_lt x (by rw [← hf]; exact hx)
    link_lt := fun i j hj => by rw [hn]; exact h.link_lt i j (by rw [← hp]; exact hj) }

theorem WF_wr (s : State) (a v : Nat) (h : WF s) : WF (wr s a v) :=
  WF_of_same s _ h rfl rfl rfl

theorem WF_memset (s : State) (d c n : Nat) (h : WF s) : WF (memset s d c n) :=
  WF_of_same s _ h rfl rfl rfl

theorem WF_tlb_invalidate (s : State) (pgdir va : Nat) (h : WF s) :
    WF (tlb_invalidate s pgdir va) :=
  WF_of_same s _ h rfl rfl rfl

theorem WF_set_ref (s : State) (i r : Nat) (h : WF s) (hr : r < PP_REF_MOD) :
    WF (set_ref s i r) :=
  { npages_le := h.npages_le
    paddr_eq := fun j hj => by rw [set_ref_paddr]; exact h.paddr_eq j hj
    ref_lt := fun j => by
      rw [set_ref_ref]
      by_cases e : j = i
      · rw [if_pos e]; exact hr
      · rw [if_neg e]; exact h.ref_lt j
    head_lt := h.head_lt
    link_lt := fun j k hk => h.link_lt j k (by rw [← set_ref_link s i r j]; exact hk) }

theorem WF_inc_ref (s : State) (i : Nat) (h : WF s) : WF (inc_ref s i) :=
  WF_set_ref s i _ h (Nat.mod_lt _ (by decide))

theorem WF_set_link (s : State) (i : Nat) (l : Option Nat) (h : WF s)
    (hl : ∀ j, l = some j → j < s.npages) : WF (set_link s i l) :=
  { npages_le := h.npages_le
    paddr_eq := fun j hj => by rw [set_link_paddr]; exact h.paddr_eq j hj
    ref_lt := fun j => by rw [set_link_ref]; exact h.ref_lt j
    head_lt := h.head_lt
    link_lt := fun j k hk => by
      rw [set_link_link] at hk
      by_cases e : j = i
      · rw [if_pos e] at hk; exact hl k hk
      · rw [if_neg e] at hk; exact h.link_lt j k hk }

theorem WF_set_head (s : State) (hd : Option Nat) (h : WF s)
    (hh : ∀ j, hd = some j → j < s.npages) :
    WF { s with page_free_list := hd } :=
  { npages_le := h.npages_le
    paddr_eq := h.paddr_eq
    ref_lt := h.ref_lt
    head_lt := hh
    link_lt := h.link_lt }

theorem WF_page_alloc (s : State) (alloc_flags : Nat) (r : Option Nat) (s' : State)
    (h : WF s) (ha : page_alloc s alloc_flags = Outcome.ret (r, s')) : WF s' := by
  cases hf : s.page_free_list with
  | none =>
    rw [page_alloc_empty s alloc_flags hf] at ha
    simp only [Outcome.ret.injEq, Prod.mk.injEq] at ha
    rw [← ha.2]; exact h
  | some p =>
    have h1 : WF (set_link { s with page_free_list := (s.pages p).pp_link } p none) :=
      WF_set_link _ p none (WF_set_head s _ h (fun j hj => h.link_lt p j hj))
        (fun j hj => by cases hj)
    unfold page_alloc at ha
    simp only [hf] at ha
    revert ha
    split
    · split
      · simp
      · intro ha
        simp only [Outcome.ret.injEq, Prod.mk.injEq] at ha
        rw [← ha.2]
        exact WF_set_ref _ p 0 (WF_memset _ _ _ _ h1) (by decide)
    · intro ha
      simp only [Outcome.ret.injEq, Prod.mk.injEq] at ha
      rw [← ha.2]
      exact WF_set_ref _ p 0 h1 (by decide)

theorem WF_page_free (s : State) (p : Nat) (h : WF s) (hp : p < s.npages) :
    WF (page_free s (some p)) := by
  rw [page_free_some s p (mapped_paddr_range s h p hp)]
  exact WF_set_head _ (some p) (WF_set_link s p _ h h.head_lt)
    (fun j hj => by
      simp only [Option.some.injEq] at hj
      rw [← hj]; exact hp)

theorem WF_page_decref (s : State) (p : Nat) (h : WF s) (hp : p < s.npages) :
    WF (page_decref s p) := by
  have h1 : WF (set_ref s p (((s.pages p).pp_ref + (PP_REF_MOD - 1)) % PP_REF_MOD)) :=
    WF_set_ref s p _ h (Nat.mod_lt _ (by decide))
  unfold page_decref
  by_cases hz : ((set_ref s p (((s.pages p).pp_ref + (PP_REF_MOD - 1)) % PP_REF_MOD)).pages
      p).pp_ref = 0
  · rw [if_pos hz]; exact WF_page_free _ p h1 hp
  · rw [if_neg hz]; exact h1

theorem WF_pgdir_walk (s : State) (pgdir va create : Nat) (r : Option Nat)
    (s' : State) (h : WF s)
    (hw : pgdir_walk s pgdir va create = Outcome.ret (r, s')) : WF s' := by
  unfold pgdir_walk at hw
  revert hw
  split
  · split
    · simp
    · split
      · simp
      · intro hw
        simp only [Outcome.ret.injEq, Prod.mk.injEq] at hw
        rw [← hw.2]; exact h
  · split
    · intro hw
      simp only [Outcome.ret.injEq, Prod.mk.injEq] at hw
      rw [← hw.2]; exact h
    · cases ha : page_alloc s ALLOC_ZERO with
      | halt => simp
      | ret x =>
        obtain ⟨q, s1⟩ := x
        have h1 : WF s1 := WF_page_alloc s ALLOC_ZERO q s1 h ha
        cases q with
        | none =>
          intro hw
          simp only [Outcome.ret.injEq, Prod.mk.injEq] at hw
          rw [← hw.2]; exact h1
        | some pg =>
          simp only
          split
          · simp
          · intro hw
            simp only [Outcome.ret.injEq, Prod.mk.injEq] at hw
            rw [← hw.2]
            exact WF_wr _ _ _ (WF_inc_ref s1 pg h1)

theorem WF_page_remove (s : State) (pgdir va : Nat) (s' : State) (h : WF s)
    (hr : page_remove s pgdir va = Outcome.ret s') : WF s' := by
  unfold page_remove at hr
  cases hl : page_lookup s pgdir va with
  | halt => simp [hl] at hr
  | ret x =>
    obtain ⟨r, ps, s1⟩ := x
    obtain ⟨hs1, hcase⟩ := page_lookup_ret s pgdir va r ps s1 hl
    subst hs1
    rcases hcase with ⟨hr', -, -⟩ | ⟨hr', -, -, -⟩ | ⟨f, hr', hps, hm⟩
    · subst hr'
      simp only [hl, Outcome.ret.injEq] at hr
      rw [← hr]; exact h
    · subst hr'
      simp only [hl, Outcome.ret.injEq] at hr
      rw [← hr]; exact h
    · subst hr' hps
      simp only [hl, Outcome.ret.injEq] at hr
      rw [← hr]
      have h2 := WF_page_decref s1 f h hm.2.2.2
      by_cases hz : ((page_decref s1 f).pages f).pp_ref = 0
      · rw [if_pos hz]; exact WF_wr _ _ _ (WF_tlb_invalidate _ _ _ h2)
      · rw [if_neg hz]; exact WF_wr _ _ _ h2

theorem WF_page_insert (s : State) (pgdir : Nat) (pp : Option Nat) (va perm : Nat)
    (rv : Int) (s' : State) (h : WF s)
    (hi : page_insert s pgdir pp va perm = Outcome.ret (rv, s')) : WF s' := by
  cases hw : pgdir_walk s pgdir va CREATE with
  | halt => simp [page_insert, hw] at hi
  | ret x =>
    obtain ⟨r, s1⟩ := x
    have h1 : WF s1 := WF_pgdir_walk s pgdir va CREATE r s1 h hw
    cases r with
    | none =>
      simp only [page_insert, hw, Outcome.ret.injEq, Prod.mk.injEq] at hi
      rw [← hi.2]; exact h1
    | some q =>
      cases pp with
      | none =>
        simp only [page_insert, hw, Outcome.ret.injEq, Prod.mk.injEq] at hi
        rw [← hi.2]; exact h1
      | some p =>
        have h2 : WF (dir_perm s1 pgdir va perm) := WF_wr _ _ _ h1
        by_cases he : (s1.pages p).paddr = PTE_ADDR (rd (dir_perm s1 pgdir va perm) q)
        · rw [page_insert_same s s1 pgdir p va perm q hw he] at hi
          simp only [Outcome.ret.injEq, Prod.mk.injEq] at hi
          rw [← hi.2]; exact WF_wr _ _ _ h2
        · by_cases hpres : present (rd (dir_perm s1 pgdir va perm) q)
          · rw [page_insert_replace s s1 pgdir p va perm q hw he hpres] at hi
            cases hrm : page_remove (inc_ref (dir_perm s1 pgdir va perm) p) pgdir va with
            | halt => simp [hrm] at hi
            | ret s4 =>
              simp only [hrm, Outcome.ret.injEq, Prod.mk.injEq] at hi
              rw [← hi.2]
              exact WF_wr _ _ _ (WF_page_remove _ pgdir va s4 (WF_inc_ref _ p h2) hrm)
          · rw [page_insert_fresh s s1 pgdir p va perm q hw he hpres] at hi
            simp only [Outcome.ret.injEq, Prod.mk.injEq] at hi
            rw [← hi.2]; exact WF_wr _ _ _ (WF_inc_ref _ p h2)

/-! ## Returning and re-taking frames -/

theorem page_free_null_or_out (s : State) (p : Nat)
    (h : s.npages ≤ PGNUM (s.pages p).paddr) : page_free s (some p) = s := by
  simp [page_free, h]

theorem page_free_push (s : State) (p : Nat)
    (h : PGNUM (s.pages p).paddr < s.npages) :
    (page_free s (some p)).page_free_list = some p ∧
    ((page_free s (some p)).pages p).pp_link = s.page_free_list ∧
    ((page_free s (some p)).pages p).pp_ref = (s.pages p).pp_ref ∧
    ((page_free s (some p)).pages p).paddr = (s.pages p).paddr ∧
    (∀ i, i ≠ p → (page_free s (some p)).pages i = s.pages i) ∧
    (page_free s (some p)).mem = s.mem ∧
    (page_free s (some p)).npages = s.npages ∧
    (page_free s (some p)).tlb = s.tlb := by
  rw [page_free_some s p h]
  refine ⟨rfl, ?_, ?_, ?_, ?_, rfl, rfl, rfl⟩
  · simp
  · simp
  · simp
  · intro i hi
    exact set_link_pages_ne s p _ i hi

/-- C12. `page_free` leaves the state unchanged for `NIL` and for a frame
number `PGNUM (pp->paddr)` that is not below `npages`; otherwise it makes the
frame the free-list head with the former head as its successor, whatever its
count is, leaves the count as it was and changes no other descriptor. -/
theorem page_free_spec (s : State) (p : Nat) :
    page_free s none = s ∧
    (s.npages ≤ PGNUM (s.pages p).paddr → page_free s (some p) = s) ∧
    (PGNUM (s.pages p).paddr < s.npages →
      (page_free s (some p)).page_free_list = some p ∧
      ((page_free s (some p)).pages p).pp_link = s.page_free_list ∧
      ((page_free s (some p)).pages p).pp_ref = (s.pages p).pp_ref ∧
      ((page_free s (some p)).pages p).paddr = (s.pages p).paddr ∧
      (∀ i, i ≠ p → (page_free s (some p)).pages i = s.pages i) ∧
      (page_free s (some p)).mem = s.mem ∧
      (page_free s (some p)).npages = s.npages ∧
      (page_free s (some p)).tlb = s.tlb) :=
  ⟨rfl, page_free_null_or_out s p, page_free_push s p⟩

theorem follow_congr_link (s s' : State)
    (h : ∀ i, (s'.pages i).pp_link = (s.pages i).pp_link) (k : Nat) :
    ∀ hd, follow s' k hd = follow s k hd := by
  induction k with
  | zero => intro hd; rfl
  | succ k ih =>
    intro hd
    cases hd with
    | none => rfl
    | some x =>
      show follow s' k (s'.pages x).pp_link = follow s k (s.pages x).pp_link
      rw [h, ih]

/-- Changing the link of a frame that the chain from `hd` never reaches does
not change the chain. -/
theorem follow_congr_off (s s' : State) (p : Nat)
    (h : ∀ i, i ≠ p → (s'.pages i).pp_link = (s.pages i).pp_link) (k : Nat) :
    ∀ hd, (∀ m, follow s m hd ≠ some p) → follow s' k hd = follow s k hd := by
  induction k with
  | zero => intro hd _; rfl
  | succ k ih =>
    intro hd hn
    cases hd with
    | none => rfl
    | some x =>
      have hx : x ≠ p := fun e => hn 0 (by rw [e]; rfl)
      show follow s' k (s'.pages x).pp_link = follow s k (s.pages x).pp_link
      rw [h x hx]
      exact ih _ (fun m => hn (m + 1))

/-- C13. `page_decref` of a frame of the machine with count `r >= 1` that is
not on the free list leaves its count at `r - 1`, pushes it on the free-list
head if and only if `r = 1`, and changes no other count. -/
theorem page_decref_counts (s : State) (hwf : WF s) (p : Nat)
    (hp : p < s.npages) (hr : 1 ≤ (s.pages p).pp_ref)
    (hnf : ¬ on_free_list s p) :
    ((page_decref s p).pages p).pp_ref = (s.pages p).pp_ref - 1 ∧
    ((s.pages p).pp_ref = 1 →
      (page_decref s p).page_free_list = some p ∧
      ((page_decref s p).pages p).pp_link = s.page_free_list) ∧
    ((s.pages p).pp_ref ≠ 1 →
      (page_decref s p).page_free_list = s.page_free_list ∧
      ∀ i, ((page_decref s p).pages i).pp_link = (s.pages i).pp_link) ∧
    (on_free_list (page_decref s p) p ↔ (s.pages p).pp_ref = 1) ∧
    (∀ i, i ≠ p → ((page_decref s p).pages i).pp_ref = (s.pages i).pp_ref) := by
  obtain ⟨-, -, -, dref, -, done, dne, doth⟩ :=
    page_decref_spec s p hr (hwf.ref_lt p) (mapped_paddr_range s hwf p hp)
  have hlinks : (s.pages p).pp_ref ≠ 1 →
      ∀ i, ((page_decref s p).pages i).pp_link = (s.pages i).pp_link := by
    intro h1 i
    by_cases e : i = p
    · rw [e]; exact (dne h1).2
    · rw [doth i e]
  refine ⟨dref, done, fun h1 => ⟨(dne h1).1, hlinks h1⟩, ⟨?_, ?_⟩,
    fun i hi => by rw [doth i hi]⟩
  · intro hon
    by_contra h1
    obtain ⟨k, hk⟩ := hon
    rw [(dne h1).1, follow_congr_link s _ (hlinks h1)] at hk
    exact hnf ⟨k, hk⟩
  · intro h1
    exact ⟨0, (done h1).1⟩

/-- C14 (amended). `page_decref` applied to a frame whose count is 0 does not
halt: the unsigned 16-bit count wraps to 65535, the frame is not freed and
nothing else changes. -/
theorem page_decref_zero_wraps (s : State) (p : Nat) (h0 : (s.pages p).pp_ref = 0) :
    page_decref s p = set_ref s p 65535 ∧
    ((page_decref s p).pages p).pp_ref = 65535 ∧
    (page_decref s p).page_free_list = s.page_free_list ∧
    (∀ i, ((page_decref s p).pages i).pp_link = (s.pages i).pp_link) ∧
    (∀ i, i ≠ p → (page_decref s p).pages i = s.pages i) := by
  have e : page_decref s p = set_ref s p 65535 := by
    simp [page_decref, h0, PP_REF_MOD]
  rw [e]
  exact ⟨rfl, by simp, rfl, fun i => by simp, fun i hi => set_ref_pages_ne s p _ i hi⟩

/-- C18. `page_free` of a frame in range that is not on the free list,
followed by `page_alloc`, returns that frame and leaves the free list as it
was before the `page_free`: the same head, the same chain of successors, and
every other descriptor unchanged. -/
theorem page_free_then_alloc (s : State) (p alloc_flags : Nat)
    (hr : PGNUM (s.pages p).paddr < s.npages) (hnf : ¬ on_free_list s p) :
    ∃ t, page_alloc (page_free s (some p)) alloc_flags = Outcome.ret (some p, t) ∧
      t.page_free_list = s.page_free_list ∧
      (∀ k, follow t k t.page_free_list = follow s k s.page_free_list) ∧
      (∀ l, free_chain s s.page_free_list l → free_chain t t.page_free_list l) ∧
      (∀ i, i ≠ p → t.pages i = s.pages i) := by
  obtain ⟨f1, f2, -, f4, f5, -, f7, -⟩ := page_free_push s p hr
  obtain ⟨t, ht, -, tfl, -, -, toth, -⟩ :=
    page_alloc_some (page_free s (some p)) alloc_flags p f1
      (fun _ => by rw [f4, f7]; exact hr)
  have hoth : ∀ i, i ≠ p → t.pages i = s.pages i := fun i hi => by
    rw [toth i hi, f5 i hi]
  have hfl : t.page_free_list = s.page_free_list := by rw [tfl, f2]
  refine ⟨t, ht, hfl, ?_, ?_, hoth⟩
  · intro k
    rw [hfl]
    exact follow_congr_off s t p (fun i hi => by rw [hoth i hi]) k _
      (fun m hm => hnf ⟨m, hm⟩)
  · intro l hl
    rw [hfl]
    refine free_chain_congr s t l _ (fun x hx => ?_) hl
    have hxp : x ≠ p := fun e =>
      hnf ((free_chain_follow s p l _ hl).2 (e ▸ hx))
    rw [hoth x hxp]

/-! ## Walks that find nothing, walks that create -/

/-- C19. `pgdir_walk` returns `NULL` if and only if the directory entry
covering `va` is not present and either `create` is `NO_CREATE` or the free
list is empty; whenever it returns `NULL` the state is unchanged. -/
theorem pgdir_walk_null_iff (s : State) (pgdir va create : Nat) :
    ((∃ s', pgdir_walk s pgdir va create = Outcome.ret (none, s')) ↔
      (¬ present (rd s (pde_slot pgdir va)) ∧
        (create = NO_CREATE ∨ s.page_free_list = none))) ∧
    (∀ s', pgdir_walk s pgdir va create = Outcome.ret (none, s') → s' = s) := by
  have hback : ¬ present (rd s (pde_slot pgdir va)) →
      (create = NO_CREATE ∨ s.page_free_list = none) →
      pgdir_walk s pgdir va create = Outcome.ret (none, s) := by
    intro hp hc
    rcases hc with hc | hc
    · rw [hc]; exact pgdir_walk_absent_no_create s pgdir va hp
    · exact pgdir_walk_absent_empty s pgdir va create hp hc
  have hfwd : ∀ s', pgdir_walk s pgdir va create = Outcome.ret (none, s') →
      ¬ present (rd s (pde_slot pgdir va)) ∧
        (create = NO_CREATE ∨ s.page_free_list = none) := by
    intro s' h
    obtain ⟨hp, hc⟩ := pgdir_walk_ret_none s pgdir va create s' h
    exact ⟨hp, hc.imp Eq.symm id⟩
  refine ⟨⟨fun ⟨s', h⟩ => hfwd s' h, fun h => ⟨s, hback h.1 h.2⟩⟩, ?_⟩
  intro s' h
  obtain ⟨hp, hc⟩ := hfwd s' h
  rw [hback hp hc] at h
  simp only [Outcome.ret.injEq, Prod.mk.injEq, true_and] at h
  exact h.symm

/-- C20. With the directory entry absent, `create` set and the free list
non-empty, `pgdir_walk` turns the head of the free list into the table of
`va`: the frame then has count 1, its `NPTENTRIES` leaf entries are all 0,
the directory entry is present and holds its address, and the returned slot
is entry `PTX (va)` of it. The directory entry is a word outside the free
frame (the directory itself is not free). -/
theorem pgdir_walk_creates (s : State) (hwf : WF s) (pgdir va create h : Nat)
    (hp : ¬ present (rd s (pde_slot pgdir va))) (hc : create ≠ NO_CREATE)
    (hf : s.page_free_list = some h)
    (hdir : pde_slot pgdir va < page2pa h ∨ page2pa h + PGSIZE ≤ pde_slot pgdir va) :
    ∃ s', pgdir_walk s pgdir va create
        = Outcome.ret (some (page2pa h + 4 * PTX va), s') ∧
      (s'.pages h).pp_ref = 1 ∧
      (∀ k, k < NPTENTRIES → rd s' (page2pa h + 4 * k) = 0) ∧
      present (rd s' (pde_slot pgdir va)) ∧
      PGNUM (rd s' (pde_slot pgdir va)) = h ∧
      PTE_ADDR (rd s' (pde_slot pgdir va)) = page2pa h := by
  have hh : h < s.npages := hwf.head_lt h hf
  have hh20 : h < 2 ^ 20 := lt_of_lt_of_le hh hwf.npages_le
  have hpa : (s.pages h).paddr = page2pa h := hwf.paddr_eq h hh
  obtain ⟨s', hw, ht, -, -, -, hpg, -, hpde, hmem⟩ :=
    pgdir_walk_create s hwf pgdir va create h hp (Ne.symm hc) hf
  rw [hpa] at hw hmem
  refine ⟨s', hw, by rw [hpg], ?_, ht.1, ?_, ?_⟩
  · intro k hk
    have hne : page2pa h + 4 * k ≠ pde_slot pgdir va := by
      unfold NPTENTRIES at hk
      unfold PGSIZE at hdir
      omega
    rw [hmem _ hne, if_pos]
    unfold NPTENTRIES at hk
    unfold PGSIZE
    omega
  · rw [hpde, PGNUM_or _ _ (by decide : PTE_W < 4096),
      PGNUM_or _ _ (by decide : PTE_P < 4096), PGNUM_page2pa hh20]
  · rw [hpde, PTE_ADDR_or _ _ (by decide : PTE_W < 4096),
      PTE_ADDR_or _ _ (by decide : PTE_P < 4096), PTE_ADDR_page2pa h hh20]

/-! ## Frame contents -/

theorem rd_byte_congr (s s' : State) (a : Nat)
    (h : rd s' (a - a % 4) = rd s (a - a % 4)) : rd_byte s' a = rd_byte s a := by
  unfold rd_byte; rw [h]

theorem rd_byte_of_zero (s : State) (a : Nat) (h : rd s (a - a % 4) = 0) :
    rd_byte s a = 0 := by
  unfold rd_byte; rw [h]; simp

/-- C11. After a successful `page_alloc`: with `ALLOC_ZERO` set every one of
the `PGSIZE` bytes of the returned frame reads 0, with `ALLOC_ZERO` clear the
bytes of the returned frame are unchanged, and in both cases the bytes of
every other frame are unchanged. -/
theorem page_alloc_contents (s : State) (hwf : WF s) (alloc_flags h : Nat)
    (s' : State) (ha : page_alloc s alloc_flags = Outcome.ret (some h, s')) :
    (ALLOC_ZERO &&& alloc_flags ≠ 0 →
      ∀ b, b < PGSIZE → rd_byte s' (page2pa h + b) = 0) ∧
    (ALLOC_ZERO &&& alloc_flags = 0 →
      ∀ b, b < PGSIZE → rd_byte s' (page2pa h + b) = rd_byte s (page2pa h + b)) ∧
    (∀ j, j < s.npages → j ≠ h →
      ∀ b, b < PGSIZE → rd_byte s' (page2pa j + b) = rd_byte s (page2pa j + b)) := by
  have hf : s.page_free_list = some h := by
    cases hfl : s.page_free_list with
    | none =>
      rw [page_alloc_empty s alloc_flags hfl] at ha
      simp at ha
    | some x =>
      obtain ⟨t, ht, -⟩ := page_alloc_some s alloc_flags x hfl
        (fun _ => mapped_paddr_range s hwf x (hwf.head_lt x hfl))
      rw [ht] at ha
      simp only [Outcome.ret.injEq, Prod.mk.injEq, Option.some.injEq] at ha
      rw [ha.1]
  have hh : h < s.npages := hwf.head_lt h hf
  have hh20 : h < 2 ^ 20 := lt_of_lt_of_le hh hwf.npages_le
  obtain ⟨t, ht, -, -, -, -, -, hrd⟩ := page_alloc_some s alloc_flags h hf
    (fun _ => mapped_paddr_range s hwf h hh)
  rw [ht] at ha
  simp only [Outcome.ret.injEq, Prod.mk.injEq, true_and] at ha
  subst ha
  rw [hwf.paddr_eq h hh, page2pa_eq hh20] at hrd
  rw [page2pa_eq hh20]
  unfold PGSIZE at hrd ⊢
  refine ⟨fun hz b hb => ?_, fun hz b hb => ?_, fun j hj hne b hb => ?_⟩
  · apply rd_byte_of_zero
    rw [hrd, if_pos]
    exact ⟨hz, by omega, by omega⟩
  · apply rd_byte_congr
    rw [hrd, if_neg]
    exact fun x => x.1 hz
  · apply rd_byte_congr
    rw [hrd, if_neg, page2pa_eq (lt_of_lt_of_le hj hwf.npages_le)]
    rw [page2pa_eq (lt_of_lt_of_le hj hwf.npages_le)]
    intro x
    have hlt : j < h ∨ h < j := Nat.lt_or_gt_of_ne hne
    omega

/-! ## Initialising the descriptors -/

@[simp] theorem set_paddr_npages (s : State) (i pa : Nat) :
    (set_paddr s i pa).npages = s.npages := rfl
@[simp] theorem set_paddr_free (s : State) (i pa : Nat) :
    (set_paddr s i pa).page_free_list = s.page_free_list := rfl
@[simp] theorem set_paddr_mem (s : State) (i pa : Nat) :
    (set_paddr s i pa).mem = s.mem := rfl

theorem init_page_pages (s : State) (i : Nat) (l : Option Nat) (j : Nat) :
    (init_page s i l).pages j
      = if j = i then { pp_link := l, pp_ref := 0, paddr := page2pa i }
        else s.pages j := by
  unfold init_page set_paddr
  by_cases h : j = i
  · subst h
    simp
  · simp only [Function.update_noteq h, if_neg h]
    rw [set_link_pages_ne _ _ _ _ h, set_ref_pages_ne _ _ _ _ h]

@[simp] theorem init_page_npages (s : State) (i : Nat) (l : Option Nat) :
    (init_page s i l).npages = s.npages := rfl
@[simp] theorem init_page_free (s : State) (i : Nat) (l : Option Nat) :
    (init_page s i l).page_free_list = s.page_free_list := rfl
@[simp] theorem init_page_mem (s : State) (i : Nat) (l : Option Nat) :
    (init_page s i l).mem = s.mem := rfl

theorem loop_init_frame (n : Nat) :
    ∀ (a : Nat) (s : State),
      ((List.range' a n).foldl (fun t i => init_page t (i - 1) (some i)) s).npages
        = s.npages ∧
      ((List.range' a n).foldl (fun t i => init_page t (i - 1) (some i)) s).mem
        = s.mem ∧
      ((List.range' a n).foldl
        (fun t i => init_page t (i - 1) (some i)) s).page_free_list
        = s.page_free_list := by
  induction n with
  | zero => intro a s; exact ⟨rfl, rfl, rfl⟩
  | succ n ih =>
    intro a s
    rw [List.range'_succ, List.foldl_cons]
    obtain ⟨h1, h2, h3⟩ := ih (a + 1) (init_page s (a - 1) (some a))
    exact ⟨h1, h2, h3⟩

theorem loop_init_pages (n : Nat) :
    ∀ (a : Nat) (s : State), 1 ≤ a → ∀ j,
      ((List.range' a n).foldl (fun t i => init_page t (i - 1) (some i)) s).pages j
        = if a ≤ j + 1 ∧ j + 1 < a + n
          then { pp_link := some (j + 1), pp_ref := 0, paddr := page2pa j }
          else s.pages j := by
  induction n with
  | zero =>
    intro a s _ j
    have : ¬ (a ≤ j + 1 ∧ j + 1 < a + 0) := by omega
    rw [if_neg this]
    rfl
  | succ n ih =>
    intro a s ha j
    rw [List.range'_succ, List.foldl_cons, ih (a + 1) _ (by omega) j, init_page_pages]
    by_cases h1 : a + 1 ≤ j + 1 ∧ j + 1 < a + 1 + n
    · rw [if_pos h1, if_pos (by omega)]
    · rw [if_neg h1]
      by_cases h2 : j = a - 1
      · have h3 : a = j + 1 := by omega
        rw [if_pos h2, if_pos (by omega), ← h2, h3]
      · rw [if_neg h2, if_neg (by omega)]

theorem loop_ref_frame (n : Nat) :
    ∀ (a : Nat) (s : State),
      ((List.range' a n).foldl (fun t i => set_ref t i 1) s).npages = s.npages ∧
      ((List.range' a n).foldl (fun t i => set_ref t i 1) s).mem = s.mem ∧
      ((List.range' a n).foldl (fun t i => set_ref t i 1) s).page_free_list
        = s.page_free_list := by
  induction n with
  | zero => intro a s; exact ⟨rfl, rfl, rfl⟩
  | succ n ih =>
    intro a s
    rw [List.range'_succ, List.foldl_cons]
    obtain ⟨h1, h2, h3⟩ := ih (a + 1) (set_ref s a 1)
    exact ⟨h1, h2, h3⟩

theorem loop_ref_pages (n : Nat) :
    ∀ (a : Nat) (s : State) (j : Nat),
      ((List.range' a n).foldl (fun t i => set_ref t i 1) s).pages j
        = if a ≤ j ∧ j < a + n then { s.pages j with pp_ref := 1 }
          else s.pages j := by
  induction n with
  | zero =>
    intro a s j
    have : ¬ (a ≤ j ∧ j < a + 0) := by omega
    rw [if_neg this]
    rfl
  | succ n ih =>
    intro a s j
    rw [List.range'_succ, List.foldl_cons, ih (a + 1) _ j]
    by_cases h1 : a + 1 ≤ j ∧ j < a + 1 + n
    · rw [if_pos h1, if_pos (by omega), set_ref_pages_ne _ _ _ _ (by omega)]
    · rw [if_neg h1]
      by_cases h2 : j = a
      · rw [h2, if_pos (by omega), set_ref_pages_same]
      · rw [if_neg (by omega), set_ref_pages_ne _ _ _ _ h2]

theorem boot_alloc_zero (kern_end npages : Nat) (b : Boot) :
    ∃ b', boot_alloc kern_end npages b 0
      = Outcome.ret (boot_mark kern_end b, b') := by
  unfold boot_alloc boot_mark
  by_cases h : b.nextfree = 0
  · simp [h, PGSIZE]
  · simp [h, PGSIZE]

theorem loop_ref_link (n a : Nat) (s : State) (j : Nat) :
    (((List.range' a n).foldl (fun t i => set_ref t i 1) s).pages j).pp_link
      = (s.pages j).pp_link := by
  rw [loop_ref_pages]
  split <;> rfl

theorem loop_ref_paddr (n a : Nat) (s : State) (j : Nat) :
    (((List.range' a n).foldl (fun t i => set_ref t i 1) s).pages j).paddr
      = (s.pages j).paddr := by
  rw [loop_ref_pages]
  split <;> rfl

theorem loop_ref_ref (n a : Nat) (s : State) (j : Nat) :
    (((List.range' a n).foldl (fun t i => set_ref t i 1) s).pages j).pp_ref
      = if a ≤ j ∧ j < a + n then 1 else (s.pages j).pp_ref := by
  rw [loop_ref_pages]
  split <;> rfl

/-- The first loop of `page_init` followed by the store into the last descriptor. -/
theorem init_all_pages (s : State) (k : Nat) :
    (init_page ((List.range' 1 (s.npages - 1)).foldl
        (fun t i => init_page t (i - 1) (some i)) s) (s.npages - 1) none).pages k
      = if k < s.npages then
          { pp_link := if k + 1 < s.npages then some (k + 1) else none, pp_ref := 0,
            paddr := page2pa k }
        else if k = 0 then { pp_link := none, pp_ref := 0, paddr := page2pa 0 }
        else s.pages k := by
  rw [init_page_pages, loop_init_pages _ _ _ (le_refl 1)]
  by_cases h1 : k = s.npages - 1
  · rw [if_pos h1]
    by_cases h0 : k < s.npages
    · rw [if_pos h0, if_neg (by omega), h1]
    · rw [if_neg h0, if_pos (by omega)]
      have : s.npages - 1 = 0 := by omega
      rw [this]
  · rw [if_neg h1]
    by_cases h2 : 1 ≤ k + 1 ∧ k + 1 < 1 + (s.npages - 1)
    · rw [if_pos h2, if_pos (by omega), if_pos (by omega)]
    · rw [if_neg h2, if_neg (by omega), if_neg (by omega)]

theorem boot_mark_tail (kern_end : Nat) (b : Boot) (t : Option Nat) :
    boot_mark kern_end { b with tail_free_page := t } = boot_mark kern_end b := rfl

/-- The descriptors `page_init` leaves, field by field. -/
theorem page_init_ret (kern_end IOPHYSMEM EXTPHYSMEM : Nat) (b : Boot) (s : State)
    (hk : KERNBASE ≤ boot_mark kern_end b) :
    ∃ b' s', page_init kern_end IOPHYSMEM EXTPHYSMEM b s = Outcome.ret (b', s') ∧
      s'.npages = s.npages ∧ s'.page_free_list = some 1 ∧ s'.mem = s.mem ∧
      ∀ j, j < s.npages →
        (s'.pages j).pp_link
          = (if j = 0 then some (PGNUM IOPHYSMEM)
             else if j = PGNUM (boot_mark kern_end b - KERNBASE) - 1 then none
             else if j = PGNUM IOPHYSMEM - 1
               then some (PGNUM (boot_mark kern_end b - KERNBASE))
             else if j + 1 < s.npages then some (j + 1) else none) ∧
        (s'.pages j).pp_ref
          = (if j = 0 then 1
             else if PGNUM EXTPHYSMEM ≤ j ∧ j < PGNUM (boot_mark kern_end b - KERNBASE)
               then 1 else 0) ∧
        (s'.pages j).paddr = page2pa j := by
  obtain ⟨b2, hb⟩ := boot_alloc_zero kern_end
    ({ set_link (set_ref (init_page
        ((List.range' 1 (s.npages - 1)).foldl
          (fun t i => init_page t (i - 1) (some i)) { s with page_free_list := some 0 })
        (((List.range' 1 (s.npages - 1)).foldl
          (fun t i => init_page t (i - 1) (some i))
            { s with page_free_list := some 0 }).npages - 1) none) 0 1) 0 none
        with page_free_list := some 1 } : State).npages
    { b with tail_free_page := some ((init_page
        ((List.range' 1 (s.npages - 1)).foldl
          (fun t i => init_page t (i - 1) (some i)) { s with page_free_list := some 0 })
        (((List.range' 1 (s.npages - 1)).foldl
          (fun t i => init_page t (i - 1) (some i))
            { s with page_free_list := some 0 }).npages - 1) none).npages - 1) }
  rw [boot_mark_tail] at hb
  have hpaddr : PADDR (boot_mark kern_end b)
      = Outcome.ret (boot_mark kern_end b - KERNBASE) := by
    unfold PADDR
    rw [if_neg (not_lt.2 hk)]
  obtain ⟨l1, l2, -⟩ := loop_init_frame (s.npages - 1) 1 { s with page_free_list := some 0 }
  have hl1 : ((List.range' 1 (s.npages - 1)).foldl
      (fun t i => init_page t (i - 1) (some i)) { s with page_free_list := some 0 }).npages
      = s.npages := l1
  have hpg := init_all_pages { s with page_free_list := some 0 }
  refine ⟨_, _, by unfold page_init; simp only; rw [hb]; simp only [hpaddr]; rfl, ?_⟩
  refine ⟨?_, ?_, ?_, ?_⟩
  · exact (loop_ref_frame _ _ _).1.trans hl1
  · exact (loop_ref_frame _ _ _).2.2
  · exact (loop_ref_frame _ _ _).2.1.trans l2
  · intro j hj
    rw [hl1]
    have hpj := hpg j
    rw [if_pos (show j < s.npages from hj)] at hpj
    refine ⟨?_, ?_, ?_⟩
    · rw [set_link_link, set_link_link, set_link_link, loop_ref_link]
      by_cases h0 : j = 0
      · rw [if_pos h0, if_pos h0]
      · rw [if_neg h0, if_neg h0]
        show (if j = _ then _ else if j = _ then _
          else ((set_link (set_ref _ 0 1) 0 none).pages j).pp_link) = _
        rw [set_link_link, if_neg h0, set_ref_link, hpj]
    · rw [set_link_ref, set_link_ref, set_link_ref, loop_ref_ref]
      show (if _ then 1 else ((set_link (set_ref _ 0 1) 0 none).pages j).pp_ref) = _
      rw [set_link_ref, set_ref_ref, hpj]
      by_cases h0 : j = 0
      · rw [if_pos h0, if_pos h0]
        split <;> rfl
      · rw [if_neg h0, if_neg h0]
        by_cases h3 : PGNUM EXTPHYSMEM ≤ j ∧
            j < PGNUM (boot_mark kern_end b - KERNBASE)
        · rw [if_pos h3, if_pos (by omega)]
        · rw [if_neg h3, if_neg (by omega)]
    · rw [set_link_paddr, set_link_paddr, set_link_paddr, loop_ref_paddr]
      show ((set_link (set_ref _ 0 1) 0 none).pages j).paddr = _
      rw [set_link_paddr, set_ref_paddr, hpj]

/-- A run of consecutive frames, each linked to the next, is a segment of the
chain. -/
theorem free_chain_seg (s : State) (n : Nat) :
    ∀ (a : Nat) (nxt : Option Nat) (rest : List Nat),
      (∀ j, a ≤ j → j < a + n → (s.pages j).pp_link = some (j + 1)) →
      (s.pages (a + n)).pp_link = nxt → free_chain s nxt rest →
      free_chain s (some a) (List.range' a (n + 1) ++ rest) := by
  induction n with
  | zero =>
    intro a nxt rest _ hl hr
    refine ⟨rfl, ?_⟩
    rw [show (s.pages a).pp_link = nxt from hl]
    exact hr
  | succ n ih =>
    intro a nxt rest hs hl hr
    rw [List.range'_succ, List.cons_append]
    refine ⟨rfl, ?_⟩
    rw [hs a (le_refl a) (by omega)]
    refine ih (a + 1) nxt rest (fun j h1 h2 => hs j (by omega) (by omega)) ?_ hr
    rw [← hl]
    congr 2
    omega

/-- Frames reached from a head inside a set closed under `pp_link` stay in
the set. -/
theorem follow_closed (s : State) (G : Nat → Prop)
    (hG : ∀ j k, G j → (s.pages j).pp_link = some k → G k) (k : Nat) :
    ∀ h p, G h → follow s k (some h) = some p → G p := by
  induction k with
  | zero =>
    intro h p hh hf
    have e : some h = some p := hf
    rw [← Option.some.inj e]
    exact hh
  | succ k ih =>
    intro h p hh hf
    have e : follow s k (s.pages h).pp_link = some p := hf
    cases hl : (s.pages h).pp_link with
    | none => rw [hl, follow_none] at e; cases e
    | some x =>
      rw [hl] at e
      exact ih x p (hG h x hh hl) e

/-- C15. With `1 < PGNUM (IOPHYSMEM) <= PGNUM (EXTPHYSMEM) <=
PGNUM (next_boot_free) < npages`, where the I/O hole or the range of the
kernel is not empty (the constants have `IOPHYSMEM < EXTPHYSMEM`, and the
kernel is loaded at `EXTPHYSMEM`), `page_init` returns and the free list is
the frames `1 .. PGNUM (IOPHYSMEM) - 1` followed by
`PGNUM (next_boot_free) .. npages - 1`: each of them once, frame 0, the hole
and the frames from `EXTPHYSMEM` to the bootstrap mark absent,
`npages - 1 - hole - k` frames in all. -/
theorem page_init_free_list (kern_end IOPHYSMEM EXTPHYSMEM : Nat) (b : Boot) (s : State)
    (hk : KERNBASE ≤ boot_mark kern_end b)
    (h1 : 1 < PGNUM IOPHYSMEM) (h2 : PGNUM IOPHYSMEM ≤ PGNUM EXTPHYSMEM)
    (h3 : PGNUM EXTPHYSMEM ≤ PGNUM (boot_mark kern_end b - KERNBASE))
    (h4 : PGNUM (boot_mark kern_end b - KERNBASE) < s.npages)
    (h5 : PGNUM IOPHYSMEM < PGNUM EXTPHYSMEM ∨
      PGNUM EXTPHYSMEM < PGNUM (boot_mark kern_end b - KERNBASE)) :
    ∃ b' s' l, page_init kern_end IOPHYSMEM EXTPHYSMEM b s = Outcome.ret (b', s') ∧
      free_chain s' s'.page_free_list l ∧
      l = List.range' 1 (PGNUM IOPHYSMEM - 1)
          ++ List.range' (PGNUM (boot_mark kern_end b - KERNBASE))
              (s.npages - PGNUM (boot_mark kern_end b - KERNBASE)) ∧
      l.Nodup ∧
      (∀ j, j ∈ l ↔ (1 ≤ j ∧ j < PGNUM IOPHYSMEM) ∨
        (PGNUM (boot_mark kern_end b - KERNBASE) ≤ j ∧ j < s.npages)) ∧
      (∀ j, on_free_list s' j ↔ j ∈ l) ∧
      l.length = s.npages - 1 - (PGNUM EXTPHYSMEM - PGNUM IOPHYSMEM)
        - (PGNUM (boot_mark kern_end b - KERNBASE) - PGNUM EXTPHYSMEM) := by
  obtain ⟨b', s', he, hn, hf, -, hp⟩ := page_init_ret kern_end IOPHYSMEM EXTPHYSMEM b s hk
  have h6 : PGNUM IOPHYSMEM < PGNUM (boot_mark kern_end b - KERNBASE) := by omega
  generalize hN : PGNUM (boot_mark kern_end b - KERNBASE) = N at *
  generalize PGNUM IOPHYSMEM = io at *
  generalize PGNUM EXTPHYSMEM = ext at *
  have hmem : ∀ j, j ∈ List.range' 1 (io - 1) ++ List.range' N (s.npages - N)
      ↔ (1 ≤ j ∧ j < io) ∨ (N ≤ j ∧ j < s.npages) := by
    intro j
    rw [List.mem_append, List.mem_range'_1, List.mem_range'_1]
    constructor
    · rintro (h | h)
      · exact Or.inl ⟨h.1, by omega⟩
      · exact Or.inr ⟨h.1, by omega⟩
    · rintro (h | h)
      · exact Or.inl ⟨h.1, by omega⟩
      · exact Or.inr ⟨h.1, by omega⟩
  have hchain : free_chain s' s'.page_free_list
      (List.range' 1 (io - 1) ++ List.range' N (s.npages - N)) := by
    rw [hf]
    have e1 : io - 1 = (io - 2) + 1 := by omega
    have e2 : s.npages - N = (s.npages - N - 1) + 1 := by omega
    rw [e1]
    refine free_chain_seg s' (io - 2) 1 (some N) _ ?_ ?_ ?_
    · intro j ha hb
      rw [(hp j (by omega)).1, if_neg (by omega), if_neg (by omega), if_neg (by omega),
        if_pos (by omega)]
    · rw [(hp (1 + (io - 2)) (by omega)).1, if_neg (by omega), if_neg (by omega),
        if_pos (by omega)]
    · rw [e2, ← List.append_nil (List.range' N (s.npages - N - 1 + 1))]
      refine free_chain_seg s' (s.npages - N - 1) N none [] ?_ ?_ rfl
      · intro j ha hb
        rw [(hp j (by omega)).1, if_neg (by omega), if_neg (by omega), if_neg (by omega),
          if_pos (by omega)]
      · rw [(hp (N + (s.npages - N - 1)) (by omega)).1, if_neg (by omega),
          if_neg (by omega), if_neg (by omega), if_neg (by omega)]
  refine ⟨b', s', _, he, hchain, rfl, ?_, hmem, ?_, ?_⟩
  · rw [List.nodup_append]
    refine ⟨List.nodup_range' _ _, List.nodup_range' _ _, ?_⟩
    intro j ha hb
    rw [List.mem_range'_1] at ha hb
    omega
  · intro j
    exact free_chain_follow s' j _ _ hchain
  · rw [List.length_append, List.length_range', List.length_range']
    omega

/-- C16 (amended). With `1 < PGNUM (IOPHYSMEM) <= PGNUM (EXTPHYSMEM) <=
PGNUM (next_boot_free) < npages`, after `page_init` frame 0 and every frame
from `EXTPHYSMEM` to the bootstrap mark have count 1, the frames of the I/O
hole are off the free list with count 0, and every frame on the free list has
count 0. -/
theorem page_init_counts (kern_end IOPHYSMEM EXTPHYSMEM : Nat) (b : Boot) (s : State)
    (hk : KERNBASE ≤ boot_mark kern_end b)
    (h1 : 1 < PGNUM IOPHYSMEM) (h2 : PGNUM IOPHYSMEM ≤ PGNUM EXTPHYSMEM)
    (h3 : PGNUM EXTPHYSMEM ≤ PGNUM (boot_mark kern_end b - KERNBASE))
    (h4 : PGNUM (boot_mark kern_end b - KERNBASE) < s.npages) :
    ∃ b' s', page_init kern_end IOPHYSMEM EXTPHYSMEM b s = Outcome.ret (b', s') ∧
      (s'.pages 0).pp_ref = 1 ∧ ¬ on_free_list s' 0 ∧
      (∀ j, PGNUM EXTPHYSMEM ≤ j → j < PGNUM (boot_mark kern_end b - KERNBASE) →
        (s'.pages j).pp_ref = 1 ∧ ¬ on_free_list s' j) ∧
      (∀ j, PGNUM IOPHYSMEM ≤ j → j < PGNUM EXTPHYSMEM →
        (s'.pages j).pp_ref = 0 ∧ ¬ on_free_list s' j) ∧
      (∀ j, on_free_list s' j → (s'.pages j).pp_ref = 0) := by
  obtain ⟨b', s', he, hn, hf, -, hp⟩ := page_init_ret kern_end IOPHYSMEM EXTPHYSMEM b s hk
  generalize hN : PGNUM (boot_mark kern_end b - KERNBASE) = N at *
  generalize PGNUM IOPHYSMEM = io at *
  generalize PGNUM EXTPHYSMEM = ext at *
  have hG : ∀ j, on_free_list s' j → (1 ≤ j ∧ j < io) ∨ (N ≤ j ∧ j < s.npages) := by
    rintro j ⟨k, hk⟩
    rw [hf] at hk
    refine follow_closed s' (fun j => (1 ≤ j ∧ j < io) ∨ (N ≤ j ∧ j < s.npages)) ?_ k 1 j
      (Or.inl ⟨le_refl 1, h1⟩) hk
    intro a c ha hl
    have hlt : a < s.npages := by omega
    rw [(hp a hlt).1] at hl
    by_cases c0 : a = 0
    · omega
    · rw [if_neg c0] at hl
      by_cases c1 : a = N - 1
      · rw [if_pos c1] at hl
        cases hl
      · rw [if_neg c1] at hl
        by_cases c2 : a = io - 1
        · rw [if_pos c2] at hl
          have := Option.some.inj hl
          omega
        · rw [if_neg c2] at hl
          by_cases c3 : a + 1 < s.npages
          · rw [if_pos c3] at hl
            have := Option.some.inj hl
            omega
          · rw [if_neg c3] at hl
            cases hl
  refine ⟨b', s', he, ?_, ?_, ?_, ?_, ?_⟩
  · rw [(hp 0 (by omega)).2.1, if_pos rfl]
  · intro h
    have := hG 0 h
    omega
  · intro j ha hb
    refine ⟨?_, fun h => ?_⟩
    · rw [(hp j (by omega)).2.1]
      by_cases c0 : j = 0
      · rw [if_pos c0]
      · rw [if_neg c0, if_pos ⟨ha, hb⟩]
    · have := hG j h
      omega
  · intro j ha hb
    refine ⟨?_, fun h => ?_⟩
    · rw [(hp j (by omega)).2.1, if_neg (by omega), if_neg (by omega)]
    · have := hG j h
      omega
  · intro j h
    have hj := hG j h
    rw [(hp j (by omega)).2.1, if_neg (by omega), if_neg (by omega)]

/-! ## Allocating to exhaustion and freeing again -/

theorem free_chain_lt (s : State) (hwf : WF s) (l : List Nat) :
    ∀ hd, (∀ h, hd = some h → h < s.npages) → free_chain s hd l →
      ∀ x, x ∈ l → x < s.npages := by
  induction l with
  | nil => intro hd _ _ x hx; cases hx
  | cons y ys ih =>
    intro hd hh hc x hx
    rcases List.mem_cons.1 hx with e | e
    · rw [e]; exact hh y hc.1
    · exact ih _ (fun h e => hwf.link_lt y h e) hc.2 x e

theorem page_alloc_seq_chain (l : List Nat) :
    ∀ (s : State) (fl : List Nat), WF s → free_chain s s.page_free_list l → l.Nodup →
      fl.length = l.length →
      ∃ t, page_alloc_seq s fl = Outcome.ret (l.map some, t) ∧
        t.npages = s.npages ∧ t.page_free_list = none ∧ WF t ∧
        (∀ i, i ∉ l → t.pages i = s.pages i) := by
  induction l with
  | nil =>
    intro s fl hwf hc _ hlen
    have hfl : fl = [] := List.length_eq_zero.1 hlen
    subst hfl
    exact ⟨s, rfl, rfl, hc, hwf, fun _ _ => rfl⟩
  | cons x xs ih =>
    intro s fl hwf hc hnd hlen
    cases fl with
    | nil => cases hlen
    | cons f fs =>
      obtain ⟨hhd, htl⟩ := hc
      have hx : x < s.npages := hwf.head_lt x hhd
      obtain ⟨s1, h1, hn1, hf1, -, -, ho1, -⟩ := page_alloc_some s f x hhd
        (fun _ => mapped_paddr_range s hwf x hx)
      have hwf1 : WF s1 := WF_page_alloc s f (some x) s1 hwf h1
      have hnd1 := List.nodup_cons.1 hnd
      have hc1 : free_chain s1 s1.page_free_list xs := by
        rw [hf1]
        refine free_chain_congr s s1 xs _ (fun y hy => ?_) htl
        rw [ho1 y (fun e => hnd1.1 (e ▸ hy))]
      obtain ⟨t, ht, hnt, hft, hwft, hot⟩ := ih s1 fs hwf1 hc1 hnd1.2
        (Nat.succ.inj hlen)
      refine ⟨t, ?_, hnt.trans hn1, hft, hwft, fun i hi => ?_⟩
      · show (match page_alloc s f with
          | Outcome.halt => Outcome.halt
          | Outcome.ret (r, s1) =>
            match page_alloc_seq s1 fs with
            | Outcome.halt => Outcome.halt
            | Outcome.ret (rs, s2) => Outcome.ret (r :: rs, s2)) = _
        rw [h1]
        simp only [ht, List.map_cons]
      · rw [hot i (fun h => hi (List.mem_cons_of_mem x h)),
          ho1 i (fun e => hi (e ▸ List.mem_cons_self x xs))]

theorem page_free_seq_chain (l : List Nat) :
    ∀ (s : State) (acc : List Nat), l.Nodup → (∀ x, x ∈ l → x ∉ acc) →
      (∀ x, x ∈ l → PGNUM (s.pages x).paddr < s.npages) →
      free_chain s s.page_free_list acc →
      free_chain (page_free_seq s l) (page_free_seq s l).page_free_list
        (l.reverse ++ acc) ∧
      (page_free_seq s l).npages = s.npages ∧
      (∀ i, ((page_free_seq s l).pages i).pp_ref = (s.pages i).pp_ref) := by
  induction l with
  | nil => intro s acc _ _ _ hc; exact ⟨hc, rfl, fun _ => rfl⟩
  | cons p ps ih =>
    intro s acc hnd hacc hr hc
    have hnd1 := List.nodup_cons.1 hnd
    obtain ⟨e1, e2, e3, e4, e5, -, e7, -⟩ :=
      page_free_push s p (hr p (List.mem_cons_self p ps))
    have hc1 : free_chain (page_free s (some p)) (page_free s (some p)).page_free_list
        (p :: acc) := by
      rw [e1]
      refine ⟨rfl, ?_⟩
      rw [e2]
      refine free_chain_congr s _ acc _ (fun y hy => ?_) hc
      rw [e5 y (fun e => hacc p (List.mem_cons_self p ps) (e ▸ hy))]
    obtain ⟨r1, r2, r3⟩ := ih (page_free s (some p)) (p :: acc) hnd1.2
      (fun x hx hm => by
        rcases List.mem_cons.1 hm with e | e
        · exact hnd1.1 (e ▸ hx)
        · exact hacc x (List.mem_cons_of_mem p hx) e)
      (fun x hx => by
        rw [e7]
        by_cases e : x = p
        · rw [e, e4]; exact hr p (List.mem_cons_self p ps)
        · rw [e5 x e]; exact hr x (List.mem_cons_of_mem p hx))
      hc1
    refine ⟨?_, r2.trans e7, fun i => ?_⟩
    · rw [List.reverse_cons, List.append_assoc]
      exact r1
    · rw [show page_free_seq s (p :: ps) = page_free_seq (page_free s (some p)) ps from rfl,
        r3 i]
      by_cases e : i = p
      · rw [e, e3]
      · rw [e5 i e]

/-- C17. On a well-formed state whose free list is the duplicate-free chain
`l` of `n` frames, `n` successive `page_alloc` calls (whatever their flags)
return the frames of `l` in order, pairwise distinct and each with physical
address below `npages * PGSIZE`; the next call returns `NULL`; and freeing the
returned frames in any order `o` leaves the free list `o` reversed, the same
`n` frames. -/
theorem page_alloc_free_round_trip (s : State) (hwf : WF s) (l : List Nat)
    (hc : free_chain s s.page_free_list l) (hnd : l.Nodup)
    (fl : List Nat) (hlen : fl.length = l.length) :
    ∃ t, page_alloc_seq s fl = Outcome.ret (l.map some, t) ∧
      (l.map some).Nodup ∧
      (∀ x, x ∈ l → (t.pages x).paddr = page2pa x ∧ page2pa x < s.npages * PGSIZE) ∧
      (∀ f, page_alloc t f = Outcome.ret (none, t)) ∧
      ∀ o, o.Perm l →
        free_chain (page_free_seq t o) (page_free_seq t o).page_free_list o.reverse ∧
        (∀ j, on_free_list (page_free_seq t o) j ↔ on_free_list s j) ∧
        o.reverse.length = l.length := by
  obtain ⟨t, ht, hnt, hft, hwft, -⟩ := page_alloc_seq_chain l s fl hwf hc hnd hlen
  have hlt : ∀ x, x ∈ l → x < s.npages :=
    free_chain_lt s hwf l _ (fun h e => hwf.head_lt h e) hc
  refine ⟨t, ht, ?_, fun x hx => ⟨?_, ?_⟩, fun f => page_alloc_empty t f hft, ?_⟩
  · exact hnd.map (fun a b e => Option.some.inj e)
  · exact hwft.paddr_eq x (by rw [hnt]; exact hlt x hx)
  · rw [page2pa_eq (lt_of_lt_of_le (hlt x hx) hwf.npages_le)]
    unfold PGSIZE
    have := hlt x hx
    omega
  · intro o ho
    have hco : free_chain t t.page_free_list [] := hft
    obtain ⟨r1, -, -⟩ := page_free_seq_chain o t [] (ho.nodup_iff.2 hnd)
      (fun _ _ h => by cases h)
      (fun x hx => mapped_paddr_range t hwft x
        (by rw [hnt]; exact hlt x (ho.mem_iff.1 hx)))
      hco
    rw [List.append_nil] at r1
    refine ⟨r1, fun j => ?_, ?_⟩
    · unfold on_free_list
      rw [free_chain_follow _ j _ _ r1, free_chain_follow _ j _ _ hc, List.mem_reverse]
      exact ho.mem_iff
    · rw [List.length_reverse]
      exact ho.length_eq

/-! ## The directory entry of a new table -/

theorem walk_entry_bits (h : Nat) (hh : h < 2 ^ 20) :
    (page2pa h ||| PTE_P ||| PTE_W) &&& PTE_P = PTE_P ∧
    (page2pa h ||| PTE_P ||| PTE_W) &&& PTE_W = PTE_W ∧
    (page2pa h ||| PTE_P ||| PTE_W) &&& PTE_U = 0 := by
  rw [page2pa_eq hh]
  unfold PTE_P PTE_W PTE_U
  refine ⟨?_, ?_, ?_⟩
  · apply Nat.eq_of_testBit_eq
    intro i
    simp only [Nat.testBit_and, Nat.testBit_or]
    rcases i with _ | _ | _ | i <;> simp [Nat.testBit_succ]
  · apply Nat.eq_of_testBit_eq
    intro i
    simp only [Nat.testBit_and, Nat.testBit_or]
    rcases i with _ | _ | _ | i <;> simp [Nat.testBit_succ]
  · apply Nat.eq_of_testBit_eq
    intro i
    simp only [Nat.testBit_and, Nat.testBit_or]
    rcases i with _ | _ | _ | i <;> simp [Nat.testBit_succ]
    omega

/-- C21 (amended). When `pgdir_walk` creates a second-level table the
directory entry it stores is `paddr | PTE_P | PTE_W`: the present and the
writable bit together with the address of the table frame, and the
user-accessible bit clear. -/
theorem pgdir_walk_entry_bits (s : State) (hwf : WF s) (pgdir va create h : Nat)
    (hp : ¬ present (rd s (pde_slot pgdir va))) (hc : create ≠ NO_CREATE)
    (hf : s.page_free_list = some h) :
    ∃ q s', pgdir_walk s pgdir va create = Outcome.ret (some q, s') ∧
      rd s' (pde_slot pgdir va) = page2pa h ||| PTE_P ||| PTE_W ∧
      rd s' (pde_slot pgdir va) &&& PTE_P = PTE_P ∧
      rd s' (pde_slot pgdir va) &&& PTE_W = PTE_W ∧
      rd s' (pde_slot pgdir va) &&& PTE_U = 0 ∧
      PTE_ADDR (rd s' (pde_slot pgdir va)) = page2pa h := by
  have hh20 : h < 2 ^ 20 := lt_of_lt_of_le (hwf.head_lt h hf) hwf.npages_le
  obtain ⟨s1, hw, -, -, -, -, -, -, hpde, -⟩ :=
    pgdir_walk_create s hwf pgdir va create h hp (fun e => hc e.symm) hf
  obtain ⟨b1, b2, b3⟩ := walk_entry_bits h hh20
  refine ⟨_, s1, hw, hpde, ?_, ?_, ?_, ?_⟩
  · rw [hpde]; exact b1
  · rw [hpde]; exact b2
  · rw [hpde]; exact b3
  · rw [hpde, PTE_ADDR_or _ _ (by decide : PTE_W < 4096),
      PTE_ADDR_or _ _ (by decide : PTE_P < 4096), PTE_ADDR_page2pa h hh20]

/-! ## The page-fault decision -/

/-- C25. For every trap frame whose saved code segment has privilege level 0
`page_fault_handler` ends in `panic`, with no `env_destroy` request and the
state, the reference counts among it, as it was. -/
theorem page_fault_kernel_panics (s : State) (tf_cs fault_va env_pgdir : Nat)
    (h : SEL_PL tf_cs = 0) :
    page_fault_handler s tf_cs fault_va env_pgdir = Handled.panicked s 0 := by
  unfold page_fault_handler
  rw [if_pos h]

/-- C26. A fault at user privilege: when the directory entry covering the
faulting address is not present, the walk returns `NULL` and the handler
reads through it, without reaching `env_destroy`; when the table exists the
handler requests the termination of the environment once and leaves the
state as it was. -/
theorem page_fault_user (s : State) (tf_cs fault_va env_pgdir : Nat)
    (h : SEL_PL tf_cs ≠ 0) :
    (¬ present (rd s (pde_slot env_pgdir fault_va)) →
      page_fault_handler s tf_cs fault_va env_pgdir = Handled.null_read s 0) ∧
    (table_ok s env_pgdir fault_va →
      page_fault_handler s tf_cs fault_va env_pgdir = Handled.returned s 1) := by
  unfold page_fault_handler
  rw [if_neg h]
  refine ⟨fun hp => ?_, fun ht => ?_⟩
  · rw [pgdir_walk_absent_no_create s env_pgdir fault_va hp]
  · rw [pgdir_walk_present s env_pgdir fault_va NO_CREATE ht]
    simp only
    split
    · split
      · rfl
      · split <;> rfl
    · rfl

/-! ## The bootstrap allocator -/

theorem ROUNDUP_aligned (a : Nat) : ROUNDUP a PGSIZE % PGSIZE = 0 := by
  unfold ROUNDUP ROUNDDOWN PGSIZE
  omega

theorem ROUNDUP_lt (a : Nat) : ROUNDUP a PGSIZE < 2 ^ 32 := by
  unfold ROUNDUP ROUNDDOWN PGSIZE
  have := u32_lt (u32 a + 4096 - 1)
  omega

theorem ROUNDUP_of_aligned (a : Nat) (h : a % PGSIZE = 0) (hlt : a < 2 ^ 32) :
    ROUNDUP a PGSIZE = a := by
  unfold ROUNDUP ROUNDDOWN u32 PGSIZE at *
  rw [Nat.mod_eq_of_lt hlt]
  have h2 : a + 4096 - 1 < 2 ^ 32 := by omega
  rw [Nat.mod_eq_of_lt h2]
  omega

theorem boot_mark_aligned (kern_end : Nat) (b : Boot) (h : b.nextfree % PGSIZE = 0) :
    boot_mark kern_end b % PGSIZE = 0 := by
  unfold boot_mark
  split
  · exact ROUNDUP_aligned kern_end
  · exact h

/-- What `boot_alloc` does, in terms of the mark and the counter. -/
theorem boot_alloc_eq (kern_end npages : Nat) (b : Boot) (n : Nat) :
    boot_alloc kern_end npages b n
      = if boot_avail npages b < amount_pages n then Outcome.halt
        else if 0 ≠ n then
          Outcome.ret (boot_mark kern_end b,
            { nextfree := ROUNDUP (u32 (boot_mark kern_end b + amount_pages n * PGSIZE))
                PGSIZE
              nAvailPages := boot_avail npages b - amount_pages n
              tail_free_page := b.tail_free_page })
        else
          Outcome.ret (boot_mark kern_end b,
            { nextfree := boot_mark kern_end b
              nAvailPages := boot_avail npages b
              tail_free_page := b.tail_free_page }) := by
  unfold boot_alloc boot_mark boot_avail amount_pages
  by_cases h : b.nextfree = 0
  · simp only [h, if_true]
  · simp only [h, if_false]

theorem boot_alloc_ret (kern_end npages : Nat) (b : Boot) (n : Nat)
    (ha : b.nextfree % PGSIZE = 0)
    (hav : amount_pages n ≤ boot_avail npages b)
    (hw : boot_mark kern_end b + amount_pages n * PGSIZE < 2 ^ 32) :
    boot_alloc kern_end npages b n
      = Outcome.ret (boot_mark kern_end b,
          Boot.mk (boot_mark kern_end b + amount_pages n * PGSIZE)
            (boot_avail npages b - amount_pages n) b.tail_free_page) := by
  have hal := boot_mark_aligned kern_end b ha
  have hsum : (boot_mark kern_end b + amount_pages n * PGSIZE) % PGSIZE = 0 := by
    unfold PGSIZE at *
    omega
  rw [boot_alloc_eq, if_neg (Nat.not_lt.2 hav)]
  by_cases h0 : n = 0
  · have ham : amount_pages n = 0 := by rw [h0]; rfl
    rw [if_neg (fun e => e h0.symm), ham]
    simp
  · rw [if_pos (fun e => h0 e.symm), u32_of_lt hw, ROUNDUP_of_aligned _ hsum hw]

theorem boot_mark_next (kern_end npages : Nat) (b : Boot) (a : Nat) (t : Option Nat)
    (h0 : boot_mark kern_end b + a * PGSIZE = 0 → b.nextfree = 0) :
    boot_mark kern_end (Boot.mk (boot_mark kern_end b + a * PGSIZE)
        (boot_avail npages b - a) t)
      = boot_mark kern_end b + a * PGSIZE ∧
    boot_avail npages (Boot.mk (boot_mark kern_end b + a * PGSIZE)
        (boot_avail npages b - a) t)
      = boot_avail npages b - a := by
  by_cases hz : boot_mark kern_end b + a * PGSIZE = 0
  · have hb := h0 hz
    have ha : a = 0 := by
      unfold PGSIZE at hz
      omega
    subst ha
    have hm : boot_mark kern_end b = 0 := by omega
    have hr : ROUNDUP kern_end PGSIZE = 0 := by
      unfold boot_mark at hm
      rw [if_pos hb] at hm
      exact hm
    unfold boot_mark boot_avail
    simp [hb, hr]
  · unfold boot_mark boot_avail at *
    simp only [if_neg hz]
    exact ⟨trivial, trivial⟩

/-- C27. With the counter at least the number of frames asked for and the
end of the region inside the 32-bit address space, `boot_alloc (n)` returns
the current mark, which is page-aligned; the mark advances by
`amount_pages n * PGSIZE`, frames enough for `n` bytes, and the counter drops
by `amount_pages n`; for `n = 0` both stay. The next reservation therefore
starts where this one ends. -/
theorem boot_alloc_spec (kern_end npages : Nat) (b : Boot) (n : Nat)
    (ha : b.nextfree % PGSIZE = 0)
    (hav : amount_pages n ≤ boot_avail npages b)
    (hw : boot_mark kern_end b + amount_pages n * PGSIZE < 2 ^ 32) :
    ∃ b', boot_alloc kern_end npages b n = Outcome.ret (boot_mark kern_end b, b') ∧
      boot_mark kern_end b % PGSIZE = 0 ∧
      b'.nextfree % PGSIZE = 0 ∧
      boot_mark kern_end b' = boot_mark kern_end b + amount_pages n * PGSIZE ∧
      boot_avail npages b' = boot_avail npages b - amount_pages n ∧
      n ≤ amount_pages n * PGSIZE ∧ amount_pages n * PGSIZE < n + PGSIZE ∧
      (n = 0 → boot_mark kern_end b' = boot_mark kern_end b ∧
        boot_avail npages b' = boot_avail npages b) ∧
      (∀ m, amount_pages m ≤ boot_avail npages b' →
        ∃ b2, boot_alloc kern_end npages b' m
          = Outcome.ret (boot_mark kern_end b + amount_pages n * PGSIZE, b2)) := by
  have hal := boot_mark_aligned kern_end b ha
  have hsum : (boot_mark kern_end b + amount_pages n * PGSIZE) % PGSIZE = 0 := by
    unfold PGSIZE at *
    omega
  have hamt : n ≤ amount_pages n * PGSIZE ∧ amount_pages n * PGSIZE < n + PGSIZE := by
    unfold amount_pages PGSIZE
    split <;> omega
  have hz : boot_mark kern_end b + amount_pages n * PGSIZE = 0 → b.nextfree = 0 := by
    intro e
    have hm : boot_mark kern_end b = 0 := by omega
    by_contra hb
    unfold boot_mark at hm
    rw [if_neg hb] at hm
    exact hb hm
  obtain ⟨e3, e4⟩ := boot_mark_next kern_end npages b (amount_pages n) b.tail_free_page hz
  refine ⟨_, boot_alloc_ret kern_end npages b n ha hav hw, hal, hsum, e3, e4, hamt.1,
    hamt.2, fun h0 => ?_, fun m hm => ?_⟩
  · have ham : amount_pages n = 0 := by rw [h0]; rfl
    rw [e3, e4, ham]
    exact ⟨by omega, by omega⟩
  · rw [boot_alloc_eq, if_neg (Nat.not_lt.2 hm), e3]
    split
    · exact ⟨_, rfl⟩
    · exact ⟨_, rfl⟩

/-- C28. `boot_alloc` compares the request with the counter only: it halts
exactly when the counter, `npages` on the first call, is below the number of
frames asked for, and returns the mark otherwise, wherever the region ends. -/
theorem boot_alloc_halts_iff (kern_end npages : Nat) (b : Boot) (n : Nat) :
    (boot_alloc kern_end npages b n = Outcome.halt
      ↔ boot_avail npages b < amount_pages n) ∧
    (amount_pages n ≤ boot_avail npages b →
      ∃ b', boot_alloc kern_end npages b n = Outcome.ret (boot_mark kern_end b, b')) := by
  rw [boot_alloc_eq]
  refine ⟨⟨fun h => ?_, fun h => by rw [if_pos h]⟩, fun h => ?_⟩
  · by_contra hn
    rw [if_neg hn] at h
    split at h <;> cases h
  · rw [if_neg (Nat.not_lt.2 h)]
    split
    · exact ⟨_, rfl⟩
    · exact ⟨_, rfl⟩

/-! ## Reachability along the free list -/

theorem follow_succ (s : State) (n : Nat) :
    ∀ hd, follow s (n + 1) hd
      = match follow s n hd with
        | none => none
        | some x => (s.pages x).pp_link := by
  induction n with
  | zero =>
    intro hd
    cases hd <;> rfl
  | succ n ih =>
    intro hd
    cases hd with
    | none => rfl
    | some x =>
      show follow s (n + 1) (s.pages x).pp_link = _
      rw [ih]
      rfl

theorem on_free_list_head (s : State) (h : Nat) (hf : s.page_free_list = some h) :
    on_free_list s h := ⟨0, hf⟩

theorem on_free_list_step (s : State) (j k : Nat) (hj : on_free_list s j)
    (hl : (s.pages j).pp_link = some k) : on_free_list s k := by
  obtain ⟨n, hn⟩ := hj
  refine ⟨n + 1, ?_⟩
  rw [follow_succ, hn]
  exact hl

/-- Frames on the free list of `t` lie in every set that holds the head of
`t` and is closed under the links of `t`. -/
theorem on_free_list_closed (t : State) (G : Nat → Prop)
    (hh : ∀ h, t.page_free_list = some h → G h)
    (hG : ∀ j k, G j → (t.pages j).pp_link = some k → G k) (p : Nat)
    (hp : on_free_list t p) : G p := by
  obtain ⟨n, hn⟩ := hp
  cases hf : t.page_free_list with
  | none => rw [hf, follow_none] at hn; cases hn
  | some h =>
    rw [hf] at hn
    exact follow_closed t G hG n h p (hh h hf) hn

/-- The descriptors after a walk: untouched, or the head of the free list
has been taken as a table, with count 1. -/
theorem pgdir_walk_descr (s : State) (pgdir va create : Nat) (r : Option Nat)
    (s1 : State) (hw : pgdir_walk s pgdir va create = Outcome.ret (r, s1)) :
    s1.npages = s.npages ∧
    ((s1.pages = s.pages ∧ s1.page_free_list = s.page_free_list) ∨
     (∃ h, s.page_free_list = some h ∧
        s1.page_free_list = (s.pages h).pp_link ∧
        s1.pages h = { pp_link := none, pp_ref := 1, paddr := (s.pages h).paddr } ∧
        ∀ i, i ≠ h → s1.pages i = s.pages i)) := by
  by_cases hp : present (rd s (pde_slot pgdir va))
  · have hp' : PTE_P &&& rd s (pde_slot pgdir va) ≠ 0 := hp
    unfold pgdir_walk at hw
    rw [if_pos hp'] at hw
    revert hw
    split
    · intro hw; cases hw
    · split
      · intro hw; cases hw
      · intro hw
        simp only [Outcome.ret.injEq, Prod.mk.injEq] at hw
        rw [← hw.2]
        exact ⟨rfl, Or.inl ⟨rfl, rfl⟩⟩
  · by_cases hc : NO_CREATE = create
    · rw [← hc, pgdir_walk_absent_no_create s pgdir va hp] at hw
      simp only [Outcome.ret.injEq, Prod.mk.injEq] at hw
      rw [← hw.2]
      exact ⟨rfl, Or.inl ⟨rfl, rfl⟩⟩
    · cases hf : s.page_free_list with
      | none =>
        rw [pgdir_walk_absent_empty s pgdir va create hp hf] at hw
        simp only [Outcome.ret.injEq, Prod.mk.injEq] at hw
        rw [← hw.2]
        exact ⟨rfl, Or.inl ⟨rfl, hf⟩⟩
      | some h =>
        have hp' : ¬ (PTE_P &&& rd s (pde_slot pgdir va) ≠ 0) := fun x => hp x
        by_cases hr : PGNUM (s.pages h).paddr < s.npages
        · obtain ⟨sA, hA, an, afl, -, apg, aoth, -⟩ :=
            page_alloc_some s ALLOC_ZERO h hf (fun _ => hr)
          unfold pgdir_walk at hw
          rw [if_neg hp', if_neg hc, hA] at hw
          simp only at hw
          revert hw
          split
          · intro hw; cases hw
          · intro hw
            simp only [Outcome.ret.injEq, Prod.mk.injEq] at hw
            rw [← hw.2]
            refine ⟨by simp [an], Or.inr ⟨h, rfl, by simp [afl], ?_, ?_⟩⟩
            · simp [inc_ref, apg, PP_REF_MOD]
            · intro i hi
              rw [wr_pages, inc_ref_pages_ne _ _ _ hi, aoth i hi]
        · exfalso
          unfold pgdir_walk at hw
          rw [if_neg hp', if_neg hc] at hw
          have hz : page_alloc s ALLOC_ZERO = Outcome.halt := by
            unfold page_alloc
            simp only [hf]
            rw [if_pos (by decide)]
            simp [KADDR, Nat.le_of_not_lt hr]
          rw [hz] at hw
          cases hw

/-- The free list after a walk is part of the free list before it. -/
theorem pgdir_walk_free_subset (s : State) (pgdir va create : Nat) (r : Option Nat)
    (s1 : State) (hw : pgdir_walk s pgdir va create = Outcome.ret (r, s1)) (p : Nat)
    (hp : on_free_list s1 p) : on_free_list s p := by
  rcases (pgdir_walk_descr s pgdir va create r s1 hw).2 with ⟨e1, e2⟩ | ⟨h, hf, e1, e2, e3⟩
  · exact (on_free_list_congr s s1 e1 e2 p).1 hp
  · refine on_free_list_closed s1 (on_free_list s) ?_ ?_ p hp
    · intro x hx
      rw [e1] at hx
      exact on_free_list_step s h x (on_free_list_head s h hf) hx
    · intro j k hj hl
      by_cases e : j = h
      · rw [e, e2] at hl
        cases hl
      · rw [e3 j e] at hl
        exact on_free_list_step s j k hj hl

/-! ## Counts across `boot_map_region` -/

theorem boot_map_loop_descr (pgdir va pa perm : Nat) (n : Nat) :
    ∀ (i : Nat) (s s' : State),
      boot_map_loop pgdir va pa perm n i s = Outcome.ret s' →
      s'.npages = s.npages ∧
      (∀ f, on_free_list s' f → on_free_list s f) ∧
      (∀ f, s'.pages f = s.pages f ∨
        (on_free_list s f ∧
          s'.pages f = { pp_link := none, pp_ref := 1, paddr := (s.pages f).paddr })) := by
  induction n with
  | zero =>
    intro i s s' h
    have e : s = s' := by
      have h1 : Outcome.ret s = Outcome.ret s' := h
      exact Outcome.ret.inj h1
    subst e
    exact ⟨rfl, fun _ hf => hf, fun _ => Or.inl rfl⟩
  | succ n ih =>
    intro i s s' h
    have h1 : (match pgdir_walk s pgdir (u32 (va + i)) CREATE with
        | Outcome.halt => Outcome.halt
        | Outcome.ret (none, _) => Outcome.halt
        | Outcome.ret (some ptep, s1) =>
          boot_map_loop pgdir va pa perm n (i + PGSIZE)
            (wr s1 ptep (PTE_ADDR (u32 (pa + i)) ||| perm ||| PTE_P))) = Outcome.ret s' := h
    revert h1
    split
    · intro h1; cases h1
    · intro h1; cases h1
    · rename_i ptep s1 hw
      intro h1
      obtain ⟨hn, hsub, hpg⟩ := ih _ _ _ h1
      obtain ⟨wn, wd⟩ := pgdir_walk_descr s pgdir _ CREATE _ s1 hw
      have wsub := pgdir_walk_free_subset s pgdir _ CREATE _ s1 hw
      have csub : ∀ f, on_free_list (wr s1 ptep
          (PTE_ADDR (u32 (pa + i)) ||| perm ||| PTE_P)) f → on_free_list s f :=
        fun f hf => wsub f ((on_free_list_congr s1 (wr s1 ptep _) rfl rfl f).1 hf)
      refine ⟨by rw [hn]; exact wn, fun f hf => csub f (hsub f hf), fun f => ?_⟩
      have hw1 : s1.pages f = s.pages f ∨ (on_free_list s f ∧
          s1.pages f = { pp_link := none, pp_ref := 1, paddr := (s.pages f).paddr }) := by
        rcases wd with ⟨e1, -⟩ | ⟨h, hf, -, e2, e3⟩
        · exact Or.inl (by rw [e1])
        · by_cases e : f = h
          · rw [e]
            exact Or.inr ⟨on_free_list_head s h hf, e2⟩
          · exact Or.inl (e3 f e)
      rcases hpg f with e | ⟨e1, e2⟩
      · rw [wr_pages] at e
        rw [e]
        exact hw1
      · rw [wr_pages] at e2
        refine Or.inr ⟨csub f e1, ?_⟩
        rw [e2]
        rcases hw1 with e | ⟨-, e⟩
        · rw [e]
        · rw [e]

/-- C24 (amended). After a call of `boot_map_region` that returns, every
frame that was not on the free list when the call was made has the count it
had, inside the mapped physical range or outside; a frame whose count
differs was on the free list and has count 1: the call took it as a
second-level table. -/
theorem boot_map_region_counts (s : State) (pgdir va size pa perm : Nat) (s' : State)
    (h : boot_map_region s pgdir va size pa perm = Outcome.ret s') :
    (∀ f, ¬ on_free_list s f → (s'.pages f).pp_ref = (s.pages f).pp_ref) ∧
    (∀ f, (s'.pages f).pp_ref ≠ (s.pages f).pp_ref →
      on_free_list s f ∧ (s'.pages f).pp_ref = 1) := by
  obtain ⟨-, -, hpg⟩ := boot_map_loop_descr pgdir va pa perm _ 0 s s' h
  refine ⟨fun f hf => ?_, fun f hne => ?_⟩
  · rcases hpg f with e | ⟨e, -⟩
    · rw [e]
    · exact absurd e hf
  · rcases hpg f with e | ⟨e1, e2⟩
    · rw [e] at hne
      exact absurd rfl hne
    · exact ⟨e1, by rw [e2]⟩

/-! ## Free-list well-formedness is kept -/

theorem page_alloc_ret_cases (s : State) (alloc_flags : Nat) (r : Option Nat)
    (s' : State) (ha : page_alloc s alloc_flags = Outcome.ret (r, s')) :
    (s.page_free_list = none ∧ r = none ∧ s' = s) ∨
    (∃ h, s.page_free_list = some h ∧ r = some h ∧ s'.npages = s.npages ∧
      s'.page_free_list = (s.pages h).pp_link ∧
      s'.pages h = { pp_link := none, pp_ref := 0, paddr := (s.pages h).paddr } ∧
      ∀ i, i ≠ h → s'.pages i = s.pages i) := by
  cases hf : s.page_free_list with
  | none =>
    rw [page_alloc_empty s alloc_flags hf] at ha
    simp only [Outcome.ret.injEq, Prod.mk.injEq] at ha
    exact Or.inl ⟨rfl, ha.1.symm, ha.2.symm⟩
  | some h =>
    right
    by_cases hr : ALLOC_ZERO &&& alloc_flags ≠ 0 → PGNUM (s.pages h).paddr < s.npages
    · obtain ⟨t, ht, an, afl, -, apg, aoth, -⟩ := page_alloc_some s alloc_flags h hf hr
      rw [ht] at ha
      simp only [Outcome.ret.injEq, Prod.mk.injEq] at ha
      rw [← ha.1, ← ha.2]
      exact ⟨h, rfl, rfl, an, afl, apg, aoth⟩
    · exfalso
      have hr := Classical.not_imp.1 hr
      unfold page_alloc at ha
      simp only [hf] at ha
      rw [if_pos hr.1] at ha
      simp [KADDR, Nat.le_of_not_lt hr.2] at ha

theorem free_list_ok_alloc (s : State) (hok : free_list_ok s) (alloc_flags : Nat)
    (r : Option Nat) (s' : State)
    (ha : page_alloc s alloc_flags = Outcome.ret (r, s')) : free_list_ok s' := by
  rcases page_alloc_ret_cases s alloc_flags r s' ha with ⟨-, -, e⟩ | ⟨h, hf, -, hn, hfl, hpg, hoth⟩
  · rw [e]; exact hok
  · obtain ⟨l, hc, hnd, hl⟩ := hok
    rw [hf] at hc
    cases l with
    | nil => cases hc
    | cons x xs =>
      obtain ⟨hx, hxs⟩ := hc
      have e : h = x := Option.some.inj hx
      subst e
      have hnd1 := List.nodup_cons.1 hnd
      refine ⟨xs, ?_, hnd1.2, fun y hy => ?_⟩
      · rw [hfl]
        refine free_chain_congr s s' xs _ (fun y hy => ?_) hxs
        rw [hoth y (fun e => hnd1.1 (e ▸ hy))]
      · rw [hn, hoth y (fun e => hnd1.1 (e ▸ hy))]
        exact hl y (List.mem_cons_of_mem h hy)

/-- The descriptors after `page_decref`. -/
theorem page_decref_descr (s : State) (p : Nat) :
    (page_decref s p).npages = s.npages ∧
    (∀ i, i ≠ p → (page_decref s p).pages i = s.pages i) ∧
    (((page_decref s p).page_free_list = s.page_free_list ∧
        ((page_decref s p).pages p).pp_link = (s.pages p).pp_link) ∨
     ((page_decref s p).page_free_list = some p ∧
        ((page_decref s p).pages p).pp_link = s.page_free_list ∧
        ((page_decref s p).pages p).pp_ref = 0)) := by
  unfold page_decref
  simp only
  split
  · rename_i h0
    by_cases hr : PGNUM ((set_ref s p (((s.pages p).pp_ref + (PP_REF_MOD - 1))
        % PP_REF_MOD)).pages p).paddr
        < (set_ref s p (((s.pages p).pp_ref + (PP_REF_MOD - 1)) % PP_REF_MOD)).npages
    · obtain ⟨e1, e2, e3, -, e5, -, e7, -⟩ := page_free_push _ p hr
      refine ⟨e7, fun i hi => ?_, Or.inr ⟨e1, e2, ?_⟩⟩
      · rw [e5 i hi, set_ref_pages_ne _ _ _ _ hi]
      · rw [e3]
        exact h0
    · rw [page_free_null_or_out _ p (Nat.le_of_not_lt hr)]
      exact ⟨rfl, fun i hi => set_ref_pages_ne _ _ _ _ hi, Or.inl ⟨rfl, by simp⟩⟩
  · exact ⟨rfl, fun i hi => set_ref_pages_ne _ _ _ _ hi, Or.inl ⟨rfl, by simp⟩⟩

theorem free_list_ok_decref (s : State) (hok : free_list_ok s) (p : Nat)
    (hp : p < s.npages) (hnf : ¬ on_free_list s p) :
    free_list_ok (page_decref s p) := by
  obtain ⟨l, hc, hnd, hl⟩ := hok
  have hpl : p ∉ l := fun h => hnf ((free_chain_follow s p l _ hc).2 h)
  obtain ⟨hn, hoth, hcase⟩ := page_decref_descr s p
  have hcl : ∀ hd, free_chain s hd l → free_chain (page_decref s p) hd l :=
    fun hd h => free_chain_congr s _ l hd
      (fun y hy => by rw [hoth y (fun e => hpl (e ▸ hy))]) h
  rcases hcase with ⟨e1, -⟩ | ⟨e1, e2, e3⟩
  · refine ⟨l, ?_, hnd, fun y hy => ?_⟩
    · rw [e1]; exact hcl _ hc
    · rw [hn, hoth y (fun e => hpl (e ▸ hy))]
      exact hl y hy
  · refine ⟨p :: l, ?_, List.nodup_cons.2 ⟨hpl, hnd⟩, fun y hy => ?_⟩
    · rw [e1]
      refine ⟨rfl, ?_⟩
      rw [e2]
      exact hcl _ hc
    · rw [hn]
      rcases List.mem_cons.1 hy with e | e
      · rw [e]; exact ⟨hp, e3⟩
      · rw [hoth y (fun e' => hpl (e' ▸ e))]
        exact hl y e

theorem free_list_ok_congr (s s' : State) (hp : s'.pages = s.pages)
    (hf : s'.page_free_list = s.page_free_list) (hn : s'.npages = s.npages)
    (hok : free_list_ok s) : free_list_ok s' := by
  obtain ⟨l, hc, hnd, hl⟩ := hok
  refine ⟨l, ?_, hnd, ?_⟩
  · rw [hf]
    exact free_chain_congr s s' l _ (fun y _ => by rw [hp]) hc
  · rw [hn, hp]
    exact hl

theorem free_list_ok_remove (s : State) (hok : free_list_ok s) (pgdir va : Nat)
    (hm : ∀ g, mapped s pgdir va g → ¬ on_free_list s g) (s' : State)
    (hr : page_remove s pgdir va = Outcome.ret s') : free_list_ok s' := by
  by_cases hg : ∃ g, mapped s pgdir va g
  · obtain ⟨g, hg⟩ := hg
    rw [page_remove_mapped s pgdir va g hg] at hr
    have e := Outcome.ret.inj hr
    rw [← e]
    have hd := free_list_ok_decref s hok g hg.2.2.2 (hm g hg)
    refine free_list_ok_congr _ _ ?_ ?_ ?_ hd
    · split <;> rfl
    · split <;> rfl
    · split <;> rfl
  · have hl : ∃ ps, page_lookup s pgdir va = Outcome.ret (none, ps, s) := by
      by_cases hp : present (rd s (pde_slot pgdir va))
      · by_cases ht : table_ok s pgdir va
        · by_cases hlf : present (rd s (leaf_slot s pgdir va))
          · exfalso
            unfold page_remove at hr
            cases hlk : page_lookup s pgdir va with
            | halt => rw [hlk] at hr; cases hr
            | ret v =>
              obtain ⟨r, ps, t⟩ := v
              obtain ⟨-, hc⟩ := page_lookup_ret s pgdir va r ps t hlk
              rcases hc with ⟨-, -, h1⟩ | ⟨-, -, -, h1⟩ | ⟨f, -, -, h1⟩
              · exact h1 hp
              · exact h1 hlf
              · exact hg ⟨f, h1⟩
          · exact ⟨_, page_lookup_not_present s pgdir va ht hlf⟩
        · exfalso
          unfold page_remove at hr
          cases hlk : page_lookup s pgdir va with
          | halt => rw [hlk] at hr; cases hr
          | ret v =>
            obtain ⟨r, ps, t⟩ := v
            obtain ⟨-, hc⟩ := page_lookup_ret s pgdir va r ps t hlk
            rcases hc with ⟨-, -, h1⟩ | ⟨-, -, h1, -⟩ | ⟨f, -, -, h1⟩
            · exact h1 hp
            · exact ht h1
            · exact hg ⟨f, h1⟩
      · exact ⟨_, page_lookup_absent s pgdir va hp⟩
    obtain ⟨ps, hl⟩ := hl
    unfold page_remove at hr
    rw [hl] at hr
    have e := Outcome.ret.inj hr
    rw [← e]
    exact hok

theorem PTX_lt (va : Nat) : PTX va < 1024 := by
  unfold PTX
  exact Nat.lt_succ_of_le Nat.and_le_right

theorem PDX_lt (va : Nat) : PDX va < 1024 := by
  unfold PDX
  exact Nat.lt_succ_of_le Nat.and_le_right

theorem on_free_list_congr_link (s s' : State)
    (h : ∀ i, (s'.pages i).pp_link = (s.pages i).pp_link)
    (hf : s'.page_free_list = s.page_free_list) (p : Nat) :
    on_free_list s' p ↔ on_free_list s p := by
  unfold on_free_list
  rw [hf]
  constructor
  · rintro ⟨k, hk⟩; exact ⟨k, by rw [← follow_congr_link s s' h]; exact hk⟩
  · rintro ⟨k, hk⟩; exact ⟨k, by rw [follow_congr_link s s' h]; exact hk⟩

theorem free_list_ok_wr (s : State) (a v : Nat) (hok : free_list_ok s) :
    free_list_ok (wr s a v) := free_list_ok_congr s (wr s a v) rfl rfl rfl hok

theorem on_free_list_wr (s : State) (a v p : Nat) :
    on_free_list (wr s a v) p ↔ on_free_list s p :=
  on_free_list_congr s (wr s a v) rfl rfl p

theorem free_list_ok_walk (s : State) (hok : free_list_ok s) (pgdir va create : Nat)
    (r : Option Nat) (s1 : State)
    (hw : pgdir_walk s pgdir va create = Outcome.ret (r, s1)) :
    free_list_ok s1 ∧
    (∀ h, s.page_free_list = some h → s1.page_free_list ≠ s.page_free_list →
      ¬ on_free_list s1 h) := by
  obtain ⟨hn, hd⟩ := pgdir_walk_descr s pgdir va create r s1 hw
  rcases hd with ⟨e1, e2⟩ | ⟨h, hf, hfl, hpg, hoth⟩
  · exact ⟨free_list_ok_congr s s1 e1 e2 hn hok, fun h _ hne => absurd e2 hne⟩
  · obtain ⟨l, hc, hnd, hl⟩ := hok
    rw [hf] at hc
    cases l with
    | nil => cases hc
    | cons x xs =>
      obtain ⟨hx, hxs⟩ := hc
      have e : h = x := Option.some.inj hx
      subst e
      have hnd1 := List.nodup_cons.1 hnd
      have hc1 : free_chain s1 s1.page_free_list xs := by
        rw [hfl]
        refine free_chain_congr s s1 xs _ (fun y hy => ?_) hxs
        rw [hoth y (fun e => hnd1.1 (e ▸ hy))]
      refine ⟨⟨xs, hc1, hnd1.2, fun y hy => ?_⟩, fun h' hf' _ hon => ?_⟩
      · rw [hn, hoth y (fun e => hnd1.1 (e ▸ hy))]
        exact hl y (List.mem_cons_of_mem h hy)
      · rw [hf] at hf'
        have e : h = h' := Option.some.inj hf'
        subst e
        exact hnd1.1 ((free_chain_follow s1 h xs _ hc1).1 hon)

theorem free_list_ok_inc_ref (s : State) (hok : free_list_ok s) (p : Nat)
    (hnf : ¬ on_free_list s p) : free_list_ok (inc_ref s p) := by
  obtain ⟨l, hc, hnd, hl⟩ := hok
  have hpl : p ∉ l := fun h => hnf ((free_chain_follow s p l _ hc).2 h)
  refine ⟨l, ?_, hnd, fun y hy => ?_⟩
  · exact free_chain_congr s _ l _ (fun y _ => inc_ref_link s p y) hc
  · rw [inc_ref_npages, inc_ref_pages_ne s p y (fun e => hpl (e ▸ hy))]
    exact hl y hy

/-- The frame `page_insert` is about to unmap is not free, when the frame
mapped at `va` before the call is not. -/
theorem insert_remove_not_free (s : State) (hwf : WF s) (hok : free_list_ok s)
    (pgdir p va perm q : Nat) (s1 : State) (hperm : perm < 4096)
    (hm : ∀ g, mapped s pgdir va g → ¬ on_free_list s g)
    (hw : pgdir_walk s pgdir va CREATE = Outcome.ret (some q, s1)) (g : Nat)
    (hg : mapped (inc_ref (dir_perm s1 pgdir va perm) p) pgdir va g) :
    ¬ on_free_list (inc_ref (dir_perm s1 pgdir va perm) p) g := by
  obtain ⟨ht1, hq1, hn1⟩ := pgdir_walk_ret_some s hwf pgdir va CREATE q s1 hw
  obtain ⟨ht2, hq2⟩ := dir_perm_table s1 pgdir va perm hperm ht1
  have hq3 : leaf_slot (inc_ref (dir_perm s1 pgdir va perm) p) pgdir va = q := by
    rw [← hq1, ← hq2]
    exact (table_congr (dir_perm s1 pgdir va perm)
      (inc_ref (dir_perm s1 pgdir va perm) p) pgdir va rfl
      (fun i => inc_ref_paddr (dir_perm s1 pgdir va perm) p i)
      (rd_inc_ref (dir_perm s1 pgdir va perm) p _)).2
  obtain ⟨-, hgp, hgn, hgr⟩ := hg
  rw [hq3, rd_inc_ref] at hgp hgn
  have hon : ∀ x, on_free_list (inc_ref (dir_perm s1 pgdir va perm) p) x
      ↔ on_free_list s1 x :=
    fun x => on_free_list_congr_link s1 (inc_ref (dir_perm s1 pgdir va perm) p)
      (fun i => inc_ref_link (dir_perm s1 pgdir va perm) p i) rfl x
  rw [hon]
  by_cases hp : present (rd s (pde_slot pgdir va))
  · -- the table was there: the walk changed nothing
    have hts : table_ok s pgdir va := by
      by_contra hnt
      have hsame : s1.pages = s.pages ∧
          rd s1 (pde_slot pgdir va) = rd s (pde_slot pgdir va) := by
        have hp' : PTE_P &&& rd s (pde_slot pgdir va) ≠ 0 := hp
        unfold pgdir_walk at hw
        rw [if_pos hp'] at hw
        revert hw
        split
        · intro hw; cases hw
        · split
          · intro hw; cases hw
          · intro hw
            simp only [Outcome.ret.injEq, Prod.mk.injEq] at hw
            rw [← hw.2]
            exact ⟨rfl, rfl⟩
      apply hnt
      refine ⟨hp, ?_, ?_⟩
      · have h1 := ht1.2.1
        rw [hsame.2, hn1] at h1
        exact h1
      · have h2 := ht1.2.2
        rw [hsame.1, hsame.2, hn1] at h2
        exact h2
    rw [pgdir_walk_present s pgdir va CREATE hts] at hw
    simp only [Outcome.ret.injEq, Prod.mk.injEq, Option.some.injEq] at hw
    obtain ⟨hqs, hs⟩ := hw
    subst hs
    by_cases hqd : q = pde_slot pgdir va
    · rw [hqd, rd_dir_perm_pde s pgdir va perm hperm] at hgp hgn
      rw [PGNUM_or _ _ hperm] at hgn
      refine hm g ⟨hts, ?_, ?_, hgr⟩
      · rw [hqs, hqd]; exact hp
      · rw [hqs, hqd]; exact hgn
    · rw [rd_dir_perm_ne s pgdir va perm q hqd] at hgp hgn
      refine hm g ⟨hts, ?_, ?_, hgr⟩
      · rw [hqs]; exact hgp
      · rw [hqs]; exact hgn
  · -- the table is new
    cases hf : s.page_free_list with
    | none =>
      rw [pgdir_walk_absent_empty s pgdir va CREATE hp hf] at hw
      simp at hw
    | some h =>
      have hh : h < s.npages := hwf.head_lt h hf
      have hh20 : h < 2 ^ 20 := lt_of_lt_of_le hh hwf.npages_le
      obtain ⟨t, hwt, -, -, -, tfl, -, -, tpde, tmem⟩ :=
        pgdir_walk_create s hwf pgdir va CREATE h hp (by decide) hf
      rw [hwt] at hw
      simp only [Outcome.ret.injEq, Prod.mk.injEq, Option.some.injEq] at hw
      obtain ⟨hqs, hs⟩ := hw
      subst hs
      by_cases hqd : q = pde_slot pgdir va
      · rw [hqd, rd_dir_perm_pde t pgdir va perm hperm, tpde] at hgn
        rw [PGNUM_or _ _ hperm, PGNUM_or _ _ (by decide : PTE_W < 4096),
          PGNUM_or _ _ (by decide : PTE_P < 4096), PGNUM_page2pa hh20] at hgn
        rw [← hgn]
        refine (free_list_ok_walk s hok pgdir va CREATE _ t hwt).2 h hf ?_
        intro e
        obtain ⟨l, hc, hnd, -⟩ := hok
        rw [tfl] at e
        rw [hf] at hc
        cases l with
        | nil => cases hc
        | cons x xs =>
          obtain ⟨hx, hxs⟩ := hc
          have e1 : h = x := Option.some.inj hx
          subst e1
          rw [e, hf] at hxs
          cases xs with
          | nil => cases hxs
          | cons y ys =>
            have e2 : h = y := Option.some.inj hxs.1
            subst e2
            exact (List.nodup_cons.1 hnd).1 (List.mem_cons_self h ys)
      · exfalso
        rw [rd_dir_perm_ne t pgdir va perm q hqd, tmem q hqd, if_pos] at hgp
        · exact hgp rfl
        · rw [← hqs]
          have := PTX_lt va
          unfold PGSIZE
          omega

theorem free_list_ok_insert (s : State) (hwf : WF s) (hok : free_list_ok s)
    (pgdir p va perm : Nat) (hperm : perm < 4096) (hnf : ¬ on_free_list s p)
    (hm : ∀ g, mapped s pgdir va g → ¬ on_free_list s g) (rv : Int) (s' : State)
    (hi : page_insert s pgdir (some p) va perm = Outcome.ret (rv, s')) :
    free_list_ok s' := by
  cases hw : pgdir_walk s pgdir va CREATE with
  | halt =>
    unfold page_insert at hi
    rw [hw] at hi
    cases hi
  | ret v =>
    obtain ⟨r, s1⟩ := v
    obtain ⟨hok1, -⟩ := free_list_ok_walk s hok pgdir va CREATE r s1 hw
    have hnf1 : ¬ on_free_list s1 p :=
      fun h => hnf (pgdir_walk_free_subset s pgdir va CREATE r s1 hw p h)
    cases r with
    | none =>
      unfold page_insert at hi
      rw [hw] at hi
      simp only [Outcome.ret.injEq, Prod.mk.injEq] at hi
      rw [← hi.2]
      exact hok1
    | some q =>
      have hok2 : free_list_ok (dir_perm s1 pgdir va perm) :=
        free_list_ok_wr s1 _ _ hok1
      have hnf2 : ¬ on_free_list (dir_perm s1 pgdir va perm) p :=
        fun h => hnf1 ((on_free_list_wr s1 _ _ p).1 h)
      have hok3 := free_list_ok_inc_ref _ hok2 p hnf2
      by_cases he : (s1.pages p).paddr = PTE_ADDR (rd (dir_perm s1 pgdir va perm) q)
      · rw [page_insert_same s s1 pgdir p va perm q hw he] at hi
        simp only [Outcome.ret.injEq, Prod.mk.injEq] at hi
        rw [← hi.2]
        exact free_list_ok_wr _ _ _ hok2
      · by_cases hn : present (rd (dir_perm s1 pgdir va perm) q)
        · rw [page_insert_replace s s1 pgdir p va perm q hw he hn] at hi
          revert hi
          split
          · intro hi; cases hi
          · rename_i s4 hrm
            intro hi
            simp only [Outcome.ret.injEq, Prod.mk.injEq] at hi
            rw [← hi.2]
            have hok4 := free_list_ok_remove _ hok3 pgdir va
              (insert_remove_not_free s hwf hok pgdir p va perm q s1 hperm hm hw) s4 hrm
            exact free_list_ok_wr _ _ _ hok4
        · rw [page_insert_fresh s s1 pgdir p va perm q hw he hn] at hi
          simp only [Outcome.ret.injEq, Prod.mk.injEq] at hi
          rw [← hi.2]
          exact free_list_ok_wr _ _ _ hok3

theorem free_list_ok_init (kern_end IOPHYSMEM EXTPHYSMEM : Nat) (b : Boot) (s : State)
    (hk : KERNBASE ≤ boot_mark kern_end b)
    (h1 : 1 < PGNUM IOPHYSMEM) (h2 : PGNUM IOPHYSMEM ≤ PGNUM EXTPHYSMEM)
    (h3 : PGNUM EXTPHYSMEM ≤ PGNUM (boot_mark kern_end b - KERNBASE))
    (h4 : PGNUM (boot_mark kern_end b - KERNBASE) < s.npages) :
    ∃ b' s', page_init kern_end IOPHYSMEM EXTPHYSMEM b s = Outcome.ret (b', s') ∧
      free_list_ok s' := by
  obtain ⟨b', s', he, hn, hf, -, hp⟩ := page_init_ret kern_end IOPHYSMEM EXTPHYSMEM b s hk
  generalize hN : PGNUM (boot_mark kern_end b - KERNBASE) = N at *
  generalize PGNUM IOPHYSMEM = io at *
  generalize PGNUM EXTPHYSMEM = ext at *
  refine ⟨b', s', he, ?_⟩
  have e1 : io - 1 = (io - 2) + 1 := by omega
  have hlow : ∀ j, 1 ≤ j → j < 1 + (io - 2) → (s'.pages j).pp_link = some (j + 1) := by
    intro j ha hb
    rw [(hp j (by omega)).1, if_neg (by omega), if_neg (by omega), if_neg (by omega),
      if_pos (by omega)]
  have href : ∀ j, (1 ≤ j ∧ j < io) ∨ (N ≤ j ∧ j < s.npages) →
      j < s'.npages ∧ (s'.pages j).pp_ref = 0 := by
    intro j hj
    refine ⟨by omega, ?_⟩
    rw [(hp j (by omega)).2.1, if_neg (by omega), if_neg (by omega)]
  by_cases h5 : io < N
  · refine ⟨List.range' 1 (io - 1) ++ List.range' N (s.npages - N), ?_, ?_, ?_⟩
    · rw [hf]
      have e2 : s.npages - N = (s.npages - N - 1) + 1 := by omega
      rw [e1]
      refine free_chain_seg s' (io - 2) 1 (some N) _ hlow ?_ ?_
      · rw [(hp (1 + (io - 2)) (by omega)).1, if_neg (by omega), if_neg (by omega),
          if_pos (by omega)]
      · rw [e2, ← List.append_nil (List.range' N (s.npages - N - 1 + 1))]
        refine free_chain_seg s' (s.npages - N - 1) N none [] ?_ ?_ rfl
        · intro j ha hb
          rw [(hp j (by omega)).1, if_neg (by omega), if_neg (by omega),
            if_neg (by omega), if_pos (by omega)]
        · rw [(hp (N + (s.npages - N - 1)) (by omega)).1, if_neg (by omega),
            if_neg (by omega), if_neg (by omega), if_neg (by omega)]
    · rw [List.nodup_append]
      refine ⟨List.nodup_range' _ _, List.nodup_range' _ _, ?_⟩
      intro j ha hb
      rw [List.mem_range'_1] at ha hb
      omega
    · intro j hj
      rw [List.mem_append, List.mem_range'_1, List.mem_range'_1] at hj
      exact href j (by omega)
  · refine ⟨List.range' 1 (io - 1), ?_, List.nodup_range' _ _, ?_⟩
    · rw [hf, e1, ← List.append_nil (List.range' 1 (io - 2 + 1))]
      refine free_chain_seg s' (io - 2) 1 none [] hlow ?_ rfl
      rw [(hp (1 + (io - 2)) (by omega)).1, if_neg (by omega), if_pos (by omega)]
    · intro j hj
      rw [List.mem_range'_1] at hj
      exact href j (by omega)

theorem not_free_list_ok_of_head (t : State) (h : Nat) (hf : t.page_free_list = some h)
    (hr : (t.pages h).pp_ref ≠ 0) : ¬ free_list_ok t := by
  rintro ⟨l, hc, -, hl⟩
  rw [hf] at hc
  cases l with
  | nil => cases hc
  | cons x xs =>
    have e : h = x := Option.some.inj hc.1
    subst e
    exact hr (hl h (List.mem_cons_self h xs)).2

/-- C30 (amended). Free-list well-formedness holds after `page_init` and is
kept by `page_alloc`, by `page_decref` of a frame that is not on the list, by
`page_remove` when the frame mapped at `va` is not on the list, and by
`page_insert` of a frame that is not on the list, with `perm` within the low
12 bits, when the frame mapped at `va` before the call is not on the list. -/
theorem free_list_ok_kept :
    (∀ (kern_end IOPHYSMEM EXTPHYSMEM : Nat) (b : Boot) (s : State),
      KERNBASE ≤ boot_mark kern_end b →
      1 < PGNUM IOPHYSMEM → PGNUM IOPHYSMEM ≤ PGNUM EXTPHYSMEM →
      PGNUM EXTPHYSMEM ≤ PGNUM (boot_mark kern_end b - KERNBASE) →
      PGNUM (boot_mark kern_end b - KERNBASE) < s.npages →
      ∃ b' s', page_init kern_end IOPHYSMEM EXTPHYSMEM b s = Outcome.ret (b', s') ∧
        free_list_ok s') ∧
    (∀ (s : State) (alloc_flags : Nat) (r : Option Nat) (s' : State),
      free_list_ok s → page_alloc s alloc_flags = Outcome.ret (r, s') →
      free_list_ok s') ∧
    (∀ (s : State) (p : Nat), free_list_ok s → p < s.npages → ¬ on_free_list s p →
      free_list_ok (page_decref s p)) ∧
    (∀ (s : State) (pgdir va : Nat) (s' : State), free_list_ok s →
      (∀ g, mapped s pgdir va g → ¬ on_free_list s g) →
      page_remove s pgdir va = Outcome.ret s' → free_list_ok s') ∧
    (∀ (s : State) (pgdir p va perm : Nat) (rv : Int) (s' : State), WF s →
      free_list_ok s → perm < 4096 → ¬ on_free_list s p →
      (∀ g, mapped s pgdir va g → ¬ on_free_list s g) →
      page_insert s pgdir (some p) va perm = Outcome.ret (rv, s') →
      free_list_ok s') :=
  ⟨fun kern_end io ext b s hk h1 h2 h3 h4 => free_list_ok_init kern_end io ext b s hk h1 h2 h3 h4,
    fun s f r s' hok ha => free_list_ok_alloc s hok f r s' ha,
    fun s p hok hp hnf => free_list_ok_decref s hok p hp hnf,
    fun s pgdir va s' hok hm hr => free_list_ok_remove s hok pgdir va hm s' hr,
    fun s pgdir p va perm rv s' hwf hok hperm hnf hm hi =>
      free_list_ok_insert s hwf hok pgdir p va perm hperm hnf hm rv s' hi⟩

/-! ## Addresses and frames -/

theorem PGNUM_add_of_aligned (a k : Nat) (ha : a % PGSIZE = 0) (hk : k < 4096) :
    PGNUM (a + k) = PGNUM a := by
  rw [PGNUM_eq_div, PGNUM_eq_div]
  unfold PGSIZE at ha
  omega

theorem PGNUM_page2pa_add (t k : Nat) (ht : t < 2 ^ 20) (hk : k < 4096) :
    PGNUM (page2pa t + k) = t := by
  rw [page2pa_eq ht, PGNUM_eq_div]
  omega

theorem PGNUM_pde_slot (pgdir va : Nat) (ha : pgdir % PGSIZE = 0) :
    PGNUM (pde_slot pgdir va) = PGNUM pgdir := by
  unfold pde_slot
  have := PDX_lt va
  exact PGNUM_add_of_aligned pgdir _ ha (by omega)

theorem pde_slot_eq_iff (pgdir a b : Nat) :
    pde_slot pgdir a = pde_slot pgdir b ↔ PDX a = PDX b := by
  unfold pde_slot
  omega

theorem PGNUM_rd_lt (s : State) (a : Nat) : PGNUM (rd s a) < 2 ^ 20 := by
  rw [PGNUM_eq_div]
  have := rd_lt s a
  omega

theorem in_frame_iff (t a : Nat) (ht : t < 2 ^ 20) :
    (page2pa t ≤ a ∧ a < page2pa t + PGSIZE) ↔ PGNUM a = t := by
  rw [page2pa_eq ht, PGNUM_eq_div]
  unfold PGSIZE
  omega

theorem PGNUM_leaf_slot (s : State) (hwf : WF s) (pgdir va : Nat)
    (ht : table_ok s pgdir va) :
    PGNUM (leaf_slot s pgdir va) = PGNUM (rd s (pde_slot pgdir va)) := by
  unfold leaf_slot
  rw [hwf.paddr_eq _ ht.2.1]
  have := PTX_lt va
  exact PGNUM_page2pa_add _ _ (PGNUM_rd_lt s _) (by omega)

/-! ## What `page_remove` and `page_decref` do to the state -/

theorem page_remove_cases (s : State) (pgdir va : Nat) (s' : State)
    (hr : page_remove s pgdir va = Outcome.ret s') :
    (s' = s ∧ ¬ ∃ g, mapped s pgdir va g) ∨
    (∃ g, mapped s pgdir va g ∧
      s' = wr (if ((page_decref s g).pages g).pp_ref = 0
            then tlb_invalidate (page_decref s g) pgdir va
            else page_decref s g) (leaf_slot s pgdir va) 0) := by
  by_cases hg : ∃ g, mapped s pgdir va g
  · obtain ⟨g, hg⟩ := hg
    rw [page_remove_mapped s pgdir va g hg] at hr
    exact Or.inr ⟨g, hg, (Outcome.ret.inj hr).symm⟩
  · left
    refine ⟨?_, hg⟩
    unfold page_remove at hr
    cases hlk : page_lookup s pgdir va with
    | halt => rw [hlk] at hr; cases hr
    | ret v =>
      obtain ⟨r, ps, t⟩ := v
      obtain ⟨ht, hc⟩ := page_lookup_ret s pgdir va r ps t hlk
      rw [hlk] at hr
      rcases hc with ⟨h1, -, -⟩ | ⟨h1, -, -, -⟩ | ⟨f, -, -, h1⟩
      · subst h1
        simp only at hr
        rw [← Outcome.ret.inj hr, ht]
      · subst h1
        simp only at hr
        rw [← Outcome.ret.inj hr, ht]
      · exact absurd ⟨f, h1⟩ hg

theorem page_decref_free_subset (s : State) (g x : Nat)
    (h : on_free_list (page_decref s g) x) : x = g ∨ on_free_list s x := by
  obtain ⟨-, hoth, hcase⟩ := page_decref_descr s g
  rcases hcase with ⟨e1, e2⟩ | ⟨e1, e2, -⟩
  · right
    refine on_free_list_closed (page_decref s g) (on_free_list s) ?_ ?_ x h
    · intro y hy
      rw [e1] at hy
      exact on_free_list_head s y hy
    · intro j k hj hl
      by_cases e : j = g
      · rw [e, e2] at hl
        exact on_free_list_step s g k (e ▸ hj) hl
      · rw [hoth j e] at hl
        exact on_free_list_step s j k hj hl
  · refine on_free_list_closed (page_decref s g) (fun y => y = g ∨ on_free_list s y)
      ?_ ?_ x h
    · intro y hy
      rw [e1] at hy
      exact Or.inl (Option.some.inj hy).symm
    · intro j k hj hl
      by_cases e : j = g
      · rw [e, e2] at hl
        exact Or.inr (on_free_list_head s k hl)
      · rw [hoth j e] at hl
        rcases hj with hj | hj
        · exact absurd hj e
        · exact Or.inr (on_free_list_step s j k hj hl)

/-! ## Walks, case by case -/

theorem pgdir_walk_cases (s : State) (hwf : WF s) (pgdir va create : Nat)
    (r : Option Nat) (s1 : State)
    (hw : pgdir_walk s pgdir va create = Outcome.ret (r, s1)) :
    (s1 = s ∧ (r = none ∨ (table_ok s pgdir va ∧ r = some (leaf_slot s pgdir va)))) ∨
    (¬ present (rd s (pde_slot pgdir va)) ∧ ∃ h, s.page_free_list = some h ∧
      h < s.npages ∧
      r = some (page2pa h + 4 * PTX va) ∧
      table_ok s1 pgdir va ∧ leaf_slot s1 pgdir va = page2pa h + 4 * PTX va ∧
      s1.npages = s.npages ∧
      s1.page_free_list = (s.pages h).pp_link ∧
      s1.pages h = { pp_link := none, pp_ref := 1, paddr := (s.pages h).paddr } ∧
      (∀ i, i ≠ h → s1.pages i = s.pages i) ∧
      rd s1 (pde_slot pgdir va) = page2pa h ||| PTE_P ||| PTE_W ∧
      (∀ a, a ≠ pde_slot pgdir va → rd s1 a = if PGNUM a = h then 0 else rd s a)) := by
  cases r with
  | none =>
    obtain ⟨hp, hc⟩ := pgdir_walk_ret_none s pgdir va create s1 hw
    left
    refine ⟨?_, Or.inl rfl⟩
    rcases hc with hc | hc
    · rw [← hc, pgdir_walk_absent_no_create s pgdir va hp] at hw
      simp only [Outcome.ret.injEq, Prod.mk.injEq, true_and] at hw
      exact hw.symm
    · rw [pgdir_walk_absent_empty s pgdir va create hp hc] at hw
      simp only [Outcome.ret.injEq, Prod.mk.injEq, true_and] at hw
      exact hw.symm
  | some q =>
    by_cases hp : present (rd s (pde_slot pgdir va))
    · left
      obtain ⟨ht1, -, hn1⟩ := pgdir_walk_ret_some s hwf pgdir va create q s1 hw
      have hsame : s1 = s := by
        have hp' : PTE_P &&& rd s (pde_slot pgdir va) ≠ 0 := hp
        unfold pgdir_walk at hw
        rw [if_pos hp'] at hw
        revert hw
        split
        · intro hw; cases hw
        · split
          · intro hw; cases hw
          · intro hw
            simp only [Outcome.ret.injEq, Prod.mk.injEq] at hw
            exact hw.2.symm
      subst hsame
      refine ⟨rfl, Or.inr ⟨ht1, ?_⟩⟩
      rw [pgdir_walk_present s1 pgdir va create ht1] at hw
      simp only [Outcome.ret.injEq, Prod.mk.injEq, and_true] at hw
      exact hw.symm
    · right
      refine ⟨hp, ?_⟩
      by_cases hc : NO_CREATE = create
      · rw [← hc, pgdir_walk_absent_no_create s pgdir va hp] at hw
        simp at hw
      · cases hf : s.page_free_list with
        | none =>
          rw [pgdir_walk_absent_empty s pgdir va create hp hf] at hw
          simp at hw
        | some h =>
          have hh : h < s.npages := hwf.head_lt h hf
          have hh20 : h < 2 ^ 20 := lt_of_lt_of_le hh hwf.npages_le
          have hpa : (s.pages h).paddr = page2pa h := hwf.paddr_eq h hh
          obtain ⟨t, hwt, t1, t2, t3, t4, t5, t6, t7, t8⟩ :=
            pgdir_walk_create s hwf pgdir va create h hp hc hf
          rw [hwt] at hw
          simp only [Outcome.ret.injEq, Prod.mk.injEq, Option.some.injEq] at hw
          obtain ⟨hq, hs⟩ := hw
          subst hs
          rw [hpa] at t2
          refine ⟨h, rfl, hh, by rw [← hq, hpa], t1, t2, t3, t4, t5, t6, t7, fun a ha => ?_⟩
          rw [t8 a ha, hpa]
          by_cases hin : PGNUM a = h
          · rw [if_pos ((in_frame_iff h a hh20).2 hin), if_pos hin]
          · rw [if_neg (fun x => hin ((in_frame_iff h a hh20).1 x)), if_neg hin]

/-! ## The directory stays out of the way -/

theorem DirSafe_descr (s s' : State) (pgdir : Nat) (h : DirSafe s pgdir) (hwf : WF s')
    (hm : s'.mem = s.mem)
    (hf : ∀ x, on_free_list s' x → x ≠ PGNUM pgdir) : DirSafe s' pgdir := by
  have hrd : ∀ a, rd s' a = rd s a := fun a => rd_congr_mem s s' hm a
  refine ⟨hwf, fun hx => hf _ hx rfl, ?_, ?_⟩
  · intro i hi hp
    rw [hrd] at hp ⊢
    exact h.tables i hi hp
  · intro i hi hp x hx hpx
    rw [hrd] at hp hx
    rw [hrd] at hpx ⊢
    exact h.leaves i hi hp x hx hpx

theorem DirSafe_wr_leaf (s : State) (pgdir a v : Nat) (h : DirSafe s pgdir)
    (hal : pgdir % PGSIZE = 0) (ha : PGNUM a ≠ PGNUM pgdir)
    (hv : present (u32 v) → PGNUM (u32 v) ≠ PGNUM pgdir) :
    DirSafe (wr s a v) pgdir := by
  have hdir : ∀ i, i < NPDENTRIES → rd (wr s a v) (pgdir + 4 * i) = rd s (pgdir + 4 * i) := by
    intro i hi
    rw [rd_wr, if_neg]
    intro e
    apply ha
    rw [← e]
    unfold NPDENTRIES at hi
    exact PGNUM_add_of_aligned pgdir _ hal (by omega)
  refine ⟨WF_wr s a v h.wf, fun hx => h.dir_not_free ((on_free_list_wr s a v _).1 hx),
    ?_, ?_⟩
  · intro i hi hp
    rw [hdir i hi] at hp ⊢
    exact h.tables i hi hp
  · intro i hi hp x hx hpx
    rw [hdir i hi] at hp hx
    rw [rd_wr] at hpx ⊢
    by_cases e : x = a
    · rw [if_pos e] at hpx ⊢
      exact hv hpx
    · rw [if_neg e] at hpx ⊢
      exact h.leaves i hi hp x hx hpx

theorem DirSafe_dir_perm (s : State) (pgdir va perm : Nat) (h : DirSafe s pgdir)
    (hal : pgdir % PGSIZE = 0) (hperm : perm < 4096)
    (hp : present (rd s (pde_slot pgdir va))) :
    DirSafe (dir_perm s pgdir va perm) pgdir := by
  have hD : PGNUM (pde_slot pgdir va) = PGNUM pgdir := PGNUM_pde_slot pgdir va hal
  have hval : u32 (rd s (pde_slot pgdir va) ||| perm) = rd s (pde_slot pgdir va) ||| perm :=
    or_perm_u32 _ _ (rd_lt s _) hperm
  have hnum : PGNUM (rd s (pde_slot pgdir va) ||| perm) = PGNUM (rd s (pde_slot pgdir va)) :=
    PGNUM_or _ _ hperm
  have hva : PGNUM (rd s (pde_slot pgdir va)) ≠ PGNUM pgdir :=
    h.tables (PDX va) (PDX_lt va) hp
  have hentry : ∀ i, i < NPDENTRIES →
      present (rd (dir_perm s pgdir va perm) (pgdir + 4 * i)) →
      present (rd s (pgdir + 4 * i)) ∧
      PGNUM (rd (dir_perm s pgdir va perm) (pgdir + 4 * i)) = PGNUM (rd s (pgdir + 4 * i)) := by
    intro i hi hpi
    unfold dir_perm at hpi ⊢
    rw [rd_wr] at hpi ⊢
    by_cases e : pgdir + 4 * i = pde_slot pgdir va
    · rw [if_pos e, hval, e]
      exact ⟨hp, hnum⟩
    · rw [if_neg e] at hpi ⊢
      exact ⟨hpi, rfl⟩
  refine ⟨WF_wr _ _ _ h.wf, fun hx => h.dir_not_free ((on_free_list_wr s _ _ _).1 hx),
    ?_, ?_⟩
  · intro i hi hpi
    obtain ⟨h1, h2⟩ := hentry i hi hpi
    rw [h2]
    exact h.tables i hi h1
  · intro i hi hpi x hx hpx
    obtain ⟨h1, h2⟩ := hentry i hi hpi
    rw [h2] at hx
    have hxne : x ≠ pde_slot pgdir va := by
      intro e
      rw [e, hD] at hx
      exact h.tables i hi h1 hx.symm
    rw [rd_dir_perm_ne s pgdir va perm x hxne] at hpx ⊢
    exact h.leaves i hi h1 x hx hpx

theorem DirSafe_walk (s : State) (pgdir va create : Nat) (h : DirSafe s pgdir)
    (hal : pgdir % PGSIZE = 0) (r : Option Nat) (s1 : State)
    (hw : pgdir_walk s pgdir va create = Outcome.ret (r, s1)) :
    DirSafe s1 pgdir ∧
    (∀ b, PDX b ≠ PDX va → rd s1 (pde_slot pgdir b) = rd s (pde_slot pgdir b)) := by
  have hwf1 : WF s1 := WF_pgdir_walk s pgdir va create r s1 h.wf hw
  rcases pgdir_walk_cases s h.wf pgdir va create r s1 hw with
    ⟨e, -⟩ | ⟨hp, hd, hf, hh, -, -, -, -, -, -, -, tpde, tmem⟩
  · rw [e]
    exact ⟨h, fun _ _ => rfl⟩
  · have hh20 : hd < 2 ^ 20 := lt_of_lt_of_le hh h.wf.npages_le
    have hD : PGNUM (pde_slot pgdir va) = PGNUM pgdir := PGNUM_pde_slot pgdir va hal
    have hhD : hd ≠ PGNUM pgdir := by
      intro e
      exact h.dir_not_free (e ▸ on_free_list_head s hd hf)
    have hval : PGNUM (page2pa hd ||| PTE_P ||| PTE_W) = hd := by
      rw [PGNUM_or _ _ (by decide : PTE_W < 4096), PGNUM_or _ _ (by decide : PTE_P < 4096),
        PGNUM_page2pa hh20]
    have hdir : ∀ i, i < NPDENTRIES → pgdir + 4 * i ≠ pde_slot pgdir va →
        rd s1 (pgdir + 4 * i) = rd s (pgdir + 4 * i) := by
      intro i hi hne
      rw [tmem _ hne, if_neg]
      unfold NPDENTRIES at hi
      rw [PGNUM_add_of_aligned pgdir _ hal (by omega)]
      exact fun e => hhD e.symm
    have hentry : ∀ i, i < NPDENTRIES → present (rd s1 (pgdir + 4 * i)) →
        (pgdir + 4 * i = pde_slot pgdir va ∧ PGNUM (rd s1 (pgdir + 4 * i)) = hd) ∨
        (pgdir + 4 * i ≠ pde_slot pgdir va ∧ present (rd s (pgdir + 4 * i)) ∧
          rd s1 (pgdir + 4 * i) = rd s (pgdir + 4 * i)) := by
      intro i hi hpi
      by_cases e : pgdir + 4 * i = pde_slot pgdir va
      · left
        rw [e, tpde]
        exact ⟨rfl, hval⟩
      · right
        rw [hdir i hi e] at hpi
        exact ⟨e, hpi, hdir i hi e⟩
    refine ⟨⟨hwf1, fun hx => h.dir_not_free
        (pgdir_walk_free_subset s pgdir va create r s1 hw _ hx), ?_, ?_⟩, ?_⟩
    · intro i hi hpi
      rcases hentry i hi hpi with ⟨-, e2⟩ | ⟨-, e2, e3⟩
      · rw [e2]; exact hhD
      · rw [e3]; exact h.tables i hi e2
    · intro i hi hpi x hx hpx
      have hxne : x ≠ pde_slot pgdir va := by
        intro e
        rw [e, hD] at hx
        rcases hentry i hi hpi with ⟨-, e2⟩ | ⟨-, e2, e3⟩
        · rw [e2] at hx; exact hhD hx.symm
        · rw [e3] at hx; exact h.tables i hi e2 hx.symm
      rw [tmem x hxne] at hpx ⊢
      by_cases hin : PGNUM x = hd
      · rw [if_pos hin] at hpx
        exact absurd hpx (by decide)
      · rw [if_neg hin] at hpx ⊢
        rcases hentry i hi hpi with ⟨-, e2⟩ | ⟨-, e2, e3⟩
        · rw [e2] at hx; exact absurd hx hin
        · rw [e3] at hx
          exact h.leaves i hi e2 x hx hpx
    · intro b hb
      have hne : pde_slot pgdir b ≠ pde_slot pgdir va :=
        fun e => hb ((pde_slot_eq_iff pgdir b va).1 e)
      rw [tmem _ hne, if_neg]
      rw [PGNUM_pde_slot pgdir b hal]
      exact fun e => hhD e.symm

theorem DirSafe_remove (s : State) (pgdir va : Nat) (h : DirSafe s pgdir)
    (hal : pgdir % PGSIZE = 0) (s' : State)
    (hr : page_remove s pgdir va = Outcome.ret s') :
    DirSafe s' pgdir ∧
    (∀ b, PDX b ≠ PDX va → rd s' (pde_slot pgdir b) = rd s (pde_slot pgdir b)) ∧
    (∀ a, a ≠ leaf_slot s pgdir va → rd s' a = rd s a) := by
  rcases page_remove_cases s pgdir va s' hr with ⟨e, -⟩ | ⟨g, hg, e⟩
  · rw [e]
    exact ⟨h, fun _ _ => rfl, fun _ _ => rfl⟩
  · have hslot : PGNUM (leaf_slot s pgdir va) = PGNUM (rd s (pde_slot pgdir va)) :=
      PGNUM_leaf_slot s h.wf pgdir va hg.1
    have hT : PGNUM (rd s (pde_slot pgdir va)) ≠ PGNUM pgdir :=
      h.tables (PDX va) (PDX_lt va) hg.1.1
    have hgD : g ≠ PGNUM pgdir := by
      rw [← hg.2.2.1]
      exact h.leaves (PDX va) (PDX_lt va) hg.1.1 _ hslot hg.2.1
    have hdec : DirSafe (page_decref s g) pgdir := by
      refine DirSafe_descr s _ pgdir h (WF_page_decref s g h.wf hg.2.2.2)
        (page_decref_frame s g).2.1 (fun x hx => ?_)
      rcases page_decref_free_subset s g x hx with e1 | e1
      · rw [e1]; exact hgD
      · exact fun e2 => h.dir_not_free (e2 ▸ e1)
    have hmid : DirSafe (if ((page_decref s g).pages g).pp_ref = 0
        then tlb_invalidate (page_decref s g) pgdir va else page_decref s g) pgdir := by
      split
      · exact DirSafe_descr _ _ pgdir hdec (WF_tlb_invalidate _ _ _ hdec.wf) rfl
          (fun x hx e2 => hdec.dir_not_free (e2 ▸
            (on_free_list_congr (page_decref s g) (tlb_invalidate (page_decref s g) pgdir va)
              rfl rfl x).1 hx))
      · exact hdec
    have hrdmid : ∀ a, rd (if ((page_decref s g).pages g).pp_ref = 0
        then tlb_invalidate (page_decref s g) pgdir va else page_decref s g) a = rd s a := by
      intro a
      split
      · rw [rd_tlb_invalidate]
        exact rd_congr_mem s _ (page_decref_frame s g).2.1 a
      · exact rd_congr_mem s _ (page_decref_frame s g).2.1 a
    rw [e]
    refine ⟨DirSafe_wr_leaf _ pgdir _ 0 hmid hal (by rw [hslot]; exact hT)
      (fun hp => absurd hp (by decide)), fun b _ => ?_, fun a ha => ?_⟩
    · rw [rd_wr, if_neg, hrdmid]
      intro e1
      rw [← e1, PGNUM_pde_slot pgdir b hal] at hslot
      exact hT hslot.symm
    · rw [rd_wr, if_neg ha, hrdmid]

theorem DirSafe_insert (s : State) (pgdir p va perm : Nat) (h : DirSafe s pgdir)
    (hal : pgdir % PGSIZE = 0) (hp : p < s.npages) (hpD : p ≠ PGNUM pgdir)
    (hperm : perm < 4096) (rv : Int) (s' : State)
    (hi : page_insert s pgdir (some p) va perm = Outcome.ret (rv, s')) :
    DirSafe s' pgdir ∧
    (∀ b, PDX b ≠ PDX va → rd s' (pde_slot pgdir b) = rd s (pde_slot pgdir b)) := by
  cases hw : pgdir_walk s pgdir va CREATE with
  | halt =>
    unfold page_insert at hi
    rw [hw] at hi
    cases hi
  | ret v =>
    obtain ⟨r, s1⟩ := v
    obtain ⟨h1, hd1⟩ := DirSafe_walk s pgdir va CREATE h hal r s1 hw
    cases r with
    | none =>
      unfold page_insert at hi
      rw [hw] at hi
      simp only [Outcome.ret.injEq, Prod.mk.injEq] at hi
      rw [← hi.2]
      exact ⟨h1, hd1⟩
    | some q =>
      obtain ⟨ht1, hq1, hn1⟩ := pgdir_walk_ret_some s h.wf pgdir va CREATE q s1 hw
      have h2 : DirSafe (dir_perm s1 pgdir va perm) pgdir :=
        DirSafe_dir_perm s1 pgdir va perm h1 hal hperm ht1.1
      have hT : PGNUM (rd s1 (pde_slot pgdir va)) ≠ PGNUM pgdir :=
        h1.tables (PDX va) (PDX_lt va) ht1.1
      have hqT : PGNUM q = PGNUM (rd s1 (pde_slot pgdir va)) := by
        rw [← hq1]
        exact PGNUM_leaf_slot s1 h1.wf pgdir va ht1
      have hqD : PGNUM q ≠ PGNUM pgdir := by rw [hqT]; exact hT
      have hp20 : p < 2 ^ 20 := lt_of_lt_of_le hp h.wf.npages_le
      obtain ⟨nv1, -, nv3, -, -⟩ := new_pte_facts p perm hp20 hperm
      have hv : present (u32 (new_pte p perm)) → PGNUM (u32 (new_pte p perm)) ≠ PGNUM pgdir := by
        intro _
        rw [nv1, nv3]
        exact hpD
      have hdir2 : ∀ b, PDX b ≠ PDX va →
          rd (dir_perm s1 pgdir va perm) (pde_slot pgdir b) = rd s (pde_slot pgdir b) := by
        intro b hb
        rw [rd_dir_perm_ne s1 pgdir va perm _
          (fun e => hb ((pde_slot_eq_iff pgdir b va).1 e))]
        exact hd1 b hb
      have hqne : ∀ b, pde_slot pgdir b ≠ q := by
        intro b e
        rw [← e, PGNUM_pde_slot pgdir b hal] at hqD
        exact hqD rfl
      have h3 : DirSafe (inc_ref (dir_perm s1 pgdir va perm) p) pgdir :=
        DirSafe_descr _ _ pgdir h2 (WF_inc_ref _ p h2.wf) rfl
          (fun x hx e => h2.dir_not_free (e ▸
            (on_free_list_congr_link (dir_perm s1 pgdir va perm) _
              (fun i => inc_ref_link (dir_perm s1 pgdir va perm) p i) rfl x).1 hx))
      by_cases he : (s1.pages p).paddr = PTE_ADDR (rd (dir_perm s1 pgdir va perm) q)
      · rw [page_insert_same s s1 pgdir p va perm q hw he] at hi
        simp only [Outcome.ret.injEq, Prod.mk.injEq] at hi
        rw [← hi.2]
        refine ⟨DirSafe_wr_leaf _ pgdir q _ h2 hal hqD hv, fun b hb => ?_⟩
        rw [rd_wr, if_neg (hqne b)]
        exact hdir2 b hb
      · by_cases hn : present (rd (dir_perm s1 pgdir va perm) q)
        · rw [page_insert_replace s s1 pgdir p va perm q hw he hn] at hi
          revert hi
          split
          · intro hi; cases hi
          · rename_i s4 hrm
            intro hi
            simp only [Outcome.ret.injEq, Prod.mk.injEq] at hi
            rw [← hi.2]
            obtain ⟨h4, hd4, -⟩ := DirSafe_remove _ pgdir va h3 hal s4 hrm
            refine ⟨DirSafe_wr_leaf _ pgdir q _ h4 hal hqD hv, fun b hb => ?_⟩
            rw [rd_wr, if_neg (hqne b), hd4 b hb, rd_inc_ref]
            exact hdir2 b hb
        · rw [page_insert_fresh s s1 pgdir p va perm q hw he hn] at hi
          simp only [Outcome.ret.injEq, Prod.mk.injEq] at hi
          rw [← hi.2]
          refine ⟨DirSafe_wr_leaf _ pgdir q _ h3 hal hqD hv, fun b hb => ?_⟩
          rw [rd_wr, if_neg (hqne b), rd_inc_ref]
          exact hdir2 b hb

theorem page_insert_npages (s : State) (pgdir : Nat) (pp : Option Nat) (va perm : Nat)
    (rv : Int) (s' : State)
    (hi : page_insert s pgdir pp va perm = Outcome.ret (rv, s')) :
    s'.npages = s.npages := by
  unfold page_insert at hi
  cases hw : pgdir_walk s pgdir va CREATE with
  | halt => rw [hw] at hi; cases hi
  | ret v =>
    obtain ⟨r, s1⟩ := v
    obtain ⟨hn1, -⟩ := pgdir_walk_descr s pgdir va CREATE r s1 hw
    rw [hw] at hi
    cases r with
    | none =>
      simp only [Outcome.ret.injEq, Prod.mk.injEq] at hi
      rw [← hi.2]; exact hn1
    | some q =>
      cases pp with
      | none =>
        simp only [Outcome.ret.injEq, Prod.mk.injEq] at hi
        rw [← hi.2]; exact hn1
      | some p =>
        simp only at hi
        revert hi
        split
        · split
          · split
            · intro hi; cases hi
            · rename_i s4 hrm
              intro hi
              simp only [Outcome.ret.injEq, Prod.mk.injEq] at hi
              rw [← hi.2]
              have := (page_remove_ret _ pgdir va s4 hrm).1
              simp only [wr_npages] at this ⊢
              rw [this]
              exact hn1
          · intro hi
            simp only [Outcome.ret.injEq, Prod.mk.injEq] at hi
            rw [← hi.2]; exact hn1
        · intro hi
          simp only [Outcome.ret.injEq, Prod.mk.injEq] at hi
          rw [← hi.2]; exact hn1

theorem DirSafe_insert_seq (pgdir addr : Nat) (hal : pgdir % PGSIZE = 0)
    (calls : List (Nat × Nat × Nat)) :
    ∀ (s : State), DirSafe s pgdir →
      (∀ c, c ∈ calls → c.1 < s.npages ∧ c.1 ≠ PGNUM pgdir ∧ c.2.2 < 4096 ∧
        PDX c.2.1 ≠ PDX addr) →
      ∀ rs s', page_insert_seq s pgdir calls = Outcome.ret (rs, s') →
        DirSafe s' pgdir ∧ s'.npages = s.npages ∧
        rd s' (pde_slot pgdir addr) = rd s (pde_slot pgdir addr) := by
  induction calls with
  | nil =>
    intro s h _ rs s' hrun
    have e : Outcome.ret ([], s) = Outcome.ret (rs, s') := hrun
    simp only [Outcome.ret.injEq, Prod.mk.injEq] at e
    rw [← e.2]
    exact ⟨h, rfl, rfl⟩
  | cons c cs ih =>
    intro s h hc rs s' hrun
    obtain ⟨p, va, perm⟩ := c
    have hrun1 : (match page_insert s pgdir (some p) va perm with
        | Outcome.halt => Outcome.halt
        | Outcome.ret (rv, s1) =>
          match page_insert_seq s1 pgdir cs with
          | Outcome.halt => Outcome.halt
          | Outcome.ret (rs, s2) => Outcome.ret (rv :: rs, s2)) = Outcome.ret (rs, s') := hrun
    obtain ⟨c1, c2, c3, c4⟩ := hc (p, va, perm) (List.mem_cons_self _ _)
    revert hrun1
    split
    · intro hrun1; cases hrun1
    · rename_i rv s1 hins
      split
      · intro hrun1; cases hrun1
      · rename_i rs1 s2 hrest
        intro hrun1
        simp only [Outcome.ret.injEq, Prod.mk.injEq] at hrun1
        rw [← hrun1.2]
        obtain ⟨h1, hd1⟩ := DirSafe_insert s pgdir p va perm h hal c1 c2 c3 rv s1 hins
        have hn1 : s1.npages = s.npages :=
          page_insert_npages s pgdir (some p) va perm rv s1 hins
        obtain ⟨h2, hn2, hd2⟩ := ih s1 h1
          (fun c hcm => by
            have := hc c (List.mem_cons_of_mem _ hcm)
            rw [hn1]
            exact this) rs1 s2 hrest
        exact ⟨h2, hn2.trans hn1, hd2.trans (hd1 addr (fun e => c4 e.symm))⟩

/-- C22 (amended). Start from a well-formed state in which no entry of the
page-aligned directory `pgdir` is present and the frame holding the directory
is not free. After any run of `page_insert` calls on `pgdir`, whatever they
return, with frames of the machine other than the directory's, permissions
within the low 12 bits and addresses whose directory index differs from that
of `addr`, the walk of `addr` without `create` returns `NULL`. -/
theorem walk_not_found_after_inserts (s : State) (hwf : WF s) (pgdir addr : Nat)
    (hal : pgdir % PGSIZE = 0)
    (hnt : ∀ i, i < NPDENTRIES → ¬ present (rd s (pgdir + 4 * i)))
    (hD : ¬ on_free_list s (PGNUM pgdir))
    (calls : List (Nat × Nat × Nat))
    (hc : ∀ c, c ∈ calls → c.1 < s.npages ∧ c.1 ≠ PGNUM pgdir ∧ c.2.2 < 4096 ∧
      PDX c.2.1 ≠ PDX addr)
    (rs : List Int) (s' : State)
    (hrun : page_insert_seq s pgdir calls = Outcome.ret (rs, s')) :
    pgdir_walk s' pgdir addr NO_CREATE = Outcome.ret (none, s') := by
  have hsafe : DirSafe s pgdir :=
    ⟨hwf, hD, fun i hi hp => absurd hp (hnt i hi), fun i hi hp => absurd hp (hnt i hi)⟩
  obtain ⟨-, -, hd⟩ := DirSafe_insert_seq pgdir addr hal calls s hsafe hc rs s' hrun
  apply pgdir_walk_absent_no_create
  rw [hd]
  exact hnt (PDX addr) (PDX_lt addr)

/-! ## Leaf entries across a store -/

theorem slot_eq_iff (t1 t2 k1 k2 : Nat) (h1 : t1 < 2 ^ 20) (h2 : t2 < 2 ^ 20)
    (hk1 : k1 < 1024) (hk2 : k2 < 1024) :
    page2pa t1 + 4 * k1 = page2pa t2 + 4 * k2 ↔ t1 = t2 ∧ k1 = k2 := by
  rw [page2pa_eq h1, page2pa_eq h2]
  omega

theorem PTE_ADDR_rd (s : State) (a : Nat) :
    PTE_ADDR (rd s a) = page2pa (PGNUM (rd s a)) :=
  (page2pa_PGNUM _ (rd_lt s a)).symm

theorem pte_eq (s : State) (pgdir va : Nat) :
    pte s pgdir va
      = if present (rd s (pde_slot pgdir va)) then
          rd s (page2pa (PGNUM (rd s (pde_slot pgdir va))) + 4 * PTX va)
        else 0 := by
  unfold pte
  rw [PTE_ADDR_rd]

theorem pde_slot_def (pgdir va : Nat) : pde_slot pgdir va = pgdir + 4 * PDX va := rfl

theorem TablesApart_table_ok (s : State) (pgdir : Nat) (l : List Nat)
    (h : TablesApart s pgdir l) (va : Nat) (hp : present (rd s (pde_slot pgdir va))) :
    table_ok s pgdir va :=
  ⟨hp, h.table_lt (PDX va) (PDX_lt va) hp,
    mapped_paddr_range s h.wf _ (h.table_lt (PDX va) (PDX_lt va) hp)⟩

theorem leaf_slot_eq (s : State) (hwf : WF s) (pgdir va : Nat)
    (ht : table_ok s pgdir va) :
    leaf_slot s pgdir va = page2pa (PGNUM (rd s (pde_slot pgdir va))) + 4 * PTX va := by
  unfold leaf_slot
  rw [hwf.paddr_eq _ ht.2.1]

/-- `check_va2pa` reads the leaf entry `pte`. -/
theorem check_va2pa_eq (s : State) (pgdir : Nat) (l : List Nat)
    (h : TablesApart s pgdir l) (va : Nat) :
    check_va2pa s pgdir va
      = Outcome.ret (if present (pte s pgdir va) then PTE_ADDR (pte s pgdir va)
          else 0xFFFFFFFF) := by
  unfold check_va2pa pte
  by_cases hp : present (rd s (pde_slot pgdir va))
  · have hp' : ¬ (rd s (pde_slot pgdir va) &&& PTE_P = 0) := by
      rw [Nat.land_comm]; exact hp
    have hlt : PGNUM (rd s (pde_slot pgdir va)) < s.npages :=
      h.table_lt (PDX va) (PDX_lt va) hp
    rw [if_neg hp', if_pos hp]
    unfold KADDR
    rw [PGNUM_PTE_ADDR_rd, if_neg (Nat.not_le.2 hlt)]
    simp only
    by_cases hq : present (rd s (PTE_ADDR (rd s (pde_slot pgdir va)) + 4 * PTX va))
    · have hq' : ¬ (rd s (PTE_ADDR (rd s (pde_slot pgdir va)) + 4 * PTX va) &&& PTE_P = 0) := by
        rw [Nat.land_comm]; exact hq
      rw [if_neg hq', if_pos hq]
    · have hq' : rd s (PTE_ADDR (rd s (pde_slot pgdir va)) + 4 * PTX va) &&& PTE_P = 0 := by
        rw [Nat.land_comm]; exact not_not.1 hq
      rw [if_pos hq', if_neg hq]
  · have hp' : rd s (pde_slot pgdir va) &&& PTE_P = 0 := by
      rw [Nat.land_comm]; exact not_not.1 hp
    rw [if_pos hp', if_neg hp, if_neg (by decide : ¬ present 0)]

/-- One iteration of `boot_map_region` at an address whose table exists. -/
theorem map_step_present (s : State) (pgdir : Nat) (l : List Nat)
    (h : TablesApart s pgdir l) (hal : pgdir % PGSIZE = 0) (a v : Nat)
    (hp : present (rd s (pde_slot pgdir a)))
    (hg : PGNUM (rd s (pde_slot pgdir a)) ≠ PGNUM pgdir) :
    ∃ q, pgdir_walk s pgdir a CREATE = Outcome.ret (some q, s) ∧
      TablesApart (wr s q v) pgdir l ∧
      (∀ i, i < NPDENTRIES → rd (wr s q v) (pgdir + 4 * i) = rd s (pgdir + 4 * i)) ∧
      (∀ b, pte (wr s q v) pgdir b
        = if same_page b a then u32 v else pte s pgdir b) := by
  have ht := TablesApart_table_ok s pgdir l h a hp
  have hT20 : PGNUM (rd s (pde_slot pgdir a)) < 2 ^ 20 := PGNUM_rd_lt s _
  have hq := leaf_slot_eq s h.wf pgdir a ht
  have hqT : PGNUM (leaf_slot s pgdir a) = PGNUM (rd s (pde_slot pgdir a)) :=
    PGNUM_leaf_slot s h.wf pgdir a ht
  have hdir : ∀ i, i < NPDENTRIES →
      rd (wr s (leaf_slot s pgdir a) v) (pgdir + 4 * i) = rd s (pgdir + 4 * i) := by
    intro i hi
    rw [rd_wr, if_neg]
    intro e
    apply hg
    rw [← hqT, ← e]
    unfold NPDENTRIES at hi
    exact PGNUM_add_of_aligned pgdir _ hal (by omega)
  refine ⟨leaf_slot s pgdir a, pgdir_walk_present s pgdir a CREATE ht, ?_, hdir, ?_⟩
  · refine ⟨WF_wr s _ _ h.wf, ?_, h.nodup, h.dir_not_free, ?_, ?_, ?_⟩
    · exact free_chain_congr s _ l _ (fun _ _ => rfl) h.chain
    · intro i hi hpi
      rw [hdir i hi] at hpi ⊢
      exact h.table_lt i hi hpi
    · intro i hi hpi
      rw [hdir i hi] at hpi ⊢
      exact h.table_not_free i hi hpi
    · intro i j hi hj hij hpi hpj he
      rw [hdir i hi] at hpi he ⊢
      rw [hdir j hj] at hpj he
      exact h.apart i j hi hj hij hpi hpj he
  · intro b
    have hdb : rd (wr s (leaf_slot s pgdir a) v) (pde_slot pgdir b)
        = rd s (pde_slot pgdir b) := hdir (PDX b) (PDX_lt b)
    rw [pte_eq, pte_eq, hdb]
    by_cases hpb : present (rd s (pde_slot pgdir b))
    · rw [if_pos hpb, if_pos hpb, rd_wr, hq]
      by_cases hsp : same_page b a
      · rw [if_pos hsp, if_pos]
        rw [pde_slot_def pgdir b, hsp.1, hsp.2]
        rfl
      · rw [if_neg hsp, if_neg]
        intro e
        have e2 := (slot_eq_iff _ _ _ _ (PGNUM_rd_lt s _) hT20 (PTX_lt b) (PTX_lt a)).1 e
        apply hsp
        refine ⟨?_, e2.2⟩
        by_contra hne
        exact hg (h.apart (PDX a) (PDX b) (PDX_lt a) (PDX_lt b) (fun x => hne x.symm) hp hpb
          e2.1.symm)
    · rw [if_neg hpb, if_neg hpb, if_neg]
      intro hsp
      apply hpb
      rw [pde_slot_def pgdir b, hsp.1]
      exact hp

theorem PGNUM_or_PW (h : Nat) (hh : h < 2 ^ 20) :
    PGNUM (page2pa h ||| PTE_P ||| PTE_W) = h := by
  rw [PGNUM_or _ _ (by decide : PTE_W < 4096), PGNUM_or _ _ (by decide : PTE_P < 4096),
    PGNUM_page2pa hh]

theorem present_or_PW (x : Nat) : present (x ||| PTE_P ||| PTE_W) :=
  present_or_left _ _ (present_or_P x)

/-- One iteration of `boot_map_region` at an address whose table is
missing: the head of the free list becomes the table. -/
theorem map_step_create (s : State) (pgdir : Nat) (hd : Nat) (xs : List Nat)
    (h : TablesApart s pgdir (hd :: xs)) (hal : pgdir % PGSIZE = 0) (a v : Nat)
    (hp : ¬ present (rd s (pde_slot pgdir a))) :
    ∃ q s1, pgdir_walk s pgdir a CREATE = Outcome.ret (some q, s1) ∧
      TablesApart (wr s1 q v) pgdir xs ∧
      (∀ i, i < NPDENTRIES → i ≠ PDX a →
        rd (wr s1 q v) (pgdir + 4 * i) = rd s (pgdir + 4 * i)) ∧
      present (rd (wr s1 q v) (pde_slot pgdir a)) ∧
      PGNUM (rd (wr s1 q v) (pde_slot pgdir a)) ≠ PGNUM pgdir ∧
      (∀ b, (present (rd s (pde_slot pgdir b)) →
          PGNUM (rd s (pde_slot pgdir b)) ≠ PGNUM pgdir) →
        pte (wr s1 q v) pgdir b = if same_page b a then u32 v else pte s pgdir b) := by
  have hf : s.page_free_list = some hd := h.chain.1
  have hxs : free_chain s (s.pages hd).pp_link xs := h.chain.2
  have hnd := List.nodup_cons.1 h.nodup
  obtain ⟨t, hwt, -⟩ := pgdir_walk_create s h.wf pgdir a CREATE hd hp (by decide) hf
  rcases pgdir_walk_cases s h.wf pgdir a CREATE _ t hwt with
    ⟨-, hc⟩ | ⟨-, h', hf', hh, hr, tt, tq, tn, tfl, tpg, toth, tpde, tmem⟩
  · exfalso
    rcases hc with hc | hc
    · cases hc
    · exact hp hc.1.1
  have e : hd = h' := Option.some.inj (hf.symm.trans hf')
  subst e
  have hh20 : hd < 2 ^ 20 := lt_of_lt_of_le hh h.wf.npages_le
  have hhD : hd ≠ PGNUM pgdir := fun e => h.dir_not_free (e ▸ List.mem_cons_self hd xs)
  have hq : PGNUM (page2pa hd + 4 * PTX a) = hd := by
    have := PTX_lt a
    exact PGNUM_page2pa_add hd _ hh20 (by omega)
  have hDa : PGNUM (pde_slot pgdir a) = PGNUM pgdir := PGNUM_pde_slot pgdir a hal
  have hqne : page2pa hd + 4 * PTX a ≠ pde_slot pgdir a := by
    intro e
    rw [e, hDa] at hq
    exact hhD hq.symm
  have hpde : rd (wr t (page2pa hd + 4 * PTX a) v) (pde_slot pgdir a)
      = page2pa hd ||| PTE_P ||| PTE_W := by
    rw [rd_wr, if_neg (fun e => hqne e.symm), tpde]
  have hdirD : ∀ i, i < NPDENTRIES → PGNUM (pgdir + 4 * i) = PGNUM pgdir := by
    intro i hi
    unfold NPDENTRIES at hi
    exact PGNUM_add_of_aligned pgdir _ hal (by omega)
  have hdir : ∀ i, i < NPDENTRIES → i ≠ PDX a →
      rd (wr t (page2pa hd + 4 * PTX a) v) (pgdir + 4 * i) = rd s (pgdir + 4 * i) := by
    intro i hi hne
    have hne2 : pgdir + 4 * i ≠ pde_slot pgdir a := by
      unfold pde_slot
      omega
    rw [rd_wr, if_neg, tmem _ hne2, if_neg]
    · rw [hdirD i hi]; exact fun e => hhD e.symm
    · intro e
      rw [← e, hdirD i hi] at hq
      exact hhD hq.symm
  have hentry : ∀ i, i < NPDENTRIES →
      present (rd (wr t (page2pa hd + 4 * PTX a) v) (pgdir + 4 * i)) →
      (i = PDX a ∧ PGNUM (rd (wr t (page2pa hd + 4 * PTX a) v) (pgdir + 4 * i)) = hd) ∨
      (i ≠ PDX a ∧ present (rd s (pgdir + 4 * i)) ∧
        rd (wr t (page2pa hd + 4 * PTX a) v) (pgdir + 4 * i) = rd s (pgdir + 4 * i)) := by
    intro i hi hpi
    by_cases e : i = PDX a
    · left
      refine ⟨e, ?_⟩
      rw [e, ← pde_slot_def, hpde]
      exact PGNUM_or_PW hd hh20
    · right
      rw [hdir i hi e] at hpi
      exact ⟨e, hpi, hdir i hi e⟩
  refine ⟨_, t, by rw [hwt, hr], ?_, hdir, ?_, ?_, ?_⟩
  · refine ⟨WF_wr _ _ _ (WF_pgdir_walk s pgdir a CREATE _ t h.wf hwt), ?_, hnd.2,
      fun hm => h.dir_not_free (List.mem_cons_of_mem hd hm), ?_, ?_, ?_⟩
    · show free_chain (wr t _ v) t.page_free_list xs
      rw [tfl]
      refine free_chain_congr s _ xs _ (fun y hy => ?_) hxs
      rw [wr_pages, toth y (fun e => hnd.1 (e ▸ hy))]
    · intro i hi hpi
      rw [wr_npages, tn]
      rcases hentry i hi hpi with ⟨-, e2⟩ | ⟨-, e2, e3⟩
      · rw [e2]; exact hh
      · rw [e3]; exact h.table_lt i hi e2
    · intro i hi hpi
      rcases hentry i hi hpi with ⟨-, e2⟩ | ⟨-, e2, e3⟩
      · rw [e2]; exact hnd.1
      · rw [e3]
        exact fun hm => h.table_not_free i hi e2 (List.mem_cons_of_mem hd hm)
    · intro i j hi hj hij hpi hpj he
      rcases hentry i hi hpi with ⟨i1, i2⟩ | ⟨i1, i2, i3⟩
      · rcases hentry j hj hpj with ⟨j1, -⟩ | ⟨-, j2, j3⟩
        · exact absurd (i1.trans j1.symm) hij
        · exfalso
          rw [i2, j3] at he
          exact h.table_not_free j hj j2 (he ▸ List.mem_cons_self hd xs)
      · rcases hentry j hj hpj with ⟨-, j2⟩ | ⟨-, j2, j3⟩
        · exfalso
          rw [i3, j2] at he
          exact h.table_not_free i hi i2 (he.symm ▸ List.mem_cons_self hd xs)
        · rw [i3] at he ⊢
          rw [j3] at he
          exact h.apart i j hi hj hij i2 j2 he
  · rw [hpde]
    exact present_or_PW _
  · rw [hpde, PGNUM_or_PW hd hh20]
    exact hhD
  · intro b hgb
    rw [pte_eq, pte_eq]
    by_cases hb : PDX b = PDX a
    · have hsl : pde_slot pgdir b = pde_slot pgdir a := (pde_slot_eq_iff pgdir b a).2 hb
      rw [hsl, hpde, if_pos (present_or_PW _), if_neg hp, PGNUM_or_PW hd hh20, rd_wr]
      by_cases hx : PTX b = PTX a
      · rw [if_pos (show same_page b a from ⟨hb, hx⟩), hx, if_pos rfl]
      · have hne : page2pa hd + 4 * PTX b ≠ page2pa hd + 4 * PTX a := by omega
        rw [if_neg hne, if_neg (show ¬ same_page b a from fun hsp => hx hsp.2)]
        have hqb : PGNUM (page2pa hd + 4 * PTX b) = hd := by
          have := PTX_lt b
          exact PGNUM_page2pa_add hd _ hh20 (by omega)
        rw [tmem, if_pos hqb]
        intro e
        rw [e, hDa] at hqb
        exact hhD hqb.symm
    · have hdb : rd (wr t (page2pa hd + 4 * PTX a) v) (pde_slot pgdir b)
          = rd s (pde_slot pgdir b) := hdir (PDX b) (PDX_lt b) hb
      rw [hdb, if_neg (show ¬ same_page b a from fun hsp => hb hsp.1)]
      by_cases hpb : present (rd s (pde_slot pgdir b))
      · rw [if_pos hpb, if_pos hpb]
        have hTb20 : PGNUM (rd s (pde_slot pgdir b)) < 2 ^ 20 := PGNUM_rd_lt s _
        have hTh : PGNUM (rd s (pde_slot pgdir b)) ≠ hd :=
          fun e => h.table_not_free (PDX b) (PDX_lt b) hpb (e ▸ List.mem_cons_self hd xs)
        have hsb : PGNUM (page2pa (PGNUM (rd s (pde_slot pgdir b))) + 4 * PTX b)
            = PGNUM (rd s (pde_slot pgdir b)) := by
          have := PTX_lt b
          exact PGNUM_page2pa_add _ _ hTb20 (by omega)
        rw [rd_wr, if_neg, tmem, if_neg]
        · rw [hsb]; exact hTh
        · intro e
          rw [e, hDa] at hsb
          exact hgb hpb hsb.symm
        · intro e
          rw [e, hq] at hsb
          exact hTh hsb.symm
      · rw [if_neg hpb, if_neg hpb]

theorem not_own_table_iff (s : State) (pgdir va : Nat) :
    ¬ own_table s pgdir va ↔
      (present (rd s (pde_slot pgdir va)) →
        PGNUM (rd s (pde_slot pgdir va)) ≠ PGNUM pgdir) := by
  unfold own_table
  exact not_and

/-- The loop of `boot_map_region`: with a table frame on the free list for
every directory index of `m`, the indices that may lack a table, and no
address of the run inside a window where the directory is its own table, the
loop returns, the leaf entry of each of its addresses is the word stored for
it, and the leaf entries seen at other addresses, outside such windows, are
as before. -/
theorem boot_map_loop_spec (pgdir va pa perm : Nat) (hal : pgdir % PGSIZE = 0) (n : Nat) :
    ∀ (i : Nat) (s : State) (l m : List Nat), TablesApart s pgdir l →
      m.Nodup → m.length ≤ l.length →
      (∀ k, k < n → ¬ present (rd s (pde_slot pgdir (u32 (va + (i + k * PGSIZE))))) →
        PDX (u32 (va + (i + k * PGSIZE))) ∈ m) →
      (∀ k, k < n → ¬ own_table s pgdir (u32 (va + (i + k * PGSIZE)))) →
      (∀ k k', k < n → k' < n →
        same_page (u32 (va + (i + k * PGSIZE))) (u32 (va + (i + k' * PGSIZE))) → k = k') →
      ∃ s' l', boot_map_loop pgdir va pa perm n i s = Outcome.ret s' ∧
        TablesApart s' pgdir l' ∧
        (∀ k, k < n → pte s' pgdir (u32 (va + (i + k * PGSIZE)))
          = u32 (PTE_ADDR (u32 (pa + (i + k * PGSIZE))) ||| perm ||| PTE_P)) ∧
        (∀ b, ¬ own_table s pgdir b →
          (∀ k, k < n → ¬ same_page b (u32 (va + (i + k * PGSIZE)))) →
          pte s' pgdir b = pte s pgdir b) := by
  induction n with
  | zero =>
    intro i s l m h _ _ _ _ _
    exact ⟨s, l, rfl, h, fun k hk => absurd hk (Nat.not_lt_zero k), fun _ _ _ => rfl⟩
  | succ n ih =>
    intro i s l m h hm hlen hcov hgood hdist
    have hoff : ∀ k, i + PGSIZE + k * PGSIZE = i + (k + 1) * PGSIZE := by
      intro k
      unfold PGSIZE
      omega
    have h0 : i + 0 * PGSIZE = i := by omega
    have hcov0 := hcov 0 (Nat.succ_pos n)
    have hgood0 := hgood 0 (Nat.succ_pos n)
    rw [h0] at hcov0 hgood0
    have hdist' : ∀ k k', k < n → k' < n →
        same_page (u32 (va + (i + PGSIZE + k * PGSIZE)))
          (u32 (va + (i + PGSIZE + k' * PGSIZE))) → k = k' := by
      intro k k' hk hk' hsp
      rw [hoff, hoff] at hsp
      have := hdist (k + 1) (k' + 1) (by omega) (by omega) hsp
      omega
    have hfirst : ∀ k, k < n →
        ¬ same_page (u32 (va + i)) (u32 (va + (i + PGSIZE + k * PGSIZE))) := by
      intro k hk hsp
      rw [hoff] at hsp
      have hsp0 : same_page (u32 (va + (i + 0 * PGSIZE)))
          (u32 (va + (i + (k + 1) * PGSIZE))) := by rw [h0]; exact hsp
      have := hdist 0 (k + 1) (by omega) (by omega) hsp0
      omega
    show ∃ s' l', (match pgdir_walk s pgdir (u32 (va + i)) CREATE with
        | Outcome.halt => Outcome.halt
        | Outcome.ret (none, _) => Outcome.halt
        | Outcome.ret (some ptep, s1) =>
          boot_map_loop pgdir va pa perm n (i + PGSIZE)
            (wr s1 ptep (PTE_ADDR (u32 (pa + i)) ||| perm ||| PTE_P))) = Outcome.ret s' ∧ _
    by_cases hp : present (rd s (pde_slot pgdir (u32 (va + i))))
    · obtain ⟨q, hw, hta, hdir, hpte⟩ := map_step_present s pgdir l h hal (u32 (va + i))
        (PTE_ADDR (u32 (pa + i)) ||| perm ||| PTE_P) hp
        ((not_own_table_iff s pgdir _).1 hgood0 hp)
      have hdirb : ∀ b, rd (wr s q (PTE_ADDR (u32 (pa + i)) ||| perm ||| PTE_P))
          (pde_slot pgdir b) = rd s (pde_slot pgdir b) := fun b => hdir (PDX b) (PDX_lt b)
      have hown : ∀ b, own_table (wr s q (PTE_ADDR (u32 (pa + i)) ||| perm ||| PTE_P)) pgdir b
          ↔ own_table s pgdir b := by
        intro b
        unfold own_table
        rw [hdirb b]
      obtain ⟨s', l', hrun, hta', htgt, hout⟩ := ih (i + PGSIZE) _ l m hta hm hlen
        (fun k hk hnp => by
          rw [hdirb, hoff] at hnp
          rw [hoff]
          exact hcov (k + 1) (by omega) hnp)
        (fun k hk => by
          rw [hown, hoff]
          exact hgood (k + 1) (by omega))
        hdist'
      rw [hw]
      refine ⟨s', l', hrun, hta', fun k hk => ?_, fun b hb hsp => ?_⟩
      · cases k with
        | zero =>
          rw [h0, hout _ ((hown _).not.2 hgood0) hfirst, hpte, if_pos ⟨rfl, rfl⟩]
        | succ k =>
          have := htgt k (by omega)
          rw [hoff] at this
          exact this
      · rw [hout b ((hown b).not.2 hb) (fun k hk => by
          rw [hoff]; exact hsp (k + 1) (by omega)), hpte, if_neg]
        have := hsp 0 (Nat.succ_pos n)
        rw [h0] at this
        exact this
    · have hmem := hcov0 hp
      cases l with
      | nil =>
        exfalso
        cases m with
        | nil => cases hmem
        | cons _ _ => simp at hlen
      | cons hd xs =>
        obtain ⟨q, s1, hw, hta, hdir, hpn, hTn, hpte⟩ := map_step_create s pgdir hd xs h hal
          (u32 (va + i)) (PTE_ADDR (u32 (pa + i)) ||| perm ||| PTE_P) hp
        have hdirb : ∀ b, PDX b ≠ PDX (u32 (va + i)) →
            rd (wr s1 q (PTE_ADDR (u32 (pa + i)) ||| perm ||| PTE_P)) (pde_slot pgdir b)
              = rd s (pde_slot pgdir b) := fun b hb => hdir (PDX b) (PDX_lt b) hb
        have hown : ∀ b, ¬ own_table s pgdir b →
            ¬ own_table (wr s1 q (PTE_ADDR (u32 (pa + i)) ||| perm ||| PTE_P)) pgdir b := by
          intro b hb
          by_cases e : PDX b = PDX (u32 (va + i))
          · have hsl : pde_slot pgdir b = pde_slot pgdir (u32 (va + i)) :=
              (pde_slot_eq_iff pgdir b _).2 e
            unfold own_table
            rw [hsl]
            exact fun hx => hTn hx.2
          · unfold own_table at hb ⊢
            rw [hdirb b e]
            exact hb
        obtain ⟨s', l', hrun, hta', htgt, hout⟩ := ih (i + PGSIZE) _ xs
          (m.erase (PDX (u32 (va + i)))) hta (hm.erase _)
          (by
            rw [List.length_erase_of_mem hmem]
            simp only [List.length_cons] at hlen
            omega)
          (fun k hk hnp => by
            have hne : PDX (u32 (va + (i + PGSIZE + k * PGSIZE))) ≠ PDX (u32 (va + i)) := by
              intro e
              apply hnp
              rw [(pde_slot_eq_iff pgdir _ _).2 e]
              exact hpn
            rw [hdirb _ hne, hoff] at hnp
            refine (List.mem_erase_of_ne hne).2 ?_
            rw [hoff]
            exact hcov (k + 1) (by omega) hnp)
          (fun k hk => by
            apply hown
            rw [hoff]
            exact hgood (k + 1) (by omega))
          hdist'
        rw [hw]
        refine ⟨s', l', hrun, hta', fun k hk => ?_, fun b hb hsp => ?_⟩
        · cases k with
          | zero =>
            rw [h0, hout _ (hown _ hgood0) hfirst,
              hpte _ ((not_own_table_iff s pgdir _).1 hgood0), if_pos ⟨rfl, rfl⟩]
          | succ k =>
            have := htgt k (by omega)
            rw [hoff] at this
            exact this
        · rw [hout b (hown b hb) (fun k hk => by
            rw [hoff]; exact hsp (k + 1) (by omega)),
            hpte b ((not_own_table_iff s pgdir b).1 hb), if_neg]
          have := hsp 0 (Nat.succ_pos n)
          rw [h0] at this
          exact this

theorem PDX_eq_div (a : Nat) : PDX a = a / 4194304 % 1024 := by
  unfold PDX
  rw [Nat.shiftRight_eq_div_pow]
  exact Nat.and_pow_two_sub_one_eq_mod _ 10

theorem PTX_eq_div (a : Nat) : PTX a = a / 4096 % 1024 := by
  unfold PTX
  rw [Nat.shiftRight_eq_div_pow]
  exact Nat.and_pow_two_sub_one_eq_mod _ 10

theorem same_page_iff (a b : Nat) (ha : a < 2 ^ 32) (hb : b < 2 ^ 32) :
    same_page a b ↔ PGNUM a = PGNUM b := by
  unfold same_page
  rw [PDX_eq_div, PDX_eq_div, PTX_eq_div, PTX_eq_div, PGNUM_eq_div, PGNUM_eq_div]
  omega

theorem ROUNDUP_mul (size : Nat) :
    ROUNDUP size PGSIZE = ROUNDUP size PGSIZE / PGSIZE * PGSIZE := by
  have := ROUNDUP_aligned size
  unfold PGSIZE at *
  omega

theorem PTE_ADDR_of_aligned (x : Nat) (hx : x < 2 ^ 32) (ha : x % PGSIZE = 0) :
    PTE_ADDR x = x := by
  rw [PTE_ADDR_eq, u32_of_lt hx]
  unfold PGSIZE at ha
  omega

/-- C23 (amended). Page-aligned `va`, `pa` and directory, `perm` within the
low 12 bits, neither range wrapping the 32-bit space, the tables of the
directory apart, a free frame for every directory index of the range that
lacks a table, and no address of the range in a window where the directory
is its own table: `boot_map_region` returns; for every page-aligned offset
below `ROUNDUP (size, PGSIZE)` the leaf entry of `va + off` is
`(pa + off) | perm | PTE_P` and `check_va2pa` gives `pa + off`; for every
address outside the range, and outside such windows, the leaf entry and
`check_va2pa` are as before. -/
theorem boot_map_region_maps (s : State) (pgdir : Nat) (l m : List Nat)
    (h : TablesApart s pgdir l) (hal : pgdir % PGSIZE = 0)
    (va size pa perm : Nat) (hva : va % PGSIZE = 0) (hpa : pa % PGSIZE = 0)
    (hperm : perm < 4096)
    (hvw : va + ROUNDUP size PGSIZE ≤ 2 ^ 32) (hpw : pa + ROUNDUP size PGSIZE ≤ 2 ^ 32)
    (hm : m.Nodup) (hlen : m.length ≤ l.length)
    (hcov : ∀ off, off < ROUNDUP size PGSIZE →
      ¬ present (rd s (pde_slot pgdir (va + off))) → PDX (va + off) ∈ m)
    (hown : ∀ off, off < ROUNDUP size PGSIZE → ¬ own_table s pgdir (va + off)) :
    ∃ s', boot_map_region s pgdir va size pa perm = Outcome.ret s' ∧
      (∀ off, off < ROUNDUP size PGSIZE → off % PGSIZE = 0 →
        pte s' pgdir (va + off) = (pa + off) ||| perm ||| PTE_P ∧
        check_va2pa s' pgdir (va + off) = Outcome.ret (pa + off)) ∧
      (∀ b, b < 2 ^ 32 → (b < va ∨ va + ROUNDUP size PGSIZE ≤ b) →
        ¬ own_table s pgdir b →
        pte s' pgdir b = pte s pgdir b ∧
        check_va2pa s' pgdir b = check_va2pa s pgdir b) := by
  have hR := ROUNDUP_mul size
  have hdef : boot_map_region s pgdir va size pa perm
      = boot_map_loop pgdir va pa perm (ROUNDUP size PGSIZE / PGSIZE) 0 s := rfl
  generalize ROUNDUP size PGSIZE = R at *
  generalize hn : R / PGSIZE = n at *
  have hk : ∀ k, k < n → 0 + k * PGSIZE < R := by
    intro k hk
    unfold PGSIZE at *
    omega
  have hu : ∀ k, k < n → u32 (va + (0 + k * PGSIZE)) = va + (0 + k * PGSIZE) := by
    intro k hkn
    have := hk k hkn
    exact u32_of_lt (by omega)
  obtain ⟨s', l', hrun, hta, htgt, hout⟩ := boot_map_loop_spec pgdir va pa perm hal n 0 s l m
    h hm hlen
    (fun k hkn hnp => by
      rw [hu k hkn] at hnp ⊢
      exact hcov _ (hk k hkn) hnp)
    (fun k hkn => by
      rw [hu k hkn]
      exact hown _ (hk k hkn))
    (fun k k' hkn hkn' hsp => by
      rw [hu k hkn, hu k' hkn'] at hsp
      have h1 := hk k hkn
      have h2 := hk k' hkn'
      rw [same_page_iff _ _ (by omega) (by omega), PGNUM_eq_div, PGNUM_eq_div] at hsp
      unfold PGSIZE at *
      omega)
  have hrun' : boot_map_region s pgdir va size pa perm = Outcome.ret s' :=
    hdef.trans hrun
  refine ⟨s', hrun', fun off ho hoa => ?_, fun b hb hbo hbn => ?_⟩
  · have hkoff : off / PGSIZE < n := by
      unfold PGSIZE at *
      omega
    have hoff : 0 + off / PGSIZE * PGSIZE = off := by
      unfold PGSIZE at *
      omega
    have e := htgt (off / PGSIZE) hkoff
    rw [hu _ hkoff, hoff] at e
    have hplt : pa + off < 2 ^ 32 := by omega
    have hpal : (pa + off) % PGSIZE = 0 := by
      unfold PGSIZE at *
      omega
    have hval : u32 (PTE_ADDR (u32 (pa + off)) ||| perm ||| PTE_P)
        = (pa + off) ||| perm ||| PTE_P := by
      rw [u32_of_lt hplt, PTE_ADDR_of_aligned _ hplt hpal]
      exact u32_of_lt (Nat.or_lt_two_pow (Nat.or_lt_two_pow hplt
        (lt_of_lt_of_le hperm (by norm_num))) (by decide))
    rw [hval] at e
    refine ⟨e, ?_⟩
    rw [check_va2pa_eq s' pgdir l' hta, e, if_pos (present_or_P _),
      PTE_ADDR_or _ _ (by decide : PTE_P < 4096), PTE_ADDR_or _ _ hperm,
      PTE_ADDR_of_aligned _ hplt hpal]
  · have e := hout b hbn (fun k hkn => by
      rw [hu k hkn]
      have h1 := hk k hkn
      rw [same_page_iff _ _ hb (by omega), PGNUM_eq_div, PGNUM_eq_div]
      unfold PGSIZE at *
      omega)
    refine ⟨e, ?_⟩
    rw [check_va2pa_eq s' pgdir l' hta, check_va2pa_eq s pgdir l h, e]

/-! ## Counting entries -/

theorem slot_split (n : Nat) (h : n ∈ Finset.range (NPDENTRIES * NPTENTRIES)) :
    n / NPTENTRIES < NPDENTRIES ∧ n % NPTENTRIES < NPTENTRIES := by
  rw [Finset.mem_range] at h
  have h1 : NPDENTRIES = 1024 := rfl
  have h2 : NPTENTRIES = 1024 := rfl
  rw [h1, h2] at h ⊢
  omega

theorem slot_join (i k : Nat) (hi : i < NPDENTRIES) (hk : k < NPTENTRIES) :
    i * NPTENTRIES + k ∈ Finset.range (NPDENTRIES * NPTENTRIES) ∧
    (i * NPTENTRIES + k) / NPTENTRIES = i ∧ (i * NPTENTRIES + k) % NPTENTRIES = k := by
  rw [Finset.mem_range]
  have h1 : NPDENTRIES = 1024 := rfl
  have h2 : NPTENTRIES = 1024 := rfl
  rw [h1] at hi ⊢
  rw [h2] at hk ⊢
  omega

theorem leaf_refs_pos (s : State) (pgdir f i k : Nat) (hi : i < NPDENTRIES)
    (hk : k < NPTENTRIES) (hm : maps s pgdir f (i, k)) : 1 ≤ leaf_refs s pgdir f := by
  obtain ⟨hmem, hd, hr⟩ := slot_join i k hi hk
  refine Finset.card_pos.2 ⟨i * NPTENTRIES + k, Finset.mem_filter.2 ⟨hmem, ?_⟩⟩
  simp only [hd, hr]
  exact hm

theorem leaf_refs_zero (s : State) (pgdir f : Nat)
    (h : ∀ i k, i < NPDENTRIES → k < NPTENTRIES → ¬ maps s pgdir f (i, k)) :
    leaf_refs s pgdir f = 0 :=
  Finset.card_eq_zero.2 (Finset.filter_eq_empty_iff.2 (fun n hn =>
    h _ _ (slot_split n hn).1 (slot_split n hn).2))

theorem leaf_refs_zero_iff (s : State) (pgdir f : Nat) :
    leaf_refs s pgdir f = 0 ↔
      ∀ i k, i < NPDENTRIES → k < NPTENTRIES → ¬ maps s pgdir f (i, k) := by
  constructor
  · intro h i k hi hk hp
    have := leaf_refs_pos s pgdir f i k hi hk hp
    omega
  · exact leaf_refs_zero s pgdir f

/-- A frame on the free list is managed and has count 0. -/
theorem Counted_free (s : State) (pgdir : Nat) (M : List Nat) (C : Counted s pgdir M)
    (x : Nat) (hx : on_free_list s x) : x ∈ M ∧ (s.pages x).pp_ref = 0 := by
  obtain ⟨l, hc, _, hl⟩ := C.free
  exact hl x ((free_chain_follow s x l _ hc).1 hx)

/-- C31. When the directory entry covering `va` is present and points at a
frame of the machine, `pgdir_walk`, for every value of `create`, returns the
slot at index `PTX (va)` of the table at the physical address held in the
entry, `KADDR (PTE_ADDR (pgdir[PDX (va)])) + PTX (va)`, and the state it
returns is the state it was called in: nothing is allocated and nothing
changes. -/
theorem pgdir_walk_present_slot (s : State) (hwf : WF s) (pgdir va create : Nat)
    (hp : present (rd s (pde_slot pgdir va)))
    (hr : PGNUM (rd s (pde_slot pgdir va)) < s.npages) :
    KADDR s (PTE_ADDR (rd s (pde_slot pgdir va)))
      = Outcome.ret (PTE_ADDR (rd s (pde_slot pgdir va))) ∧
    pgdir_walk s pgdir va create
      = Outcome.ret (some (PTE_ADDR (rd s (pde_slot pgdir va)) + 4 * PTX va), s) := by
  have ht : table_ok s pgdir va := ⟨hp, hr, mapped_paddr_range s hwf _ hr⟩
  constructor
  · unfold KADDR
    rw [PGNUM_PTE_ADDR_rd, if_neg (Nat.not_le.2 hr)]
  · rw [pgdir_walk_present s pgdir va create ht, leaf_slot_eq s hwf pgdir va ht,
      page2pa_PGNUM _ (rd_lt s _)]

theorem page_free_ref_tlb (s : State) (pp : Option Nat) :
    (∀ i, ((page_free s pp).pages i).pp_ref = (s.pages i).pp_ref) ∧
    (page_free s pp).tlb = s.tlb := by
  cases pp with
  | none => exact ⟨fun _ => rfl, rfl⟩
  | some p =>
    unfold page_free
    simp only
    split
    · exact ⟨fun _ => rfl, rfl⟩
    · exact ⟨fun i => set_link_ref s p _ i, rfl⟩

/-- The count `page_decref` leaves and the log of invalidations, for every
count it starts from. -/
theorem page_decref_ref_tlb (s : State) (g : Nat) :
    ((page_decref s g).pages g).pp_ref
      = ((s.pages g).pp_ref + (PP_REF_MOD - 1)) % PP_REF_MOD ∧
    (page_decref s g).tlb = s.tlb := by
  unfold page_decref
  simp only
  split
  · obtain ⟨h1, h2⟩ := page_free_ref_tlb (set_ref s g
      (((s.pages g).pp_ref + (PP_REF_MOD - 1)) % PP_REF_MOD)) (some g)
    rw [h1 g, h2, set_ref_pages_same]
    exact ⟨rfl, rfl⟩
  · rw [set_ref_pages_same]
    exact ⟨rfl, rfl⟩

/-- C32 (what the code does). `page_insert` of frame `f` over a present leaf
entry that maps another frame `g` returns 0, and it calls `tlb_invalidate`
for `va` if and only if the count of `g` was 1, that is, only when the old
frame's count reaches 0: with any other count the log of invalidations is
unchanged. -/
theorem page_insert_invalidates_iff (s : State) (hwf : WF s) (pgdir f g va perm : Nat)
    (hperm : perm < 4096) (hfg : f ≠ g) (hf : f < s.npages)
    (hm : mapped s pgdir va g)
    (hna : leaf_slot s pgdir va ≠ pde_slot pgdir va) :
    ∃ s', page_insert s pgdir (some f) va perm = Outcome.ret (0, s') ∧
      s'.tlb = (if (s.pages g).pp_ref = 1 then va :: s.tlb else s.tlb) := by
  have hw := pgdir_walk_present s pgdir va CREATE hm.1
  have hg : g < s.npages := hm.2.2.2
  have hf20 : f < 2 ^ 20 := lt_of_lt_of_le hf hwf.npages_le
  have hg20 : g < 2 ^ 20 := lt_of_lt_of_le hg hwf.npages_le
  have hq2 : rd (dir_perm s pgdir va perm) (leaf_slot s pgdir va)
      = rd s (leaf_slot s pgdir va) := rd_dir_perm_ne _ _ _ _ _ hna
  have he : (s.pages f).paddr
      ≠ PTE_ADDR (rd (dir_perm s pgdir va perm) (leaf_slot s pgdir va)) := by
    rw [hq2, ← mapped_paddr s hwf pgdir va g hm, hwf.paddr_eq f hf, hwf.paddr_eq g hg]
    exact fun h => hfg (page2pa_injective hf20 hg20 h)
  have hpres : present (rd (dir_perm s pgdir va perm) (leaf_slot s pgdir va)) := by
    rw [hq2]; exact hm.2.1
  obtain ⟨ht2, hl2⟩ := dir_perm_table s pgdir va perm hperm hm.1
  obtain ⟨ht3, hl3⟩ := table_congr (dir_perm s pgdir va perm)
    (inc_ref (dir_perm s pgdir va perm) f) pgdir va rfl (fun i => by simp) rfl
  have hl3' : leaf_slot (inc_ref (dir_perm s pgdir va perm) f) pgdir va
      = leaf_slot s pgdir va := hl3.trans hl2
  have hm3 : mapped (inc_ref (dir_perm s pgdir va perm) f) pgdir va g := by
    refine ⟨ht3.2 ht2, ?_, ?_, hg⟩
    · rw [hl3', rd_inc_ref, hq2]; exact hm.2.1
    · rw [hl3', rd_inc_ref, hq2]; exact hm.2.2.1
  have hpg3 : (inc_ref (dir_perm s pgdir va perm) f).pages g = s.pages g :=
    inc_ref_pages_ne _ _ _ (Ne.symm hfg)
  have hrm := page_remove_mapped _ pgdir va g hm3
  rw [hl3'] at hrm
  have hins := page_insert_replace s s pgdir f va perm _ hw he hpres
  rw [hrm] at hins
  refine ⟨_, hins, ?_⟩
  obtain ⟨hcnt, hDt⟩ := page_decref_ref_tlb (inc_ref (dir_perm s pgdir va perm) f) g
  rw [hpg3] at hcnt
  have hDt' : (page_decref (inc_ref (dir_perm s pgdir va perm) f) g).tlb = s.tlb := hDt
  have hlt := hwf.ref_lt g
  have hmod : PP_REF_MOD = 65536 := rfl
  rw [hmod] at hcnt hlt
  have htlb : ∀ X : State, X.tlb = s.tlb → ∀ q v w, ∀ c : Prop, ∀ _ : Decidable c,
      (wr (wr (if c then tlb_invalidate X pgdir va else X) q v) q w).tlb
        = if c then va :: s.tlb else s.tlb := by
    intro X hXt q v w c _
    by_cases hc : c
    · rw [if_pos hc, if_pos hc]
      show va :: X.tlb = _
      rw [hXt]
    · rw [if_neg hc, if_neg hc]
      exact hXt
  rw [htlb _ hDt']
  by_cases h1 : (s.pages g).pp_ref = 1
  · rw [if_pos h1, if_pos (by rw [hcnt, h1])]
  · rw [if_neg h1, if_neg (by rw [hcnt]; omega)]

/-- C33. `page_free` of the frame that is the head of the free list, with a
recorded address in range: the frame becomes its own successor and stays the
head, so the list from the head holds that frame alone; each of the next two
`page_alloc` calls returns that frame, whatever their flags; and the frames
that were behind it are reachable neither before, nor between, nor after
these calls. -/
theorem page_free_double_free (s : State) (p : Nat) (hh : s.page_free_list = some p)
    (hr : PGNUM (s.pages p).paddr < s.npages) (f1 f2 : Nat) :
    ((page_free s (some p)).pages p).pp_link = some p ∧
    (page_free s (some p)).page_free_list = some p ∧
    (∀ x, on_free_list (page_free s (some p)) x ↔ x = p) ∧
    ∃ s1 s2, page_alloc (page_free s (some p)) f1 = Outcome.ret (some p, s1) ∧
      page_alloc s1 f2 = Outcome.ret (some p, s2) ∧
      (∀ x, on_free_list s1 x ↔ x = p) ∧ (∀ x, ¬ on_free_list s2 x) := by
  obtain ⟨hhead, hlink, _, hpa, _, _, hn, _⟩ := page_free_push s p hr
  rw [hh] at hlink
  have hr1 : PGNUM ((page_free s (some p)).pages p).paddr < (page_free s (some p)).npages := by
    rw [hpa, hn]
    exact hr
  obtain ⟨s1, ha1, hn1, hhead1, _, hp1, _, _⟩ :=
    page_alloc_some (page_free s (some p)) f1 p hhead (fun _ => hr1)
  rw [hlink] at hhead1
  have hr2 : PGNUM (s1.pages p).paddr < s1.npages := by
    rw [hp1, hn1]
    exact hr1
  obtain ⟨s2, ha2, _, hhead2, _, _, _, _⟩ := page_alloc_some s1 f2 p hhead1 (fun _ => hr2)
  rw [hp1] at hhead2
  refine ⟨hlink, hhead, ?_, s1, s2, ha1, ha2, ?_, ?_⟩
  · intro x
    constructor
    · intro hx
      exact on_free_list_closed _ (fun y => y = p)
        (fun h e => by rw [hhead] at e; exact (Option.some.inj e).symm)
        (fun j k hj e => by
          rw [hj, hlink] at e
          exact (Option.some.inj e).symm) x hx
    · intro hx
      rw [hx]
      exact on_free_list_head _ p hhead
  · intro x
    constructor
    · intro hx
      exact on_free_list_closed _ (fun y => y = p)
        (fun h e => by rw [hhead1] at e; exact (Option.some.inj e).symm)
        (fun j k hj e => by
          rw [hj, hp1] at e
          cases e) x hx
    · intro hx
      rw [hx]
      exact on_free_list_head _ p hhead1
  · rintro x ⟨k, hk⟩
    rw [hhead2, follow_none] at hk
    cases hk

/-! ## The reordering block of `check_page_free_list` -/

theorem cell_load_store_same (r : Reorder) (c : Cell) (v : Option Nat) :
    cell_load (cell_store r c v) c = v := by
  cases c with
  | pp1 => rfl
  | pp2 => rfl
  | link i =>
    show ((set_link r.st i v).pages i).pp_link = v
    rw [set_link_pages_same]

theorem cell_load_store_ne (r : Reorder) (c c' : Cell) (v : Option Nat) (h : c' ≠ c) :
    cell_load (cell_store r c v) c' = cell_load r c' := by
  cases c with
  | pp1 =>
    cases c' with
    | pp1 => exact absurd rfl h
    | pp2 => rfl
    | link j => rfl
  | pp2 =>
    cases c' with
    | pp1 => rfl
    | pp2 => exact absurd rfl h
    | link j => rfl
  | link i =>
    cases c' with
    | pp1 => rfl
    | pp2 => rfl
    | link j =>
      show ((set_link r.st i v).pages j).pp_link = (r.st.pages j).pp_link
      rw [set_link_pages_ne r.st i v j (fun e => h (by rw [e]))]

theorem cell_store_tp (r : Reorder) (c : Cell) (v : Option Nat) :
    (cell_store r c v).tp0 = r.tp0 ∧ (cell_store r c v).tp1 = r.tp1 := by
  cases c <;> exact ⟨rfl, rfl⟩

theorem cell_store_links_only (r : Reorder) (c : Cell) (v : Option Nat) (l : List Nat)
    (hc : ∀ i, c = Cell.link i → i ∈ l) :
    links_only r.st (cell_store r c v).st l := by
  cases c with
  | pp1 => exact ⟨rfl, rfl, rfl, fun _ => ⟨rfl, rfl⟩, fun _ _ => rfl⟩
  | pp2 => exact ⟨rfl, rfl, rfl, fun _ => ⟨rfl, rfl⟩, fun _ _ => rfl⟩
  | link i =>
    refine ⟨rfl, rfl, rfl, fun j => ⟨set_link_ref r.st i v j, set_link_paddr r.st i v j⟩, ?_⟩
    intro j hj
    show ((set_link r.st i v).pages j).pp_link = (r.st.pages j).pp_link
    rw [set_link_pages_ne r.st i v j (fun e => hj (e ▸ hc i rfl))]

theorem links_only_refl (s : State) (l : List Nat) : links_only s s l :=
  ⟨rfl, rfl, rfl, fun _ => ⟨rfl, rfl⟩, fun _ _ => rfl⟩

theorem links_only_trans (s s1 s2 : State) (l : List Nat)
    (h1 : links_only s s1 l) (h2 : links_only s1 s2 l) : links_only s s2 l := by
  obtain ⟨a1, a2, a3, a4, a5⟩ := h1
  obtain ⟨b1, b2, b3, b4, b5⟩ := h2
  exact ⟨b1.trans a1, b2.trans a2, b3.trans a3,
    fun i => ⟨(b4 i).1.trans (a4 i).1, (b4 i).2.trans (a4 i).2⟩,
    fun i hi => (b5 i hi).trans (a5 i hi)⟩

theorem cell_path_hole_mem (r : Reorder) (A : List Nat) :
    ∀ c0 c', cell_path r c0 A c' → c' ∈ c0 :: A.map Cell.link := by
  induction A with
  | nil =>
    intro c0 c' h
    have e : c0 = c' := h
    rw [e]
    exact List.mem_cons_self _ _
  | cons a A ih =>
    intro c0 c' h
    exact List.mem_cons_of_mem _ (ih _ _ h.2)

/-- A path is kept when no pointer on it, its end included, is stored to. -/
theorem cell_path_keep (r r' : Reorder) (A : List Nat) :
    ∀ c0 c', (∀ c, c ∈ c0 :: A.map Cell.link → cell_load r' c = cell_load r c) →
      cell_path r c0 A c' → cell_path r' c0 A c' := by
  induction A with
  | nil => exact fun c0 c' _ h => h
  | cons a A ih =>
    intro c0 c' hl h
    refine ⟨?_, ih _ _ (fun c hc => hl c (List.mem_cons_of_mem _ hc)) h.2⟩
    rw [hl c0 (List.mem_cons_self _ _)]
    exact h.1

/-- A path is kept by a store through its end. -/
theorem cell_path_keep_hole (r r' : Reorder) (A : List Nat) :
    ∀ c0 c', (c0 :: A.map Cell.link).Nodup →
      (∀ c, c ≠ c' → cell_load r' c = cell_load r c) →
      cell_path r c0 A c' → cell_path r' c0 A c' := by
  induction A with
  | nil => exact fun c0 c' _ _ h => h
  | cons a A ih =>
    intro c0 c' hnd hl h
    have hmem := cell_path_hole_mem r A _ _ h.2
    have hnd' : (c0 :: (Cell.link a :: A.map Cell.link)).Nodup := hnd
    have hne : c0 ≠ c' := fun e => (List.nodup_cons.1 hnd').1 (e ▸ hmem)
    refine ⟨?_, ih _ _ (List.nodup_cons.1 hnd').2 hl h.2⟩
    rw [hl c0 hne]
    exact h.1

theorem cell_path_snoc (r : Reorder) (p : Nat) (A : List Nat) :
    ∀ c0 c', cell_path r c0 A c' → cell_load r c' = some p →
      cell_path r c0 (A ++ [p]) (Cell.link p) := by
  induction A with
  | nil =>
    intro c0 c' h hp
    have e : c0 = c' := h
    rw [e]
    exact ⟨hp, rfl⟩
  | cons a A ih =>
    intro c0 c' h hp
    exact ⟨h.1, ih _ _ h.2 hp⟩

theorem free_chain_of_path (r : Reorder) (B : List Nat) (A : List Nat) :
    ∀ c0 c', cell_path r c0 A c' → free_chain r.st (cell_load r c') B →
      free_chain r.st (cell_load r c0) (A ++ B) := by
  induction A with
  | nil =>
    intro c0 c' h hB
    have e : c0 = c' := h
    rw [e]
    exact hB
  | cons a A ih =>
    intro c0 c' h hB
    exact ⟨h.1, ih _ _ h.2 hB⟩

theorem cells_nodup (c0 : Cell) (A : List Nat) (hA : A.Nodup)
    (hc : ∀ i, c0 ≠ Cell.link i) : (c0 :: A.map Cell.link).Nodup := by
  refine List.nodup_cons.2 ⟨?_, ?_⟩
  · intro hm
    obtain ⟨i, _, hi⟩ := List.mem_map.1 hm
    exact hc i hi.symm
  · exact List.Nodup.map (fun i j e => Cell.link.inj e) hA

/-- A pointer of the first path is none of the second when the two lists
share no frame. -/
theorem cells_apart (A B : List Nat) (hd : ∀ x, x ∈ A → x ∉ B) (c : Cell)
    (h1 : c ∈ Cell.pp1 :: A.map Cell.link) : c ∉ Cell.pp2 :: B.map Cell.link := by
  intro h2
  rcases List.mem_cons.1 h1 with e1 | e1
  · rw [e1] at h2
    rcases List.mem_cons.1 h2 with e2 | e2
    · cases e2
    · obtain ⟨j, _, hj⟩ := List.mem_map.1 e2
      cases hj
  · obtain ⟨i, hi, hi'⟩ := List.mem_map.1 e1
    rw [← hi'] at h2
    rcases List.mem_cons.1 h2 with e2 | e2
    · cases e2
    · obtain ⟨j, hj, hj'⟩ := List.mem_map.1 e2
      have : j = i := Cell.link.inj hj'
      exact hd i hi (this ▸ hj)

theorem reorder_loop_none (limit fuel : Nat) (r : Reorder) :
    reorder_loop limit fuel none r = some r := by
  cases fuel <;> rfl

theorem reorder_loop_some (limit fuel pp : Nat) (r : Reorder) :
    reorder_loop limit (fuel + 1) (some pp) r =
      reorder_loop limit fuel
        ((if limit ≤ PDX (page2pa pp) then
            { cell_store r r.tp1 (some pp) with tp1 := Cell.link pp }
          else
            ({ cell_store r r.tp0 (some pp) with tp0 := Cell.link pp } : Reorder)).st.pages
          pp).pp_link
        (if limit ≤ PDX (page2pa pp) then
            { cell_store r r.tp1 (some pp) with tp1 := Cell.link pp }
          else
            { cell_store r r.tp0 (some pp) with tp0 := Cell.link pp }) := rfl

theorem link_mem_cells (x : Nat) (B : List Nat) (c0 : Cell) (hc0 : ∀ i, c0 ≠ Cell.link i)
    (h : Cell.link x ∈ c0 :: B.map Cell.link) : x ∈ B := by
  rcases List.mem_cons.1 h with e | e
  · exact absurd e.symm (hc0 x)
  · obtain ⟨j, hj, hj'⟩ := List.mem_map.1 e
    have : j = x := Cell.link.inj hj'
    exact this ▸ hj

theorem cell_load_tp1 (r : Reorder) (c' : Cell) (c : Cell) :
    cell_load { r with tp1 := c' } c = cell_load r c := by
  cases c <;> rfl

theorem cell_load_tp0 (r : Reorder) (c' : Cell) (c : Cell) :
    cell_load { r with tp0 := c' } c = cell_load r c := by
  cases c <;> rfl

/-- The loop of the reordering block over the rest of a duplicate-free list:
the frames of page type 0 are appended to the path from `pp1`, the others to
the path from `pp2`, in the order they come. -/
theorem reorder_loop_spec (s0 : State) (limit : Nat) (l : List Nat) :
    ∀ (rest A B : List Nat) (r : Reorder) (fuel : Nat) (pp : Option Nat),
      A.Nodup → B.Nodup → rest.Nodup →
      (∀ x, x ∈ A → x ∉ B) → (∀ x, x ∈ rest → x ∉ A ∧ x ∉ B) →
      (∀ x, x ∈ A ∨ x ∈ B ∨ x ∈ rest → x ∈ l) →
      free_chain s0 pp rest →
      (∀ x, x ∈ rest → cell_load r (Cell.link x) = (s0.pages x).pp_link) →
      cell_path r Cell.pp1 A r.tp0 → cell_path r Cell.pp2 B r.tp1 →
      rest.length ≤ fuel →
      ∃ r', reorder_loop limit fuel pp r = some r' ∧
        cell_path r' Cell.pp1
          (A ++ rest.filter (fun x => decide (PDX (page2pa x) < limit))) r'.tp0 ∧
        cell_path r' Cell.pp2
          (B ++ rest.filter (fun x => !decide (PDX (page2pa x) < limit))) r'.tp1 ∧
        links_only r.st r'.st l := by
  intro rest
  induction rest with
  | nil =>
    intro A B r fuel pp _ _ _ _ _ _ hc _ hP1 hP2 _
    have e : pp = none := hc
    rw [e, reorder_loop_none]
    refine ⟨r, rfl, ?_, ?_, links_only_refl _ _⟩
    · rw [List.filter_nil, List.append_nil]
      exact hP1
    · rw [List.filter_nil, List.append_nil]
      exact hP2
  | cons p rest ih =>
    intro A B r fuel pp hA hB hR hAB hRAB hsub hc hP3 hP1 hP2 hfuel
    obtain ⟨hpp, hcr⟩ := hc
    have hpR : p ∉ rest := (List.nodup_cons.1 hR).1
    have hRn : rest.Nodup := (List.nodup_cons.1 hR).2
    obtain ⟨hpA, hpB⟩ := hRAB p (List.mem_cons_self _ _)
    have h1c : ∀ i, Cell.pp1 ≠ Cell.link i := fun i e => by cases e
    have h2c : ∀ i, Cell.pp2 ≠ Cell.link i := fun i e => by cases e
    have hm0 := cell_path_hole_mem r A _ _ hP1
    have hm1 := cell_path_hole_mem r B _ _ hP2
    obtain ⟨fuel', rfl⟩ : ∃ f, fuel = f + 1 := by
      cases fuel with
      | zero => exact absurd hfuel (by simp)
      | succ f => exact ⟨f, rfl⟩
    have hfuel' : rest.length ≤ fuel' := by
      have : (p :: rest).length = rest.length + 1 := rfl
      omega
    rw [hpp]
    by_cases hhi : limit ≤ PDX (page2pa p)
    · -- page type 1
      obtain ⟨r1, hr1⟩ : ∃ r1 : Reorder,
          r1 = { cell_store r r.tp1 (some p) with tp1 := Cell.link p } := ⟨_, rfl⟩
      have hload1 : ∀ c, cell_load r1 c = cell_load (cell_store r r.tp1 (some p)) c := by
        intro c
        rw [hr1]
        exact cell_load_tp1 _ _ _
      have htp0 : r1.tp0 = r.tp0 := by
        rw [hr1]
        exact (cell_store_tp r r.tp1 (some p)).1
      have htp1 : r1.tp1 = Cell.link p := by rw [hr1]
      have hoff : ∀ c, c ≠ r.tp1 → cell_load r1 c = cell_load r c :=
        fun c hc => (hload1 c).trans (cell_load_store_ne r r.tp1 c _ hc)
      have hP2' : cell_path r1 Cell.pp2 (B ++ [p]) r1.tp1 := by
        rw [htp1]
        have ha := cell_path_keep_hole r (cell_store r r.tp1 (some p)) B Cell.pp2 r.tp1
          (cells_nodup Cell.pp2 B hB h2c)
          (fun c hc => cell_load_store_ne r r.tp1 c _ hc) hP2
        have hb := cell_path_snoc _ p B _ _ ha (cell_load_store_same r r.tp1 (some p))
        exact cell_path_keep _ r1 _ _ _ (fun c _ => hload1 c) hb
      have hP1' : cell_path r1 Cell.pp1 A r1.tp0 := by
        rw [htp0]
        apply cell_path_keep r r1 A _ _ _ hP1
        intro c hc
        apply hoff
        intro e
        exact cells_apart A B hAB c hc (e ▸ hm1)
      have hlinkne : ∀ x, x ∉ B → Cell.link x ≠ r.tp1 :=
        fun x hx e => hx (link_mem_cells x B Cell.pp2 h2c (e ▸ hm1))
      have hP3' : ∀ x, x ∈ rest →
          cell_load r1 (Cell.link x) = (s0.pages x).pp_link := by
        intro x hx
        rw [hoff _ (hlinkne x (hRAB x (List.mem_cons_of_mem _ hx)).2)]
        exact hP3 x (List.mem_cons_of_mem _ hx)
      have hnext : (r1.st.pages p).pp_link = (s0.pages p).pp_link := by
        have : cell_load r1 (Cell.link p) = (s0.pages p).pp_link := by
          rw [hoff _ (hlinkne p hpB)]
          exact hP3 p (List.mem_cons_self _ _)
        exact this
      have hstep : reorder_loop limit (fuel' + 1) (some p) r
          = reorder_loop limit fuel' (s0.pages p).pp_link r1 := by
        rw [← hnext, hr1, reorder_loop_some]
        simp only [if_pos hhi]
      obtain ⟨r', hrun, hq1, hq2, hlo⟩ := ih A (B ++ [p]) r1 fuel' (s0.pages p).pp_link
        hA (List.nodup_append.2 ⟨hB, List.nodup_singleton p, fun x hx hx' => by
          rw [List.mem_singleton] at hx'
          exact hpB (hx' ▸ hx)⟩) hRn
        (fun x hx hx' => by
          rcases List.mem_append.1 hx' with h | h
          · exact hAB x hx h
          · rw [List.mem_singleton] at h
            exact hpA (h ▸ hx))
        (fun x hx => ⟨(hRAB x (List.mem_cons_of_mem _ hx)).1, fun hx' => by
          rcases List.mem_append.1 hx' with h | h
          · exact (hRAB x (List.mem_cons_of_mem _ hx)).2 h
          · rw [List.mem_singleton] at h
            exact hpR (h ▸ hx)⟩)
        (fun x hx => by
          rcases hx with h | h | h
          · exact hsub x (Or.inl h)
          · rcases List.mem_append.1 h with h | h
            · exact hsub x (Or.inr (Or.inl h))
            · rw [List.mem_singleton] at h
              exact hsub x (Or.inr (Or.inr (h ▸ List.mem_cons_self _ _)))
          · exact hsub x (Or.inr (Or.inr (List.mem_cons_of_mem _ h))))
        hcr hP3' hP1' hP2' hfuel'
      have hlo1 : links_only r.st r1.st l := by
        rw [hr1]
        exact cell_store_links_only r r.tp1 (some p) l (fun i e =>
          hsub i (Or.inr (Or.inl (link_mem_cells i B Cell.pp2 h2c (e ▸ hm1)))))
      refine ⟨r', hstep.trans hrun, ?_, ?_, links_only_trans _ _ _ _ hlo1 hlo⟩
      · rw [List.filter_cons_of_neg (by simpa using hhi)]
        exact hq1
      · rw [List.filter_cons_of_pos (by simpa using hhi)]
        rw [List.append_assoc] at hq2
        exact hq2
    · -- page type 0
      obtain ⟨r1, hr1⟩ : ∃ r1 : Reorder,
          r1 = { cell_store r r.tp0 (some p) with tp0 := Cell.link p } := ⟨_, rfl⟩
      have hload1 : ∀ c, cell_load r1 c = cell_load (cell_store r r.tp0 (some p)) c := by
        intro c
        rw [hr1]
        exact cell_load_tp0 _ _ _
      have htp1 : r1.tp1 = r.tp1 := by
        rw [hr1]
        exact (cell_store_tp r r.tp0 (some p)).2
      have htp0 : r1.tp0 = Cell.link p := by rw [hr1]
      have hoff : ∀ c, c ≠ r.tp0 → cell_load r1 c = cell_load r c :=
        fun c hc => (hload1 c).trans (cell_load_store_ne r r.tp0 c _ hc)
      have hP1' : cell_path r1 Cell.pp1 (A ++ [p]) r1.tp0 := by
        rw [htp0]
        have ha := cell_path_keep_hole r (cell_store r r.tp0 (some p)) A Cell.pp1 r.tp0
          (cells_nodup Cell.pp1 A hA h1c)
          (fun c hc => cell_load_store_ne r r.tp0 c _ hc) hP1
        have hb := cell_path_snoc _ p A _ _ ha (cell_load_store_same r r.tp0 (some p))
        exact cell_path_keep _ r1 _ _ _ (fun c _ => hload1 c) hb
      have hP2' : cell_path r1 Cell.pp2 B r1.tp1 := by
        rw [htp1]
        apply cell_path_keep r r1 B _ _ _ hP2
        intro c hc
        apply hoff
        intro e
        exact cells_apart A B hAB r.tp0 hm0 (e ▸ hc)
      have hlinkne : ∀ x, x ∉ A → Cell.link x ≠ r.tp0 :=
        fun x hx e => hx (link_mem_cells x A Cell.pp1 h1c (e ▸ hm0))
      have hP3' : ∀ x, x ∈ rest →
          cell_load r1 (Cell.link x) = (s0.pages x).pp_link := by
        intro x hx
        rw [hoff _ (hlinkne x (hRAB x (List.mem_cons_of_mem _ hx)).1)]
        exact hP3 x (List.mem_cons_of_mem _ hx)
      have hnext : (r1.st.pages p).pp_link = (s0.pages p).pp_link := by
        have : cell_load r1 (Cell.link p) = (s0.pages p).pp_link := by
          rw [hoff _ (hlinkne p hpA)]
          exact hP3 p (List.mem_cons_self _ _)
        exact this
      have hstep : reorder_loop limit (fuel' + 1) (some p) r
          = reorder_loop limit fuel' (s0.pages p).pp_link r1 := by
        rw [← hnext, hr1, reorder_loop_some]
        simp only [if_neg hhi]
      obtain ⟨r', hrun, hq1, hq2, hlo⟩ := ih (A ++ [p]) B r1 fuel' (s0.pages p).pp_link
        (List.nodup_append.2 ⟨hA, List.nodup_singleton p, fun x hx hx' => by
          rw [List.mem_singleton] at hx'
          exact hpA (hx' ▸ hx)⟩) hB hRn
        (fun x hx hx' => by
          rcases List.mem_append.1 hx with h | h
          · exact hAB x h hx'
          · rw [List.mem_singleton] at h
            exact hpB (h ▸ hx'))
        (fun x hx => ⟨fun hx' => by
          rcases List.mem_append.1 hx' with h | h
          · exact (hRAB x (List.mem_cons_of_mem _ hx)).1 h
          · rw [List.mem_singleton] at h
            exact hpR (h ▸ hx), (hRAB x (List.mem_cons_of_mem _ hx)).2⟩)
        (fun x hx => by
          rcases hx with h | h | h
          · rcases List.mem_append.1 h with h | h
            · exact hsub x (Or.inl h)
            · rw [List.mem_singleton] at h
              exact hsub x (Or.inr (Or.inr (h ▸ List.mem_cons_self _ _)))
          · exact hsub x (Or.inr (Or.inl h))
          · exact hsub x (Or.inr (Or.inr (List.mem_cons_of_mem _ h))))
        hcr hP3' hP1' hP2' hfuel'
      have hlo1 : links_only r.st r1.st l := by
        rw [hr1]
        exact cell_store_links_only r r.tp0 (some p) l (fun i e =>
          hsub i (Or.inl (link_mem_cells i A Cell.pp1 h1c (e ▸ hm0))))
      refine ⟨r', hstep.trans hrun, ?_, ?_, links_only_trans _ _ _ _ hlo1 hlo⟩
      · rw [List.filter_cons_of_pos (by simpa using hhi)]
        rw [List.append_assoc] at hq1
        exact hq1
      · rw [List.filter_cons_of_neg (by simpa using hhi)]
        exact hq2

theorem low_frame_iff (x : Nat) (hx : x < 2 ^ 20) :
    low_frame x = true ↔ page2pa x < 4194304 := by
  unfold low_frame pdx_limit
  rw [decide_eq_true_iff, if_pos rfl, PDX_eq_div, page2pa_eq hx]
  omega

/-- C34. For a free list that is the duplicate-free chain `l`, the
reordering block of `check_page_free_list (only_low_memory = true)` ends
within `l.length` iterations, whatever the locals `pp1` and `pp2` held, and
leaves as free list the frames of `l` below 4 MB (page type 0, page-directory
index 0), in the order they had in `l`, followed by the other frames of `l`,
in the order they had in `l`: the same frames, each once. Nothing but the
head and the `pp_link` of frames of `l` is changed. -/
theorem check_page_free_list_reorder_spec (s : State) (l : List Nat)
    (hc : free_chain s s.page_free_list l) (hnd : l.Nodup) (u1 u2 : Option Nat)
    (fuel : Nat) (hfuel : l.length ≤ fuel) :
    ∃ s', check_page_free_list_reorder fuel s u1 u2 = some s' ∧
      free_chain s' s'.page_free_list
        (l.filter low_frame ++ l.filter (fun x => !low_frame x)) ∧
      (l.filter low_frame ++ l.filter (fun x => !low_frame x)).Perm l ∧
      (l.filter low_frame ++ l.filter (fun x => !low_frame x)).Nodup ∧
      links_only s s' l ∧
      ∀ x, x < 2 ^ 20 → (low_frame x = true ↔ page2pa x < 4194304) := by
  obtain ⟨r, hrun, h1, h2, hlo⟩ := reorder_loop_spec s (pdx_limit true) l l [] []
    { st := s, pp1 := u1, pp2 := u2, tp0 := Cell.pp1, tp1 := Cell.pp2 } fuel
    s.page_free_list List.nodup_nil List.nodup_nil hnd
    (fun x hx => absurd hx (List.not_mem_nil x))
    (fun x _ => ⟨List.not_mem_nil x, List.not_mem_nil x⟩)
    (fun x hx => by
      rcases hx with h | h | h
      · exact absurd h (List.not_mem_nil x)
      · exact absurd h (List.not_mem_nil x)
      · exact h)
    hc (fun x _ => rfl) rfl rfl hfuel
  have h1' : cell_path r Cell.pp1 (l.filter low_frame) r.tp0 := h1
  have h2' : cell_path r Cell.pp2 (l.filter (fun x => !low_frame x)) r.tp1 := h2
  have hlo' : links_only s r.st l := hlo
  clear h1 h2 hlo
  have hperm := List.filter_append_perm low_frame l
  have hA : (l.filter low_frame).Nodup := hnd.filter _
  have hB : (l.filter (fun x => !low_frame x)).Nodup := hnd.filter _
  have hAB : ∀ x, x ∈ l.filter low_frame → x ∉ l.filter (fun x => !low_frame x) := by
    intro x hx hx'
    have e1 := (List.mem_filter.1 hx).2
    have e2 := (List.mem_filter.1 hx').2
    rw [e1] at e2
    cases e2
  generalize l.filter low_frame = A at h1' hperm hA hAB ⊢
  generalize l.filter (fun x => !low_frame x) = B at h2' hperm hB hAB ⊢
  have hAl : ∀ x, x ∈ A → x ∈ l := fun x hx =>
    hperm.subset (List.mem_append_left _ hx)
  have hBl : ∀ x, x ∈ B → x ∈ l := fun x hx =>
    hperm.subset (List.mem_append_right _ hx)
  have h1c : ∀ i, Cell.pp1 ≠ Cell.link i := fun i e => by cases e
  have h2c : ∀ i, Cell.pp2 ≠ Cell.link i := fun i e => by cases e
  have hm0 := cell_path_hole_mem r A _ _ h1'
  have hm1 := cell_path_hole_mem r B _ _ h2'
  have hne01 : r.tp1 ≠ r.tp0 := fun e => cells_apart A B hAB r.tp0 hm0 (e ▸ hm1)
  obtain ⟨r1, hr1⟩ : ∃ r1 : Reorder, r1 = cell_store r r.tp1 none := ⟨_, rfl⟩
  obtain ⟨r2, hr2⟩ : ∃ r2 : Reorder, r2 = cell_store r1 r1.tp0 r1.pp2 := ⟨_, rfl⟩
  have hres : check_page_free_list_reorder fuel s u1 u2
      = some { r2.st with page_free_list := r2.pp1 } := by
    unfold check_page_free_list_reorder
    rw [hrun, hr2, hr1]
  have htp0 : r1.tp0 = r.tp0 := by
    rw [hr1]
    exact (cell_store_tp r r.tp1 none).1
  have hoff1 : ∀ c, c ≠ r.tp1 → cell_load r1 c = cell_load r c := by
    intro c hc
    rw [hr1]
    exact cell_load_store_ne r r.tp1 c none hc
  have hoff2 : ∀ c, c ≠ r.tp0 → cell_load r2 c = cell_load r1 c := by
    intro c hc
    rw [hr2, htp0]
    exact cell_load_store_ne r1 r.tp0 c _ hc
  -- the path of the other frames, closed by `*tp[1] = 0`
  have ha : cell_path r1 Cell.pp2 B r.tp1 :=
    cell_path_keep_hole r r1 B _ _ (cells_nodup Cell.pp2 B hB h2c) hoff1 h2'
  have l1 : cell_load r1 r.tp1 = none := by
    rw [hr1]
    exact cell_load_store_same r r.tp1 none
  have hb : cell_path r1 Cell.pp1 A r.tp0 :=
    cell_path_keep r r1 A _ _
      (fun c hc => hoff1 c (fun e => cells_apart A B hAB c hc (e ▸ hm1))) h1'
  -- the path of the frames below 4 MB, linked to the other one by `*tp[0] = pp2`
  have hcc : cell_path r2 Cell.pp1 A r.tp0 :=
    cell_path_keep_hole r1 r2 A _ _ (cells_nodup Cell.pp1 A hA h1c) hoff2 hb
  have l2 : cell_load r2 r.tp0 = r1.pp2 := by
    rw [hr2, htp0]
    exact cell_load_store_same r1 r.tp0 _
  have hd : cell_path r2 Cell.pp2 B r.tp1 :=
    cell_path_keep r1 r2 B _ _
      (fun c hc => hoff2 c (fun e => cells_apart A B hAB r.tp0 hm0 (e ▸ hc))) ha
  have l3 : cell_load r2 r.tp1 = none := (hoff2 _ hne01).trans l1
  have l4 : cell_load r2 Cell.pp2 = r1.pp2 :=
    hoff2 _ (fun e => cells_apart A B hAB r.tp0 hm0 (e ▸ List.mem_cons_self _ _))
  have he : free_chain r2.st (cell_load r2 Cell.pp2) (B ++ []) :=
    free_chain_of_path r2 [] B _ _ hd l3
  rw [List.append_nil, l4, ← l2] at he
  have hf : free_chain r2.st (cell_load r2 Cell.pp1) (A ++ B) :=
    free_chain_of_path r2 B A _ _ hcc he
  have hlo1 : links_only r.st r1.st l := by
    rw [hr1]
    exact cell_store_links_only r r.tp1 none l
      (fun i e => hBl i (link_mem_cells i B Cell.pp2 h2c (e ▸ hm1)))
  have hlo2 : links_only r1.st r2.st l := by
    rw [hr2, htp0]
    exact cell_store_links_only r1 r.tp0 _ l
      (fun i e => hAl i (link_mem_cells i A Cell.pp1 h1c (e ▸ hm0)))
  have hlo3 := links_only_trans _ _ _ _ (links_only_trans _ _ _ _ hlo' hlo1) hlo2
  refine ⟨_, hres, ?_, hperm, (List.Perm.nodup_iff hperm).2 hnd, ?_, low_frame_iff⟩
  · exact free_chain_congr r2.st _ (A ++ B) _ (fun _ _ => rfl) hf
  · exact hlo3

/-! ## Concrete runs -/

theorem machine_WF (mem : Nat → Nat) (head : Option Nat) (link : Nat → Option Nat)
    (ref : Nat → Nat) (hhead : ∀ h, head = some h → h < 8)
    (hlink : ∀ i j, link i = some j → j < 8) (href : ∀ i, ref i < PP_REF_MOD) :
    WF (machine mem head link ref) :=
  { npages_le := by
      show 8 ≤ 2 ^ 20
      norm_num
    paddr_eq := fun _ _ => rfl
    ref_lt := href
    head_lt := hhead
    link_lt := hlink }

theorem stA_WF : WF stA :=
  machine_WF _ _ _ _ (fun _ h => by cases h) (fun _ _ h => by cases h) (fun _ => by decide)

theorem stB_WF : WF stB :=
  machine_WF _ _ _ _ (fun _ h => by cases h) (fun _ _ h => by cases h) (fun _ => by decide)

theorem stC_WF : WF stC :=
  machine_WF _ _ _ _ (fun _ h => by cases h) (fun _ _ h => by cases h) (fun _ => by decide)

theorem stO_WF : WF stO :=
  machine_WF _ _ _ _ (fun _ h => by cases h) (fun _ _ h => by cases h)
    (fun i => by
      show (if i = 4 then 65535 else 1) < PP_REF_MOD
      split <;> decide)

/-- C1 (witness). The machine `stA`, frame 0 inserted at address 0. -/
theorem page_insert_frame_zero_witness :
    ∃ s', page_insert stA 0x1000 (some 0) 0 PTE_W = Outcome.ret (0, s') ∧
      s'.pages = stA.pages ∧
      (s'.pages 0).pp_ref = (stA.pages 0).pp_ref ∧
      present (rd s' (leaf_slot stA 0x1000 0)) :=
  page_insert_frame_zero_not_counted stA 0x1000 0 PTE_W (by decide) rfl rfl

/-- C2 (counterexample). Frame 2 is mapped at address 0 of `stB`; re-inserting
it with `perm = 0x1000` returns 0, after which `page_lookup` finds frame 3
there: frame 2 is no longer the frame mapped at the address. -/
theorem page_insert_same_frame_counterexample :
    WF stB ∧ mapped stB 0x1000 0 2 ∧
    ∃ s', page_insert stB 0x1000 (some 2) 0 0x1000 = Outcome.ret (0, s') ∧
      page_lookup s' 0x1000 0 = Outcome.ret (some 3, some 0x3000, s') ∧
      ¬ mapped s' 0x1000 0 2 :=
  ⟨stB_WF, by decide, _, rfl, rfl, by decide⟩

/-- C2 (witness). Frame 2 re-inserted at address 0 of `stB` with user and
write permission. -/
theorem page_insert_same_frame_witness :
    ∃ s', page_insert stB 0x1000 (some 2) 0 (PTE_W ||| PTE_U) = Outcome.ret (0, s') ∧
      (s'.pages 2).pp_ref = (stB.pages 2).pp_ref ∧
      s'.pages = stB.pages ∧ s'.page_free_list = stB.page_free_list ∧
      (on_free_list s' 2 ↔ on_free_list stB 2) ∧
      mapped s' 0x1000 0 2 :=
  page_insert_same_frame stB stB_WF 0x1000 2 0 (PTE_W ||| PTE_U) (by decide) (by decide)

/-- C3 (counterexample). Three inputs at which a different frame is mapped
with count 1 and the insert returns 0. In `stB`, with `perm = 0x1000`,
`page_lookup` afterwards returns frame 5, not the inserted frame 4. In `stC`
at `0x401000`, whose leaf slot is the directory entry itself, `page_lookup`
afterwards finds no mapping. In `stO`, where frame 4 has count 65535, the
count of frame 4 afterwards is 0. -/
theorem page_insert_replaces_counterexample :
    (WF stB ∧ mapped stB 0x1000 0 2 ∧ 1 ≤ (stB.pages 2).pp_ref ∧
      ∃ s', page_insert stB 0x1000 (some 4) 0 0x1000 = Outcome.ret (0, s') ∧
        page_lookup s' 0x1000 0 = Outcome.ret (some 5, some 0x3000, s')) ∧
    (WF stC ∧ mapped stC 0x1000 0x401000 1 ∧ 1 ≤ (stC.pages 1).pp_ref ∧
      ∃ s', page_insert stC 0x1000 (some 3) 0x401000 PTE_W = Outcome.ret (0, s') ∧
        page_lookup s' 0x1000 0x401000 = Outcome.ret (none, some 0x3004, s')) ∧
    (WF stO ∧ mapped stO 0x1000 0 2 ∧ 1 ≤ (stO.pages 2).pp_ref ∧
      (stO.pages 4).pp_ref = 65535 ∧
      ∃ s', page_insert stO 0x1000 (some 4) 0 PTE_W = Outcome.ret (0, s') ∧
        (s'.pages 4).pp_ref = 0) :=
  ⟨⟨stB_WF, by decide, by decide, _, rfl, rfl⟩,
    ⟨stC_WF, by decide, by decide, _, rfl, rfl⟩,
    ⟨stO_WF, by decide, by decide, rfl, _, rfl, rfl⟩⟩

/-- C3 (witness). Frame 4 inserted with write permission at address 0 of
`stB`, where frame 2 is mapped. -/
theorem page_insert_replaces_witness :
    ∃ s', page_insert stB 0x1000 (some 4) 0 PTE_W = Outcome.ret (0, s') ∧
      (s'.pages 2).pp_ref = (stB.pages 2).pp_ref - 1 ∧
      (s'.pages 4).pp_ref = (stB.pages 4).pp_ref + 1 ∧
      page_lookup s' 0x1000 0
        = Outcome.ret (some 4, some (leaf_slot stB 0x1000 0), s') ∧
      ((s'.pages 2).pp_ref = 0 →
        ∀ alloc_flags, ∃ t, page_alloc s' alloc_flags = Outcome.ret (some 2, t)) :=
  page_insert_replaces stB stB_WF 0x1000 4 2 0 PTE_W (by decide) (by decide) (by decide)
    (by decide) (by decide) (by decide) (by decide)

/-- C4 (counterexample). In `stC` the directory is its own table for the
addresses of directory index 1; the leaf entry of `0x400000` is directory
entry 0, present, mapping frame 2 with count 1. `page_remove` at `0x400000`
clears directory entry 0. -/
theorem page_remove_counterexample :
    WF stC ∧ mapped stC 0x1000 0x400000 2 ∧ 1 ≤ (stC.pages 2).pp_ref ∧
    ∃ s', page_remove stC 0x1000 0x400000 = Outcome.ret s' ∧
      rd stC (pde_slot 0x1000 0) = 0x2003 ∧ rd s' (pde_slot 0x1000 0) = 0 :=
  ⟨stC_WF, by decide, by decide, _, rfl, rfl, rfl⟩

/-- C4 (witness). The mapping of frame 2 at address 0 of `stB` removed. -/
theorem page_remove_mapped_witness :
    ∃ s', page_remove stB 0x1000 0 = Outcome.ret s' ∧
      (s'.pages 2).pp_ref = (stB.pages 2).pp_ref - 1 ∧
      ((stB.pages 2).pp_ref = 1 →
        s'.page_free_list = some 2 ∧ (s'.pages 2).pp_link = stB.page_free_list) ∧
      ((stB.pages 2).pp_ref ≠ 1 →
        s'.page_free_list = stB.page_free_list ∧
        (s'.pages 2).pp_link = (stB.pages 2).pp_link) ∧
      rd s' (leaf_slot stB 0x1000 0) = 0 ∧
      (∃ ps, page_lookup s' 0x1000 0 = Outcome.ret (none, ps, s')) ∧
      (∀ a, a ≠ leaf_slot stB 0x1000 0 → rd s' a = rd stB a) ∧
      ((∀ k, k < NPDENTRIES → leaf_slot stB 0x1000 0 ≠ 0x1000 + 4 * k) →
        ∀ k, k < NPDENTRIES → rd s' (0x1000 + 4 * k) = rd stB (0x1000 + 4 * k)) ∧
      (∀ i, i ≠ 2 → s'.pages i = stB.pages i) :=
  page_remove_mapped_spec stB stB_WF 0x1000 0 2 (by decide) (by decide)

/-- C5 (witness). In `stA` address 0 has a table but no present leaf entry,
and address `0x400000` has no directory entry. -/
theorem page_remove_unmapped_witness :
    page_remove stA 0x1000 0 = Outcome.ret stA ∧
    page_remove stA 0x1000 0x400000 = Outcome.ret stA :=
  ⟨page_remove_unmapped stA 0x1000 0 (Or.inr (by decide)),
    page_remove_unmapped stA 0x1000 0x400000 (Or.inl (by decide))⟩

/-- C7 (counterexample). In `stC` the leaf slot of `0x401000` is the directory
entry covering it. `page_insert` of frame 3 there returns 0; afterwards the
directory entry points at frame 3 and the leaf entry `pgdir_walk` finds for
`0x401000` is the word at `0x3004`, which is 0 and not
`page2pa (3) | PTE_W | PTE_P`. -/
theorem page_insert_installs_counterexample :
    WF stC ∧ 3 < stC.npages ∧ PTE_W < 4096 ∧
    ∃ s', page_insert stC 0x1000 (some 3) 0x401000 PTE_W = Outcome.ret (0, s') ∧
      pgdir_walk s' 0x1000 0x401000 NO_CREATE = Outcome.ret (some 0x3004, s') ∧
      rd s' 0x3004 = 0 ∧ page2pa 3 ||| PTE_W ||| PTE_P = 0x3003 :=
  ⟨stC_WF, by decide, by decide, _, rfl, rfl, rfl, rfl⟩

/-- C7 (witness). Frame 3 inserted with write permission at address 0 of
`stA`. -/
theorem page_insert_installs_witness :
    ∃ s', page_insert stA 0x1000 (some 3) 0 PTE_W = Outcome.ret (0, s') ∧
      ∃ q, pgdir_walk s' 0x1000 0 NO_CREATE = Outcome.ret (some q, s') ∧
        rd s' q = page2pa 3 ||| PTE_W ||| PTE_P ∧
        rd s' (pde_slot 0x1000 0) &&& PTE_W = PTE_W ∧
        PGNUM (PTE_ADDR (rd s' q)) = 3 ∧
        rd s' q % 4096 = PTE_W ||| PTE_P :=
  ⟨_, rfl, page_insert_installs stA stA_WF 0x1000 3 0 PTE_W _ (by decide) (by decide)
    (by
      intro q s1 h
      have e : pgdir_walk stA 0x1000 0 CREATE = Outcome.ret (some 0x2000, stA) := rfl
      rw [e] at h
      simp only [Outcome.ret.injEq, Prod.mk.injEq, Option.some.injEq] at h
      rw [← h.1]
      decide)
    rfl⟩

/-- C8 (witness). Lookups in `stB`: address 0 is mapped to frame 2, address
`0x1000` has a table and no present leaf entry, `0x400000` has no table. -/
theorem page_lookup_witness :
    page_lookup stB 0x1000 0 = Outcome.ret (some 2, some 0x3000, stB) ∧
    page_lookup stB 0x1000 0x1000 = Outcome.ret (none, some 0x3004, stB) ∧
    page_lookup stB 0x1000 0x400000 = Outcome.ret (none, none, stB) :=
  ⟨(page_lookup_spec stB 0x1000 0).2.2.2.2 (by decide) (by decide) (by decide),
    (page_lookup_spec stB 0x1000 0x1000).2.2.2.1 (by decide) (by decide),
    (page_lookup_spec stB 0x1000 0x400000).2.2.1 (by decide)⟩

theorem stN_WF : WF stN :=
  machine_WF _ _ _ _ (fun _ h => by cases h) (fun _ _ h => by cases h)
    (fun _ => by decide)

/-- C8 (counterexample). In `stN` the table of address 0 exists and its leaf
entry `0x9003` is present, with page number 9 on a machine of 8 frames:
`page_lookup` returns neither `NULL` nor a descriptor, `pa2page` halts the
kernel. -/
theorem page_lookup_counterexample :
    WF stN ∧ table_ok stN 0x1000 0 ∧ rd stN (leaf_slot stN 0x1000 0) = 0x9003 ∧
    present (rd stN (leaf_slot stN 0x1000 0)) ∧
    PGNUM (rd stN (leaf_slot stN 0x1000 0)) = 9 ∧ stN.npages = 8 ∧
    page_lookup stN 0x1000 0 = Outcome.halt :=
  ⟨stN_WF, by decide, rfl, by decide, by decide, rfl, rfl⟩

/-- C9 (witness). `page_alloc` with zero fill on the free list 3, 4 of
`stF`. -/
theorem page_alloc_pops_head_witness :
    ∃ s', page_alloc stF ALLOC_ZERO = Outcome.ret (some 3, s') ∧
      s'.page_free_list = (stF.pages 3).pp_link ∧
      (s'.pages 3).pp_ref = 0 ∧
      (s'.pages 3).pp_link = none ∧
      ¬ on_free_list s' 3 ∧
      (∀ i, i ≠ 3 → (s'.pages i).pp_link = (stF.pages i).pp_link ∧
        (s'.pages i).pp_ref = (stF.pages i).pp_ref) :=
  page_alloc_pops_head stF ALLOC_ZERO 3 [4] ⟨rfl, rfl, rfl⟩ (by decide) (fun _ => by decide)

/-- C10 (witness). `page_alloc` on the empty free list of `stA`. -/
theorem page_alloc_null_witness :
    page_alloc stA ALLOC_ZERO = Outcome.ret (none, stA) ∧
    ¬ ∃ s', page_alloc stF 0 = Outcome.ret (none, s') :=
  ⟨(page_alloc_null_iff_empty stA ALLOC_ZERO).2 rfl,
    fun h => nomatch ((page_alloc_null_iff_empty stF 0).1.1 h)⟩

theorem stF_WF : WF stF :=
  machine_WF _ _ _ _
    (fun h e => by
      have e1 : h = 3 := (Option.some.inj e).symm
      rw [e1]; decide)
    (fun i j e => by
      have e1 : (if i = 3 then some 4 else none) = some j := e
      split at e1
      · rw [← Option.some.inj e1]; decide
      · cases e1)
    (fun _ => by decide)

theorem stF_chain : free_chain stF stF.page_free_list [3, 4] := ⟨rfl, rfl, rfl⟩

theorem stF_not_free (p : Nat) (h : p ∉ [3, 4]) : ¬ on_free_list stF p :=
  fun hf => h ((free_chain_follow stF p [3, 4] _ stF_chain).1 hf)

theorem no_list_not_free (s : State) (h : s.page_free_list = none) (p : Nat) :
    ¬ on_free_list s p := by
  rintro ⟨k, hk⟩
  rw [h, follow_none] at hk
  cases hk

theorem stM_WF : WF stM :=
  machine_WF _ _ _ _
    (fun h e => by
      have e1 : h = 3 := (Option.some.inj e).symm
      rw [e1]; decide)
    (fun i j e => by
      have e1 : (if i = 3 then some 4 else none) = some j := e
      split at e1
      · rw [← Option.some.inj e1]; decide
      · cases e1)
    (fun _ => by decide)

/-- C11 (witness). In `stM` the bytes of the frames 3 and 4 read `0xAA` and
those of frame 5 `0x56` (at offset 1). `page_alloc` with `ALLOC_ZERO` returns
frame 3 with every byte 0 and leaves the bytes of every other frame, `0xAA` in
frame 4; `page_alloc` without it returns frame 3 with its bytes as they were,
`0xAA`. -/
theorem page_alloc_contents_witness :
    rd_byte stM (page2pa 3 + 1) = 0xAA ∧ rd_byte stM (page2pa 4 + 1) = 0xAA ∧
    rd_byte stM (page2pa 5 + 1) = 0x56 ∧
    (∃ s', page_alloc stM ALLOC_ZERO = Outcome.ret (some 3, s') ∧
      (∀ b, b < PGSIZE → rd_byte s' (page2pa 3 + b) = 0) ∧
      (∀ j, j < stM.npages → j ≠ 3 →
        ∀ b, b < PGSIZE → rd_byte s' (page2pa j + b) = rd_byte stM (page2pa j + b)) ∧
      rd_byte s' (page2pa 4 + 1) = 0xAA ∧ rd_byte s' (page2pa 5 + 1) = 0x56) ∧
    (∃ s', page_alloc stM 0 = Outcome.ret (some 3, s') ∧
      (∀ b, b < PGSIZE → rd_byte s' (page2pa 3 + b) = rd_byte stM (page2pa 3 + b)) ∧
      (∀ j, j < stM.npages → j ≠ 3 →
        ∀ b, b < PGSIZE → rd_byte s' (page2pa j + b) = rd_byte stM (page2pa j + b)) ∧
      rd_byte s' (page2pa 3 + 1) = 0xAA ∧ rd_byte s' (page2pa 4 + 1) = 0xAA) :=
  ⟨by decide, by decide, by decide,
    ⟨_, rfl,
      (page_alloc_contents stM stM_WF ALLOC_ZERO 3 _ rfl).1 (by decide),
      (page_alloc_contents stM stM_WF ALLOC_ZERO 3 _ rfl).2.2,
      ((page_alloc_contents stM stM_WF ALLOC_ZERO 3 _ rfl).2.2 4 (by decide) (by decide)
        1 (by decide)).trans (by decide),
      ((page_alloc_contents stM stM_WF ALLOC_ZERO 3 _ rfl).2.2 5 (by decide) (by decide)
        1 (by decide)).trans (by decide)⟩,
    ⟨_, rfl,
      (page_alloc_contents stM stM_WF 0 3 _ rfl).2.1 (by decide),
      (page_alloc_contents stM stM_WF 0 3 _ rfl).2.2,
      ((page_alloc_contents stM stM_WF 0 3 _ rfl).2.1 (by decide) 1 (by decide)).trans
        (by decide),
      ((page_alloc_contents stM stM_WF 0 3 _ rfl).2.2 4 (by decide) (by decide)
        1 (by decide)).trans (by decide)⟩⟩

/-- C12 (witness). Frame 5 of `stF` freed: it becomes the head, in front of
frame 3. -/
theorem page_free_witness :
    (page_free stF (some 5)).page_free_list = some 5 ∧
    ((page_free stF (some 5)).pages 5).pp_link = some 3 ∧
    ((page_free stF (some 5)).pages 5).pp_ref = (stF.pages 5).pp_ref :=
  ⟨((page_free_spec stF 5).2.2 (by decide)).1,
    ((page_free_spec stF 5).2.2 (by decide)).2.1,
    ((page_free_spec stF 5).2.2 (by decide)).2.2.1⟩

/-- C13 (witness). Frame 2 of `stB` has count 1 and is not free; the
decrement frees it. -/
theorem page_decref_counts_witness :
    ((page_decref stB 2).pages 2).pp_ref = (stB.pages 2).pp_ref - 1 ∧
    ((stB.pages 2).pp_ref = 1 →
      (page_decref stB 2).page_free_list = some 2 ∧
      ((page_decref stB 2).pages 2).pp_link = stB.page_free_list) ∧
    ((stB.pages 2).pp_ref ≠ 1 →
      (page_decref stB 2).page_free_list = stB.page_free_list ∧
      ∀ i, ((page_decref stB 2).pages i).pp_link = (stB.pages i).pp_link) ∧
    (on_free_list (page_decref stB 2) 2 ↔ (stB.pages 2).pp_ref = 1) ∧
    (∀ i, i ≠ 2 → ((page_decref stB 2).pages i).pp_ref = (stB.pages i).pp_ref) :=
  page_decref_counts stB stB_WF 2 (by decide) (by decide) (no_list_not_free stB rfl 2)

/-- C14 (counterexample). Frame 5 of `stF` has count 0. `page_decref` has no
check and is a total function of the state: it returns, with the count of
frame 5 at 65535 and the free list as it was. -/
theorem page_decref_zero_counterexample :
    (stF.pages 5).pp_ref = 0 ∧
    ((page_decref stF 5).pages 5).pp_ref = 65535 ∧
    (page_decref stF 5).page_free_list = stF.page_free_list :=
  ⟨rfl, rfl, rfl⟩

/-- C14 (witness). The amended statement at frame 5 of `stF`. -/
theorem page_decref_zero_wraps_witness :
    page_decref stF 5 = set_ref stF 5 65535 ∧
    ((page_decref stF 5).pages 5).pp_ref = 65535 ∧
    (page_decref stF 5).page_free_list = stF.page_free_list ∧
    (∀ i, ((page_decref stF 5).pages i).pp_link = (stF.pages i).pp_link) ∧
    (∀ i, i ≠ 5 → (page_decref stF 5).pages i = stF.pages i) :=
  page_decref_zero_wraps stF 5 rfl

/-- C15 (witness). The machine of 32 frames with the hole at frames 16 to 20
and the bootstrap mark at frame 24: 23 frames are free, 1 to 15 and 24 to
31. -/
theorem page_init_free_list_witness :
    ∃ b' s' l, page_init 0 0x10000 0x15000 (boot_at 24 8) (blank 32)
        = Outcome.ret (b', s') ∧
      free_chain s' s'.page_free_list l ∧
      l = List.range' 1 15 ++ List.range' 24 8 ∧
      l.Nodup ∧
      (∀ j, j ∈ l ↔ (1 ≤ j ∧ j < 16) ∨ (24 ≤ j ∧ j < 32)) ∧
      (∀ j, on_free_list s' j ↔ j ∈ l) ∧
      l.length = 32 - 1 - 5 - 3 :=
  page_init_free_list 0 0x10000 0x15000 (boot_at 24 8) (blank 32)
    (by decide) (by decide) (by decide) (by decide) (by decide) (Or.inl (by decide))

/-- C16 (counterexample). The machine of 32 frames with the hole at frames 16
to 20: after `page_init` frame 16, the first frame of the hole, has count
0. -/
theorem page_init_counts_counterexample :
    PGNUM 0x10000 ≤ 16 ∧ 16 < PGNUM 0x15000 ∧
    ∃ b' s', page_init 0 0x10000 0x15000 (boot_at 24 8) (blank 32)
        = Outcome.ret (b', s') ∧
      (s'.pages 16).pp_ref = 0 :=
  ⟨by decide, by decide, _, _, rfl, rfl⟩

/-- C16 (witness). The machine of 32 frames with the hole at frames 16 to 20
and the bootstrap mark at frame 24. -/
theorem page_init_counts_witness :
    ∃ b' s', page_init 0 0x10000 0x15000 (boot_at 24 8) (blank 32)
        = Outcome.ret (b', s') ∧
      (s'.pages 0).pp_ref = 1 ∧ ¬ on_free_list s' 0 ∧
      (∀ j, 21 ≤ j → j < 24 → (s'.pages j).pp_ref = 1 ∧ ¬ on_free_list s' j) ∧
      (∀ j, 16 ≤ j → j < 21 → (s'.pages j).pp_ref = 0 ∧ ¬ on_free_list s' j) ∧
      (∀ j, on_free_list s' j → (s'.pages j).pp_ref = 0) :=
  page_init_counts 0 0x10000 0x15000 (boot_at 24 8) (blank 32)
    (by decide) (by decide) (by decide) (by decide) (by decide)

/-- C17 (witness). The free list 3, 4 of `stF` allocated to exhaustion, the
first frame with zero fill, and freed again. -/
theorem page_alloc_free_round_trip_witness :
    ∃ t, page_alloc_seq stF [ALLOC_ZERO, 0] = Outcome.ret ([some 3, some 4], t) ∧
      ([3, 4].map some).Nodup ∧
      (∀ x, x ∈ [3, 4] → (t.pages x).paddr = page2pa x ∧ page2pa x < stF.npages * PGSIZE) ∧
      (∀ f, page_alloc t f = Outcome.ret (none, t)) ∧
      ∀ o, o.Perm [3, 4] →
        free_chain (page_free_seq t o) (page_free_seq t o).page_free_list o.reverse ∧
        (∀ j, on_free_list (page_free_seq t o) j ↔ on_free_list stF j) ∧
        o.reverse.length = [3, 4].length :=
  page_alloc_free_round_trip stF stF_WF [3, 4] ⟨rfl, rfl, rfl⟩ (by decide)
    [ALLOC_ZERO, 0] rfl

/-- C18 (witness). Frame 5 of `stF` freed and allocated again. -/
theorem page_free_then_alloc_witness :
    ∃ t, page_alloc (page_free stF (some 5)) 0 = Outcome.ret (some 5, t) ∧
      t.page_free_list = stF.page_free_list ∧
      (∀ k, follow t k t.page_free_list = follow stF k stF.page_free_list) ∧
      (∀ l, free_chain stF stF.page_free_list l → free_chain t t.page_free_list l) ∧
      (∀ i, i ≠ 5 → t.pages i = stF.pages i) :=
  page_free_then_alloc stF 5 0 (by decide) (stF_not_free 5 (by decide))

/-- C19 (witness). The directory of `stF` is empty: a walk without `create`
returns `NULL`, and one with `create` does not, the free list being
non-empty. -/
theorem pgdir_walk_null_witness :
    (∃ s', pgdir_walk stF 0x1000 0 NO_CREATE = Outcome.ret (none, s')) ∧
    ¬ ∃ s', pgdir_walk stF 0x1000 0 CREATE = Outcome.ret (none, s') :=
  ⟨(pgdir_walk_null_iff stF 0x1000 0 NO_CREATE).1.2 ⟨by decide, Or.inl rfl⟩,
    fun h => ((pgdir_walk_null_iff stF 0x1000 0 CREATE).1.1 h).2.elim
      (fun e => by revert e; decide) (fun e => nomatch e)⟩

/-- C20 (witness). A walk with `create` at address 0 in the empty directory of
`stF`: frame 3, the head of the free list, becomes the table. -/
theorem pgdir_walk_creates_witness :
    ∃ s', pgdir_walk stF 0x1000 0 CREATE
        = Outcome.ret (some (page2pa 3 + 4 * PTX 0), s') ∧
      (s'.pages 3).pp_ref = 1 ∧
      (∀ k, k < NPTENTRIES → rd s' (page2pa 3 + 4 * k) = 0) ∧
      present (rd s' (pde_slot 0x1000 0)) ∧
      PGNUM (rd s' (pde_slot 0x1000 0)) = 3 ∧
      PTE_ADDR (rd s' (pde_slot 0x1000 0)) = page2pa 3 :=
  pgdir_walk_creates stF stF_WF 0x1000 0 CREATE 3 (by decide) (by decide) rfl
    (Or.inl (by decide))

/-- C21 (counterexample). A walk with `create` in the empty directory of
`stF` creates the table of address 0 in frame 3; the directory entry is
`0x3003`, with the user-accessible bit clear. -/
theorem pgdir_walk_entry_counterexample :
    ¬ present (rd stF (pde_slot 0x1000 0)) ∧
    ∃ q s', pgdir_walk stF 0x1000 0 CREATE = Outcome.ret (some q, s') ∧
      rd s' (pde_slot 0x1000 0) = 0x3003 ∧
      rd s' (pde_slot 0x1000 0) &&& PTE_U = 0 :=
  ⟨by decide, _, _, rfl, rfl, rfl⟩

/-- C21 (witness). The walk with `create` at address 0 of `stF`. -/
theorem pgdir_walk_entry_bits_witness :
    ∃ q s', pgdir_walk stF 0x1000 0 CREATE = Outcome.ret (some q, s') ∧
      rd s' (pde_slot 0x1000 0) = page2pa 3 ||| PTE_P ||| PTE_W ∧
      rd s' (pde_slot 0x1000 0) &&& PTE_P = PTE_P ∧
      rd s' (pde_slot 0x1000 0) &&& PTE_W = PTE_W ∧
      rd s' (pde_slot 0x1000 0) &&& PTE_U = 0 ∧
      PTE_ADDR (rd s' (pde_slot 0x1000 0)) = page2pa 3 :=
  pgdir_walk_entry_bits stF stF_WF 0x1000 0 CREATE 3 (by decide) (by decide) rfl

/-- C25 (witness). A fault with the kernel code segment `0x08` saved. -/
theorem page_fault_kernel_witness :
    page_fault_handler stB 0x08 0 0x1000 = Handled.panicked stB 0 :=
  page_fault_kernel_panics stB 0x08 0 0x1000 (by decide)

/-- C26 (witness). Faults with the user code segment `0x1B` saved, in the
directory of `stB`: address `0x400000` has no table and the handler reads
through `NULL`; address 0 has one and the environment is destroyed. -/
theorem page_fault_user_witness :
    SEL_PL 0x1B = 3 ∧
    page_fault_handler stB 0x1B 0x400000 0x1000 = Handled.null_read stB 0 ∧
    page_fault_handler stB 0x1B 0 0x1000 = Handled.returned stB 1 :=
  ⟨by decide, (page_fault_user stB 0x1B 0x400000 0x1000 (by decide)).1 (by decide),
    (page_fault_user stB 0x1B 0 0x1000 (by decide)).2 (by decide)⟩

/-- C27 (witness). Eight frames, the mark at frame 3; `0x2800` bytes take
three frames and the mark moves to frame 6. -/
theorem boot_alloc_spec_witness :
    ∃ b', boot_alloc 0 8 (boot_at 3 8) 0x2800
        = Outcome.ret (boot_mark 0 (boot_at 3 8), b') ∧
      boot_mark 0 (boot_at 3 8) % PGSIZE = 0 ∧
      b'.nextfree % PGSIZE = 0 ∧
      boot_mark 0 b' = boot_mark 0 (boot_at 3 8) + amount_pages 0x2800 * PGSIZE ∧
      boot_avail 8 b' = boot_avail 8 (boot_at 3 8) - amount_pages 0x2800 ∧
      0x2800 ≤ amount_pages 0x2800 * PGSIZE ∧
      amount_pages 0x2800 * PGSIZE < 0x2800 + PGSIZE ∧
      (0x2800 = 0 → boot_mark 0 b' = boot_mark 0 (boot_at 3 8) ∧
        boot_avail 8 b' = boot_avail 8 (boot_at 3 8)) ∧
      (∀ m, amount_pages m ≤ boot_avail 8 b' →
        ∃ b2, boot_alloc 0 8 b' m
          = Outcome.ret (boot_mark 0 (boot_at 3 8) + amount_pages 0x2800 * PGSIZE, b2)) :=
  boot_alloc_spec 0 8 (boot_at 3 8) 0x2800 (by decide) (by decide) (by decide)

/-- C28 (witness). Eight frames and a kernel image that ends inside frame 2:
the first call, for `0x6000` bytes, does not halt although the region it
returns, frames 3 to 8, ends beyond the last frame of the machine. -/
theorem boot_alloc_overrun_witness :
    boot_mark (KERNBASE + 0x2800) (Boot.mk 0 0 none) = KERNBASE + 0x3000 ∧
    8 * PGSIZE < 0x3000 + amount_pages 0x6000 * PGSIZE ∧
    boot_alloc (KERNBASE + 0x2800) 8 (Boot.mk 0 0 none) 0x6000 ≠ Outcome.halt ∧
    ∃ b', boot_alloc (KERNBASE + 0x2800) 8 (Boot.mk 0 0 none) 0x6000
      = Outcome.ret (boot_mark (KERNBASE + 0x2800) (Boot.mk 0 0 none), b') :=
  ⟨by decide, by decide,
    fun h => absurd ((boot_alloc_halts_iff (KERNBASE + 0x2800) 8
      (Boot.mk 0 0 none) 0x6000).1.1 h) (by decide),
    (boot_alloc_halts_iff (KERNBASE + 0x2800) 8 (Boot.mk 0 0 none) 0x6000).2 (by decide)⟩

/-- C24 (counterexample). `boot_map_region` on `stF` maps two pages at
address 0 to the physical range of frames 3 and 4. The table it needs is
taken from the free list: frame 3, inside the mapped range, whose count goes
from 0 to 1. -/
theorem boot_map_region_counts_counterexample :
    ∃ s', boot_map_region stF 0x1000 0 0x2000 0x3000 PTE_W = Outcome.ret s' ∧
      0x3000 ≤ page2pa 3 ∧ page2pa 3 < 0x3000 + ROUNDUP 0x2000 PGSIZE ∧
      (stF.pages 3).pp_ref = 0 ∧ (s'.pages 3).pp_ref = 1 :=
  ⟨_, rfl, by decide, by decide, rfl, rfl⟩

/-- C24 (witness). The same call: the counts of the frames that were not
free are as before. -/
theorem boot_map_region_counts_witness :
    ∃ s', boot_map_region stF 0x1000 0 0x2000 0x3000 PTE_W = Outcome.ret s' ∧
      (∀ f, ¬ on_free_list stF f → (s'.pages f).pp_ref = (stF.pages f).pp_ref) ∧
      (∀ f, (s'.pages f).pp_ref ≠ (stF.pages f).pp_ref →
        on_free_list stF f ∧ (s'.pages f).pp_ref = 1) :=
  ⟨_, rfl, boot_map_region_counts stF 0x1000 0 0x2000 0x3000 PTE_W _ rfl⟩

theorem stR_WF : WF stR :=
  machine_WF _ _ _ _
    (fun h e => by
      have e1 : h = 2 := (Option.some.inj e).symm
      rw [e1]; decide)
    (fun _ _ h => by cases h)
    (fun i => by
      show (if i = 2 then 0 else 1) < PP_REF_MOD
      split <;> decide)

theorem stP_WF : WF stP :=
  machine_WF _ _ _ _
    (fun h e => by
      have e1 : h = 4 := (Option.some.inj e).symm
      rw [e1]; decide)
    (fun _ _ h => by cases h)
    (fun i => by
      show (if i = 4 then 0 else 1) < PP_REF_MOD
      split <;> decide)

theorem stR_ok : free_list_ok stR :=
  ⟨[2], ⟨rfl, rfl⟩, by decide, fun x hx => by
    have e : x = 2 := by simpa using hx
    rw [e]
    exact ⟨by decide, rfl⟩⟩

theorem stP_ok : free_list_ok stP :=
  ⟨[4], ⟨rfl, rfl⟩, by decide, fun x hx => by
    have e : x = 4 := by simpa using hx
    rw [e]
    exact ⟨by decide, rfl⟩⟩

theorem stF_ok : free_list_ok stF :=
  ⟨[3, 4], stF_chain, by decide, fun x hx => by
    have e : x = 3 ∨ x = 4 := by simpa using hx
    rcases e with e | e <;> rw [e] <;> exact ⟨by decide, rfl⟩⟩

/-- C30 (counterexample). In `stR` the free list is frame 2 alone, with count
0, and it is well formed; frame 2 is also mapped at address 0. `page_remove`
there returns with the count of frame 2 at 65535 and the frame still the
head of the list. In `stP` the frame mapped at address 0 is not free, and
`page_insert` of frame 5, not free either, with `perm = 0x4002` sends the
directory entry to frame 6, where the entry unmapped is one for frame 4, the
head of the list: its count ends at 65535. -/
theorem free_list_ok_counterexample :
    (free_list_ok stR ∧ mapped stR 0x1000 0 2 ∧
      ∃ s', page_remove stR 0x1000 0 = Outcome.ret s' ∧
        s'.page_free_list = some 2 ∧ (s'.pages 2).pp_ref = 65535 ∧
        ¬ free_list_ok s') ∧
    (WF stP ∧ free_list_ok stP ∧ ¬ on_free_list stP 5 ∧
      (∀ g, mapped stP 0x1000 0 g → ¬ on_free_list stP g) ∧
      ∃ s', page_insert stP 0x1000 (some 5) 0 0x4002 = Outcome.ret (0, s') ∧
        s'.page_free_list = some 4 ∧ (s'.pages 4).pp_ref = 65535 ∧
        ¬ free_list_ok s') := by
  have hP : ∀ p, p ≠ 4 → ¬ on_free_list stP p := by
    intro p hp hon
    have := (free_chain_follow stP p [4] _ ⟨rfl, rfl⟩).1 hon
    simp at this
    exact hp this
  refine ⟨⟨stR_ok, by decide, _, rfl, rfl, rfl,
    not_free_list_ok_of_head _ 2 rfl (by decide)⟩,
    stP_WF, stP_ok, hP 5 (by decide), ?_, _, rfl, rfl, rfl,
    not_free_list_ok_of_head _ 4 rfl (by decide)⟩
  intro g hg
  have e : g = 3 := hg.2.2.1.symm
  rw [e]
  exact hP 3 (by decide)

/-- C30 (witness). `page_alloc` on the free list 3, 4 of `stF`, `page_decref`
of frame 2 of `stB`, and `page_init` on the machine of 32 frames. -/
theorem free_list_ok_kept_witness :
    (∃ s', page_alloc stF ALLOC_ZERO = Outcome.ret (some 3, s') ∧ free_list_ok s') ∧
    free_list_ok (page_decref stB 2) ∧
    (∃ b' s', page_init 0 0x10000 0x15000 (boot_at 24 8) (blank 32)
        = Outcome.ret (b', s') ∧ free_list_ok s') :=
  ⟨⟨_, rfl, free_list_ok_kept.2.1 stF ALLOC_ZERO _ _ stF_ok rfl⟩,
    free_list_ok_kept.2.2.1 stB 2 ⟨[], rfl, List.nodup_nil, fun _ h => by cases h⟩
      (by decide) (no_list_not_free stB rfl 2),
    free_list_ok_kept.1 0 0x10000 0x15000 (boot_at 24 8) (blank 32)
      (by decide) (by decide) (by decide) (by decide) (by decide)⟩

/-- C22 (counterexample). From `stF`, where no directory entry is present:
with the directory in frame 1, one successful `page_insert` at address
`0x1000` creates the table that also covers address 0, and the walk of
address 0 without `create` returns its slot; with the directory in frame 7,
a `page_insert` at address 0 with `perm = 0x4002` turns the directory entry
into one for frame 7, a second one at `0x1000` then stores its leaf entry
into directory entry 1, and the walk of `0x400000` finds a table. -/
theorem walk_not_found_counterexample :
    (∀ i, i < NPDENTRIES → ¬ present (rd stF (0x1000 + 4 * i))) ∧
    (∃ s', page_insert_seq stF 0x1000 [(5, 0x1000, PTE_W)] = Outcome.ret ([0], s') ∧
      pgdir_walk s' 0x1000 0 NO_CREATE = Outcome.ret (some 0x3000, s')) ∧
    (∀ i, i < NPDENTRIES → ¬ present (rd stF (0x7000 + 4 * i))) ∧
    PDX 0 ≠ PDX 0x400000 ∧ PDX 0x1000 ≠ PDX 0x400000 ∧
    (∃ s', page_insert_seq stF 0x7000 [(5, 0, 0x4002), (5, 0x1000, PTE_W)]
        = Outcome.ret ([0, 0], s') ∧
      pgdir_walk s' 0x7000 0x400000 NO_CREATE = Outcome.ret (some 0x5000, s')) :=
  ⟨fun _ _ => (by decide : ¬ present 0), ⟨_, rfl, rfl⟩,
    fun _ _ => (by decide : ¬ present 0), by decide, by decide, ⟨_, rfl, rfl⟩⟩

/-- C22 (witness). From `stF` with the directory in frame 1: frames 5 and 6
inserted at addresses 0 and `0x1000`; the walk of `0x400000` finds
nothing. -/
theorem walk_not_found_witness :
    ∃ rs s', page_insert_seq stF 0x1000 [(5, 0, PTE_W), (6, 0x1000, PTE_W)]
        = Outcome.ret (rs, s') ∧
      pgdir_walk s' 0x1000 0x400000 NO_CREATE = Outcome.ret (none, s') :=
  ⟨_, _, rfl, walk_not_found_after_inserts stF stF_WF 0x1000 0x400000 (by decide)
    (fun _ _ => (by decide : ¬ present 0)) (stF_not_free 1 (by decide))
    [(5, 0, PTE_W), (6, 0x1000, PTE_W)]
    (fun c hc => by
      have e : c = (5, 0, PTE_W) ∨ c = (6, 0x1000, PTE_W) := by simpa using hc
      rcases e with e | e <;> rw [e] <;> decide)
    _ _ rfl⟩

theorem stF_apart : TablesApart stF 0x1000 [3, 4] :=
  { wf := stF_WF
    chain := stF_chain
    nodup := by decide
    dir_not_free := by decide
    table_lt := fun _ _ hp => absurd hp (by decide : ¬ present 0)
    table_not_free := fun _ _ hp => absurd hp (by decide : ¬ present 0)
    apart := fun _ _ _ _ _ hp => absurd hp (by decide : ¬ present 0) }

theorem stV_WF : WF stV :=
  machine_WF _ _ _ _
    (fun h e => by
      have e1 : h = 3 := (Option.some.inj e).symm
      rw [e1]; decide)
    (fun i j e => by
      have e1 : (if i = 3 then some 4 else none) = some j := e
      split at e1
      · rw [← Option.some.inj e1]; decide
      · cases e1)
    (fun i => by
      show (if i = 1 then 1 else 0) < PP_REF_MOD
      split <;> decide)

theorem stV_entry (i : Nat) (hi : i < NPDENTRIES)
    (hp : present (rd stV (0x1000 + 4 * i))) :
    i = 1 ∧ rd stV (0x1000 + 4 * i) = 0x1005 := by
  have hN : NPDENTRIES = 1024 := rfl
  rw [hN] at hi
  by_cases h1 : i = 1
  · subst h1
    exact ⟨rfl, rfl⟩
  · exfalso
    have e : rd stV (0x1000 + 4 * i) = 0 := by
      show u32 (if 0x1000 + 4 * i = 0x1004 then 0x1005
        else if 0x1000 + 4 * i = 0x5004 then 0x7003 else 0) = 0
      rw [if_neg (by omega), if_neg (by omega)]
      rfl
    rw [e] at hp
    exact absurd hp (by decide)

theorem stV_apart : TablesApart stV 0x1000 [3, 4] :=
  { wf := stV_WF
    chain := ⟨rfl, rfl, rfl⟩
    nodup := by decide
    dir_not_free := by decide
    table_lt := fun i hi hp => by
      rw [(stV_entry i hi hp).2]
      decide
    table_not_free := fun i hi hp => by
      rw [(stV_entry i hi hp).2]
      decide
    apart := fun i j hi hj hne hpi hpj _ =>
      absurd ((stV_entry i hi hpi).1.trans (stV_entry j hj hpj).1.symm) hne }

/-- C23 (counterexample). In `stU` entry 1 of the directory points at the
directory itself. `boot_map_region` maps one page at `0x800000` and creates
the table of directory index 2 in frame 3. Address `0x402000` is outside the
mapped range; its leaf entry is directory entry 2, which was 0 and is now
`0x3003`, and `check_va2pa` goes from `~0` to `0x3000`. In `stV`, with the
same directory and its tables apart, the page mapped is at `0x400000`, inside
the window of entry 1: its leaf slot is directory entry 0, which becomes
`0x5003`, so that frame 5 is now the table of the first 4 MB, and the leaf
entry of `0x1000`, outside the mapped range and outside the window, goes from
0 to `0x7003`, `check_va2pa` from `~0` to `0x7000`. -/
theorem boot_map_region_maps_counterexample :
    (0x800000 % PGSIZE = 0 ∧ 0x5000 % PGSIZE = 0 ∧ PTE_W < 4096 ∧
      0x402000 < 0x800000 ∧
      ∃ s', boot_map_region stU 0x1000 0x800000 0x1000 0x5000 PTE_W = Outcome.ret s' ∧
        check_va2pa s' 0x1000 0x800000 = Outcome.ret 0x5000 ∧
        pte stU 0x1000 0x402000 = 0 ∧ pte s' 0x1000 0x402000 = 0x3003 ∧
        check_va2pa stU 0x1000 0x402000 = Outcome.ret 0xFFFFFFFF ∧
        check_va2pa s' 0x1000 0x402000 = Outcome.ret 0x3000) ∧
    (TablesApart stV 0x1000 [3, 4] ∧ 0x400000 % PGSIZE = 0 ∧
      own_table stV 0x1000 0x400000 ∧ ¬ own_table stV 0x1000 0x1000 ∧
      0x1000 < 0x400000 ∧
      ∃ s', boot_map_region stV 0x1000 0x400000 0x1000 0x5000 PTE_W = Outcome.ret s' ∧
        pte s' 0x1000 0x400000 = 0x5003 ∧
        check_va2pa s' 0x1000 0x400000 = Outcome.ret 0x5000 ∧
        pte stV 0x1000 0x1000 = 0 ∧ pte s' 0x1000 0x1000 = 0x7003 ∧
        check_va2pa stV 0x1000 0x1000 = Outcome.ret 0xFFFFFFFF ∧
        check_va2pa s' 0x1000 0x1000 = Outcome.ret 0x7000) :=
  ⟨⟨by decide, by decide, by decide, by decide, _, rfl, rfl, rfl, rfl, rfl, rfl⟩,
    stV_apart, by decide, by decide, by decide, by decide,
    _, rfl, rfl, rfl, rfl, rfl, rfl, rfl⟩

/-- C23 (witness). Two pages at address 0 of `stF` mapped to the frames 5 and
6, with the table taken from the free list. -/
theorem boot_map_region_maps_witness :
    ∃ s', boot_map_region stF 0x1000 0 0x2000 0x5000 PTE_W = Outcome.ret s' ∧
      (∀ off, off < ROUNDUP 0x2000 PGSIZE → off % PGSIZE = 0 →
        pte s' 0x1000 (0 + off) = (0x5000 + off) ||| PTE_W ||| PTE_P ∧
        check_va2pa s' 0x1000 (0 + off) = Outcome.ret (0x5000 + off)) ∧
      (∀ b, b < 2 ^ 32 → (b < 0 ∨ 0 + ROUNDUP 0x2000 PGSIZE ≤ b) →
        ¬ own_table stF 0x1000 b →
        pte s' 0x1000 b = pte stF 0x1000 b ∧
        check_va2pa s' 0x1000 b = check_va2pa stF 0x1000 b) :=
  boot_map_region_maps stF 0x1000 [3, 4] [0] stF_apart (by decide) 0 0x2000 0x5000 PTE_W
    (by decide) (by decide) (by decide) (by decide) (by decide) (by decide) (by decide)
    (fun off ho _ => by
      have e : ROUNDUP 0x2000 PGSIZE = 0x2000 := by decide
      rw [e] at ho
      have e2 : PDX (0 + off) = 0 := by
        rw [PDX_eq_div]
        omega
      rw [e2]
      exact List.mem_cons_self 0 [])
    (fun _ _ hx => absurd hx.1 (by decide : ¬ present 0))

/-- C31 (witness). In `stB` the directory entry of address 0 is `0x3003`:
the walk returns the slot `0x3000` for both values of `create` and leaves
`stB` as it is. -/
theorem pgdir_walk_present_slot_witness :
    (KADDR stB (PTE_ADDR (rd stB (pde_slot 0x1000 0)))
        = Outcome.ret (PTE_ADDR (rd stB (pde_slot 0x1000 0))) ∧
      pgdir_walk stB 0x1000 0 NO_CREATE
        = Outcome.ret (some (PTE_ADDR (rd stB (pde_slot 0x1000 0)) + 4 * PTX 0), stB)) ∧
    (KADDR stB (PTE_ADDR (rd stB (pde_slot 0x1000 0)))
        = Outcome.ret (PTE_ADDR (rd stB (pde_slot 0x1000 0))) ∧
      pgdir_walk stB 0x1000 0 CREATE
        = Outcome.ret (some (PTE_ADDR (rd stB (pde_slot 0x1000 0)) + 4 * PTX 0), stB)) ∧
    PTE_ADDR (rd stB (pde_slot 0x1000 0)) + 4 * PTX 0 = 0x3000 :=
  ⟨pgdir_walk_present_slot stB stB_WF 0x1000 0 NO_CREATE (by decide) (by decide),
    pgdir_walk_present_slot stB stB_WF 0x1000 0 CREATE (by decide) (by decide), by decide⟩

theorem stT_WF : WF stT :=
  machine_WF _ _ _ _ (fun _ e => by cases e) (fun _ _ e => by cases e)
    (fun i => by
      show (if i = 2 then 2 else 1) < PP_REF_MOD
      split <;> decide)

/-- C32 (witness). In `stT` frame 2 is mapped at address 0 and has count 2.
`page_insert` of frame 4 at address 0 returns 0 and replaces the mapping, and
the log of invalidations is as empty as before: `tlb_invalidate` was not
called. -/
theorem page_insert_no_invalidate_witness :
    mapped stT 0x1000 0 2 ∧ (stT.pages 2).pp_ref = 2 ∧ stT.tlb = [] ∧
    ∃ s', page_insert stT 0x1000 (some 4) 0 PTE_W = Outcome.ret (0, s') ∧
      s'.tlb = (if (stT.pages 2).pp_ref = 1 then 0 :: stT.tlb else stT.tlb) ∧
      s'.tlb = [] ∧ mapped s' 0x1000 0 4 :=
  ⟨by decide, rfl, rfl,
    match page_insert_invalidates_iff stT stT_WF 0x1000 4 2 0 PTE_W (by decide) (by decide)
      (by decide) (by decide) (by decide) with
    | ⟨s', h1, h2⟩ => ⟨s', h1, h2, h2.trans rfl, by
        have e : Outcome.ret (0, s') = page_insert stT 0x1000 (some 4) 0 PTE_W := h1.symm
        have e2 : page_insert stT 0x1000 (some 4) 0 PTE_W = Outcome.ret (0, _) := rfl
        rw [e2] at e
        have e3 := (Prod.mk.inj (Outcome.ret.inj e)).2
        rw [e3]
        decide⟩⟩

/-- C33 (witness). In `stF` the free list is 3, 4. After `page_free` of the
head 3, frame 3 is its own successor, two `page_alloc` calls return frame 3,
and frame 4, on the list before, is not reachable any more. -/
theorem page_free_double_free_witness :
    on_free_list stF 4 ∧
    ((page_free stF (some 3)).pages 3).pp_link = some 3 ∧
    (page_free stF (some 3)).page_free_list = some 3 ∧
    (∀ x, on_free_list (page_free stF (some 3)) x ↔ x = 3) ∧
    ∃ s1 s2, page_alloc (page_free stF (some 3)) 0 = Outcome.ret (some 3, s1) ∧
      page_alloc s1 ALLOC_ZERO = Outcome.ret (some 3, s2) ∧
      (∀ x, on_free_list s1 x ↔ x = 3) ∧ (∀ x, ¬ on_free_list s2 x) :=
  ⟨⟨1, rfl⟩, page_free_double_free stF 3 rfl (by decide) 0 ALLOC_ZERO⟩

/-- C34 (witness). In `stH` the free list is 1024, 3, 1025, 4, with frames
at or above 4 MB and below 4 MB in turn. With `pp1` and `pp2` holding the
stale values 7 and 5, the block ends within 4 iterations and leaves the free
list 3, 4, 1024, 1025. -/
theorem check_page_free_list_reorder_witness :
    ([1024, 3, 1025, 4].filter low_frame
        ++ [1024, 3, 1025, 4].filter (fun x => !low_frame x) = [3, 4, 1024, 1025]) ∧
    ∃ s', check_page_free_list_reorder 4 stH (some 7) (some 5) = some s' ∧
      free_chain s' s'.page_free_list
        ([1024, 3, 1025, 4].filter low_frame
          ++ [1024, 3, 1025, 4].filter (fun x => !low_frame x)) ∧
      ([1024, 3, 1025, 4].filter low_frame
          ++ [1024, 3, 1025, 4].filter (fun x => !low_frame x)).Perm [1024, 3, 1025, 4] ∧
      ([1024, 3, 1025, 4].filter low_frame
          ++ [1024, 3, 1025, 4].filter (fun x => !low_frame x)).Nodup ∧
      links_only stH s' [1024, 3, 1025, 4] ∧
      ∀ x, x < 2 ^ 20 → (low_frame x = true ↔ page2pa x < 4194304) :=
  ⟨by decide,
    check_page_free_list_reorder_spec stH [1024, 3, 1025, 4] ⟨rfl, rfl, rfl, rfl, rfl⟩
      (by decide) (some 7) (some 5) 4 (by decide)⟩

end Pmap
